import Mathlib

/-!
# Verification of the Rush Hour search engine

A shallow embedding of the repository's core (`vehicle.py`, `board.py`,
`state.py`, `node.py`, `solver.py`) together with theorems settling the
specification claims.  Python's unbounded integers are modelled by `Int`
(lengths and path costs, which are always non-negative, by `Nat`), the
insertion-ordered vehicle dictionary by an association list, `frozenset`
of dict items by a `Finset` of pairs, and the occupancy grid by a total
function `Int → Int → Char` (defaulting to '.').
-/

namespace RushHour

/-- Vehicle orientation: 'h' or 'v' in the source. -/
inductive Orient where
  | h : Orient
  | v : Orient
deriving DecidableEq, Repr

/-- `vehicle.py`, class `Vehicle`: id, orientation, top-left column `x`,
row `y`, and length.  Equality is structural, as in `Vehicle.__eq__`. -/
structure Vehicle where
  id : Char
  orientation : Orient
  x : Int
  y : Int
  length : Nat
deriving DecidableEq, Repr

/-- `Vehicle.occupies(x, y)` from `vehicle.py`. -/
def Vehicle.occupies (v : Vehicle) (x y : Int) : Bool :=
  match v.orientation with
  | .h => v.y == y && v.x ≤ x && x < v.x + v.length
  | .v => v.x == x && v.y ≤ y && y < v.y + v.length

/-- `state.py`, class `State`: the insertion-ordered dict of vehicles,
modelled as an association list from id to `Vehicle`. -/
structure State where
  vehicles : List (Char × Vehicle)
deriving DecidableEq, Repr

/-- Dict lookup `self.vehicles[vid]`. -/
def State.lookup (s : State) (vid : Char) : Option Vehicle :=
  (s.vehicles.find? (fun p => p.1 == vid)).map Prod.snd

/-- `hash(frozenset(self.vehicles.items()))`: the frozenset of dict items.
`State.__eq__` compares these hashes, so two states are interchangeable
for the search exactly when their keys agree. -/
def State.key (s : State) : Finset (Char × Vehicle) :=
  s.vehicles.toFinset

/-- `board.py`, class `Board`: fixed 6x6 dimensions, initial vehicles,
and the goal cell. -/
structure Board where
  width : Int
  height : Int
  vehicles : List (Char × Vehicle)
  goal_pos : Int × Int
deriving Repr

/-- The goal-position computation in `Board.__init__`: the red car's row
when 'X' is present, otherwise the silent default `(5, 2)`. -/
def mkGoalPos (width : Int) (vehicles : List (Char × Vehicle)) : Int × Int :=
  match (vehicles.find? (fun p => p.1 == 'X')).map Prod.snd with
  | some red => (width - 1, red.y)
  | none => (5, 2)

/-- `Board.__init__` after `load_from_file` has produced the vehicle
mapping: sets `width = height = 6` and derives `goal_pos`. -/
def mkBoard (vehicles : List (Char × Vehicle)) : Board :=
  { width := 6, height := 6, vehicles := vehicles,
    goal_pos := mkGoalPos 6 vehicles }

/-- `State.is_goal_state`: the red car's trailing cell sits on
`board.goal_pos`.  (The Python raises `KeyError` when 'X' is absent;
every use below carries the hypothesis that 'X' is present, where the
two readings agree.) -/
def State.is_goal_state (s : State) (board : Board) : Bool :=
  match s.lookup 'X' with
  | some red =>
      (red.x + red.length - 1 == board.goal_pos.1) && (red.y == board.goal_pos.2)
  | none => false

/-- One cell-write of `State._create_grid`. -/
def writeCell (g : Int → Int → Char) (x y : Int) (c : Char) : Int → Int → Char :=
  fun x' y' => if x' = x ∧ y' = y then c else g x' y'

/-- The cells written for one vehicle in `State._create_grid`
(`grid[vehicle.y][vehicle.x + i] = vehicle.id` for `i < length` when
horizontal, `grid[vehicle.y + i][vehicle.x] = vehicle.id` when
vertical; the orientation test is loop-invariant, so it is hoisted
outside the loop here). -/
def writeVehicle (g : Int → Int → Char) (v : Vehicle) : Int → Int → Char :=
  match v.orientation with
  | .h => (List.range v.length).foldl
      (fun g (i : Nat) => writeCell g (v.x + i) v.y v.id) g
  | .v => (List.range v.length).foldl
      (fun g (i : Nat) => writeCell g v.x (v.y + i) v.id) g

/-- `State._create_grid`: an occupancy function built by writing every
vehicle's cells over an all-'.' grid, in mapping order. -/
def State.create_grid (s : State) : Int → Int → Char :=
  s.vehicles.foldl (fun g p => writeVehicle g p.2) (fun _ _ => '.')

/-- `copy.deepcopy(self.vehicles); new_vehicles[vid].x += 1` (resp. the
other three directions): update the one entry at key `vid` in place. -/
def moveEntry (vehicles : List (Char × Vehicle)) (vid : Char)
    (f : Vehicle → Vehicle) : List (Char × Vehicle) :=
  vehicles.map (fun p => if p.1 = vid then (p.1, f p.2) else p)

/-- The four single-cell moves. -/
def Vehicle.right (v : Vehicle) : Vehicle := { v with x := v.x + 1 }

def Vehicle.left (v : Vehicle) : Vehicle := { v with x := v.x - 1 }

def Vehicle.down (v : Vehicle) : Vehicle := { v with y := v.y + 1 }

def Vehicle.up (v : Vehicle) : Vehicle := { v with y := v.y - 1 }

/-- The body of one probe loop of `get_successors`, at loop index `i`
with `fuel` iterations of `range` left: `if test i: emit else: break`.
Every emitted successor is the same one-cell-moved state `moved`. -/
def probeGo (test : Int → Bool) (moved : State) (i : Int) : Nat → List State
  | 0 => []
  | fuel + 1 => if test i then moved :: probeGo test moved (i + 1) fuel else []

/-- One probe loop of `get_successors`: `for i in range(1, bound): if
test i: emit else: break`, starting at `i = 1` with `bound - 1`
iterations available. -/
def probe (test : Int → Bool) (moved : State) (bound : Int) : List State :=
  probeGo test moved 1 (bound - 1).toNat

/-- The successors contributed by one vehicle in `get_successors`:
right then left probes for a horizontal vehicle, down then up for a
vertical one, with the source's guard conditions. -/
def vehicleSuccessors (board : Board) (grid : Int → Int → Char)
    (vehicles : List (Char × Vehicle)) (vid : Char) (v : Vehicle) : List State :=
  match v.orientation with
  | .h =>
      probe (fun i => decide (v.x + v.length - 1 + i < board.width) &&
              (grid (v.x + v.length - 1 + i) v.y == '.'))
            ⟨moveEntry vehicles vid Vehicle.right⟩ board.width
      ++
      probe (fun i => decide (v.x - i ≥ 0) && (grid (v.x - i) v.y == '.'))
            ⟨moveEntry vehicles vid Vehicle.left⟩ board.width
  | .v =>
      probe (fun i => decide (v.y + v.length - 1 + i < board.height) &&
              (grid v.x (v.y + v.length - 1 + i) == '.'))
            ⟨moveEntry vehicles vid Vehicle.down⟩ board.height
      ++
      probe (fun i => decide (v.y - i ≥ 0) && (grid v.x (v.y - i) == '.'))
            ⟨moveEntry vehicles vid Vehicle.up⟩ board.height

/-- `State.get_successors`: iterate vehicles in mapping order,
concatenating each vehicle's emitted successors. -/
def State.get_successors (s : State) (board : Board) : List State :=
  let grid := s.create_grid
  s.vehicles.flatMap (fun p => vehicleSuccessors board grid s.vehicles p.1 p.2)

/-! ## State invariants -/

/-- Dict well-formedness, as established by `Board.load_from_file`:
keys are distinct (a Python dict cannot repeat a key), each vehicle's
`id` field agrees with its key, and no key is the reserved empty-cell
marker '.' (the loader only creates vehicles for characters other than
'.'). -/
def State.WF (s : State) : Prop :=
  (s.vehicles.map Prod.fst).Nodup ∧ (∀ p ∈ s.vehicles, p.2.id = p.1) ∧
    ∀ p ∈ s.vehicles, p.1 ≠ '.'

/-- A vehicle lies fully inside the 6x6 grid and has positive length. -/
def Vehicle.InBounds (v : Vehicle) : Prop :=
  1 ≤ v.length ∧ 0 ≤ v.x ∧ 0 ≤ v.y ∧
    match v.orientation with
    | .h => v.x + v.length ≤ 6 ∧ v.y < 6
    | .v => v.y + v.length ≤ 6 ∧ v.x < 6

/-- Two vehicles share no cell. -/
def Vehicle.Disj (v w : Vehicle) : Prop :=
  ∀ x y : Int, ¬(v.occupies x y = true ∧ w.occupies x y = true)

/-- The spec's State invariant: well-formed mapping, every vehicle in
bounds, no two vehicles overlapping. -/
def State.Inv (s : State) : Prop :=
  s.WF ∧ (∀ p ∈ s.vehicles, p.2.InBounds) ∧
    s.vehicles.Pairwise (fun p q => p.2.Disj q.2)

instance : DecidablePred Vehicle.InBounds := fun v =>
  decidable_of_iff (1 ≤ v.length ∧ 0 ≤ v.x ∧ 0 ≤ v.y ∧
      ((v.orientation = .h ∧ v.x + v.length ≤ 6 ∧ v.y < 6) ∨
       (v.orientation = .v ∧ v.y + v.length ≤ 6 ∧ v.x < 6)))
    (by unfold Vehicle.InBounds; rcases h : v.orientation <;> simp [h])

instance : ∀ v w : Vehicle, Decidable (Vehicle.Disj v w) := fun v w =>
  decidable_of_iff
    (∀ x ∈ Finset.Icc v.x (v.x + v.length), ∀ y ∈ Finset.Icc v.y (v.y + v.length),
      ¬(v.occupies x y = true ∧ w.occupies x y = true))
    (by
      constructor
      · intro h x y hc
        have hbox : x ∈ Finset.Icc v.x (v.x + v.length) ∧
            y ∈ Finset.Icc v.y (v.y + v.length) := by
          have hocc := hc.1
          unfold Vehicle.occupies at hocc
          rcases hv : v.orientation <;> rw [hv] at hocc <;>
            simp only [Bool.and_eq_true, decide_eq_true_eq,
              beq_iff_eq] at hocc <;>
            constructor <;> simp only [Finset.mem_Icc] <;> omega
        exact h x hbox.1 y hbox.2 hc
      · intro h x _ y _; exact h x y)

instance : DecidablePred State.WF := fun s => by
  unfold State.WF
  exact inferInstance

instance : DecidablePred State.Inv := fun s => by
  unfold State.Inv
  exact inferInstance

/-- The spec's notion of an empty cell: no vehicle occupies it. -/
def State.CellFree (s : State) (x y : Int) : Prop :=
  ∀ p ∈ s.vehicles, ¬ p.2.occupies x y = true

instance (s : State) (x y : Int) : Decidable (s.CellFree x y) :=
  List.decidableBAll _ s.vehicles

/-! ## Probe loops emit duplicate one-cell slides -/

/-- The length of the initial segment of `i, i+1, ...` (at most `fuel`
values) on which `test` holds: the number of iterations a `for ... if
... else break` loop body runs. -/
def countWhile (test : Int → Bool) (i : Int) : Nat → Nat
  | 0 => 0
  | fuel + 1 => if test i then countWhile test (i + 1) fuel + 1 else 0

/-- `AStarSolver._blocking_heuristic`: scan the red car's row from just
past its trailing edge to the last column, collect the set of non-'.'
grid characters, and return its size. -/
def blocking_heuristic (board : Board) (s : State) : Nat :=
  match s.lookup 'X' with
  | some red =>
      ((((List.range (board.width - (red.x + red.length)).toNat).map
          (fun (j : Nat) => s.create_grid (red.x + red.length + j) red.y)).filter
          (fun c => c != '.')).toFinset).card
  | none => 0

/-- Modelled from the spec: "count of distinct vehicles occupying cells
strictly between the target vehicle's trailing edge and the exit column
on its row" — the scanned columns stop short of the exit column
`board.width - 1` itself. -/
def strictBetweenBlockers (board : Board) (s : State) : Nat :=
  match s.lookup 'X' with
  | some red =>
      (((s.vehicles.filter (fun p =>
          (List.range ((board.width - 1) - (red.x + red.length)).toNat).any
            (fun j => p.2.occupies (red.x + red.length + j) red.y))).map
          Prod.fst).toFinset).card
  | none => 0

/-- The number of distinct vehicles occupying cells from just past the
target vehicle's trailing edge through the board's last column
inclusive, on the target's row: what the code actually counts. -/
def throughExitBlockers (board : Board) (s : State) : Nat :=
  match s.lookup 'X' with
  | some red =>
      (((s.vehicles.filter (fun p =>
          (List.range (board.width - (red.x + red.length)).toNat).any
            (fun j => p.2.occupies (red.x + red.length + j) red.y))).map
          Prod.fst).toFinset).card
  | none => 0

/-! ## Solvers (`node.py`, `solver.py`) -/

/-- A key in the Python sets/dicts of states: states compare by their
frozenset-of-items hash. -/
abbrev StateKey := Finset (Char × Vehicle)

/-- `node.py`, class `Node`: the state, the parent back-pointer chain
(modelled as the list of ancestor states, nearest parent first — the
chain `_reconstruct_path` walks), and the accumulated path cost.
`__lt__` orders nodes by `path_cost`. -/
structure Node where
  state : State
  rpath : List State
  path_cost : Nat
deriving DecidableEq, Repr

/-- `Solver._reconstruct_path`: walk the parent chain collecting states
(current first), then reverse. -/
def reconstruct (n : Node) : List State :=
  (n.state :: n.rpath).reverse

/-- The inner successor loop of `BfsSolver.solve`: skip explored
children, return as soon as an unexplored goal child is generated
(without enqueuing it), otherwise enqueue at the tail of the deque and
mark explored at insertion time. -/
def bfsExpand (board : Board) (parent : Node) :
    List State → List Node → Finset StateKey →
      Option (List State) × (List Node × Finset StateKey)
  | [], fr, ex => (none, (fr, ex))
  | st :: rest, fr, ex =>
      if st.key ∈ ex then
        bfsExpand board parent rest fr ex
      else if st.is_goal_state board then
        (some (reconstruct ⟨st, parent.state :: parent.rpath, 0⟩), (fr, ex))
      else
        bfsExpand board parent rest
          (fr ++ [⟨st, parent.state :: parent.rpath, 0⟩]) (insert st.key ex)

/-- The `while frontier:` loop of `BfsSolver.solve`, popping from the
left of the deque; `fuel` bounds the number of iterations (the value
`none` means the bound was hit, `some none` is the program's "no
solution" result). -/
def bfsLoop (board : Board) :
    Nat → List Node → Finset StateKey → Option (Option (List State))
  | 0, _, _ => none
  | _ + 1, [], _ => some none
  | fuel + 1, n :: fr, ex =>
      match bfsExpand board n (n.state.get_successors board) fr ex with
      | (some path, _) => some (some path)
      | (none, (fr', ex')) => bfsLoop board fuel fr' ex'

/-- `BfsSolver.solve`: special-case a goal root before the loop, then
run the loop from a frontier holding the root, with the root marked
explored. -/
def bfsSolve (board : Board) (s0 : State) (fuel : Nat) :
    Option (Option (List State)) :=
  if s0.is_goal_state board then some (some (reconstruct ⟨s0, [], 0⟩))
  else bfsLoop board fuel [⟨s0, [], 0⟩] {s0.key}

/-- The inner successor loop of `DfsSolver.solve`: identical to BFS
except nodes are pushed onto the stack (`list.append` + `list.pop()`
pops the most recently pushed, so pushing conses onto the head-is-top
stack). -/
def dfsExpand (board : Board) (parent : Node) :
    List State → List Node → Finset StateKey →
      Option (List State) × (List Node × Finset StateKey)
  | [], fr, ex => (none, (fr, ex))
  | st :: rest, fr, ex =>
      if st.key ∈ ex then
        dfsExpand board parent rest fr ex
      else if st.is_goal_state board then
        (some (reconstruct ⟨st, parent.state :: parent.rpath, 0⟩), (fr, ex))
      else
        dfsExpand board parent rest
          (⟨st, parent.state :: parent.rpath, 0⟩ :: fr) (insert st.key ex)

/-- The `while frontier:` loop of `DfsSolver.solve`, popping the top of
the stack. -/
def dfsLoop (board : Board) :
    Nat → List Node → Finset StateKey → Option (Option (List State))
  | 0, _, _ => none
  | _ + 1, [], _ => some none
  | fuel + 1, n :: fr, ex =>
      match dfsExpand board n (n.state.get_successors board) fr ex with
      | (some path, _) => some (some path)
      | (none, (fr', ex')) => dfsLoop board fuel fr' ex'

/-- `DfsSolver.solve`. -/
def dfsSolve (board : Board) (s0 : State) (fuel : Nat) :
    Option (Option (List State)) :=
  if s0.is_goal_state board then some (some (reconstruct ⟨s0, [], 0⟩))
  else dfsLoop board fuel [⟨s0, [], 0⟩] {s0.key}

/-- `heapq.heappop` on a heap of `Node`s ordered by `Node.__lt__`
(`path_cost`): remove and return a minimum-cost element.  The tie order
among equal costs is an implementation detail of the heap; the model
returns the earliest-pushed minimum. -/
def popMin : List Node → Option (Node × List Node)
  | [] => none
  | n :: fr =>
      match popMin fr with
      | none => some (n, [])
      | some (m, rest) =>
          if n.path_cost ≤ m.path_cost then some (n, fr)
          else some (m, n :: rest)

/-- The moved-vehicle scan of `UcsSolver.solve`/`AStarSolver.solve`:
find the first id whose vehicle differs between parent and successor
and read the moved vehicle's length from the successor.  (The
fall-through 0 branches correspond to `KeyError`/`None` situations the
Python code would crash on; they are unreachable for real successors.) -/
def movedCost (parent succ : State) : Nat :=
  match parent.vehicles.find? (fun p => !(succ.lookup p.1 == some p.2)) with
  | some p =>
      match succ.lookup p.1 with
      | some v' => v'.length
      | none => 0
  | none => 0

/-- The inner successor loop of `UcsSolver.solve`: compute the move
cost (length of the vehicle that moved), and push the child with
updated best-known cost when the state is new or the new path is
strictly cheaper. -/
def ucsExpand (board : Board) (parent : Node) :
    List State → List Node → (StateKey → Option Nat) →
      List Node × (StateKey → Option Nat)
  | [], fr, ex => (fr, ex)
  | st :: rest, fr, ex =>
      let nc := parent.path_cost + movedCost parent.state st
      match ex st.key with
      | none =>
          ucsExpand board parent rest
            (fr ++ [⟨st, parent.state :: parent.rpath, nc⟩])
            (Function.update ex st.key (some nc))
      | some c =>
          if nc < c then
            ucsExpand board parent rest
              (fr ++ [⟨st, parent.state :: parent.rpath, nc⟩])
              (Function.update ex st.key (some nc))
          else
            ucsExpand board parent rest fr ex

/-- The `while frontier:` loop of `UcsSolver.solve`: pop a minimum-cost
node, return its path if it is a goal (goal test on removal only), else
expand it. -/
def ucsLoop (board : Board) :
    Nat → List Node → (StateKey → Option Nat) → Option (Option (List State))
  | 0, _, _ => none
  | fuel + 1, fr, ex =>
      match popMin fr with
      | none => some none
      | some (n, fr') =>
          if n.state.is_goal_state board then some (some (reconstruct n))
          else
            ucsLoop board fuel
              (ucsExpand board n (n.state.get_successors board) fr' ex).1
              (ucsExpand board n (n.state.get_successors board) fr' ex).2

/-- `UcsSolver.solve`: no root special case beyond seeding the queue
with the root at cost 0 and `explored = {root: 0}`. -/
def ucsSolve (board : Board) (s0 : State) (fuel : Nat) :
    Option (Option (List State)) :=
  ucsLoop board fuel [⟨s0, [], 0⟩]
    (Function.update (fun _ => none) s0.key (some 0))

/-- `heapq.heappop` on the A* heap of `(priority, node)` tuples, which
Python compares lexicographically (priority first, then
`Node.__lt__`): remove and return a minimal element, earliest-pushed
among full ties. -/
def astarPopMin : List (Nat × Node) → Option ((Nat × Node) × List (Nat × Node))
  | [] => none
  | pn :: fr =>
      match astarPopMin fr with
      | none => some (pn, [])
      | some (qm, rest) =>
          if pn.1 < qm.1 ∨ (pn.1 = qm.1 ∧ pn.2.path_cost ≤ qm.2.path_cost) then
            some (pn, fr)
          else some (qm, pn :: rest)

/-- The inner successor loop of `AStarSolver.solve`: like UCS but each
pushed entry carries priority `new_cost + heuristic(successor)`. -/
def astarExpand (board : Board) (parent : Node) :
    List State → List (Nat × Node) → (StateKey → Option Nat) →
      List (Nat × Node) × (StateKey → Option Nat)
  | [], fr, ex => (fr, ex)
  | st :: rest, fr, ex =>
      let nc := parent.path_cost + movedCost parent.state st
      match ex st.key with
      | none =>
          astarExpand board parent rest
            (fr ++ [(nc + blocking_heuristic board st,
              ⟨st, parent.state :: parent.rpath, nc⟩)])
            (Function.update ex st.key (some nc))
      | some c =>
          if nc < c then
            astarExpand board parent rest
              (fr ++ [(nc + blocking_heuristic board st,
                ⟨st, parent.state :: parent.rpath, nc⟩)])
              (Function.update ex st.key (some nc))
          else
            astarExpand board parent rest fr ex

/-- The `while frontier:` loop of `AStarSolver.solve`: pop a minimal
`(priority, node)` tuple, return the node's path if it is a goal (goal
test on removal only), else expand it. -/
def astarLoop (board : Board) :
    Nat → List (Nat × Node) → (StateKey → Option Nat) →
      Option (Option (List State))
  | 0, _, _ => none
  | fuel + 1, fr, ex =>
      match astarPopMin fr with
      | none => some none
      | some (pn, fr') =>
          if pn.2.state.is_goal_state board then some (some (reconstruct pn.2))
          else
            astarLoop board fuel
              (astarExpand board pn.2 (pn.2.state.get_successors board) fr' ex).1
              (astarExpand board pn.2 (pn.2.state.get_successors board) fr' ex).2

/-- `AStarSolver.solve`: queue seeded with the root at priority
`h(root)` and `explored = {root: 0}`. -/
def astarSolve (board : Board) (s0 : State) (fuel : Nat) :
    Option (Option (List State)) :=
  astarLoop board fuel [(blocking_heuristic board s0, ⟨s0, [], 0⟩)]
    (Function.update (fun _ => none) s0.key (some 0))

/-! ## Concrete fixtures used by witnesses and counterexamples -/

/-- The target vehicle of the spec's §8 two-vehicle scenario. -/
def vX0 : Vehicle := ⟨'X', .h, 0, 2, 2⟩

/-- The vertical blocker of the spec's §8 two-vehicle scenario. -/
def vA0 : Vehicle := ⟨'A', .v, 4, 1, 2⟩

/-- The §8 two-vehicle initial state. -/
def sXA : State := ⟨[('X', vX0), ('A', vA0)]⟩

/-- The same mapping with the two entries in the opposite insertion
order. -/
def sAX : State := ⟨[('A', vA0), ('X', vX0)]⟩

/-- The board derived from `sXA`. -/
def bXA : Board := mkBoard sXA.vehicles

/-! ## C7: the heuristic scans through the exit column, not strictly
between -/

/-- A vertical blocker standing on the exit column of the red car's
row. -/
def vB5 : Vehicle := ⟨'B', .v, 5, 1, 2⟩

/-- Red car far left, blocker on the exit column of its row. -/
def sXB : State := ⟨[('X', vX0), ('B', vB5)]⟩

/-- The board derived from `sXB`. -/
def bXB : Board := mkBoard sXB.vehicles

/-! ## C1: k duplicate one-cell slides per direction, not k distinct
states -/

/-- Modelled from the spec: the number of consecutive empty in-bounds
cells beyond a horizontal vehicle's right trailing edge (probing stops
at the first blocked or out-of-bounds offset), stated in terms of
vehicle occupancy rather than the computed grid. -/
def freeRunRight (s : State) (board : Board) (v : Vehicle) : Nat :=
  countWhile (fun i => decide (v.x + v.length - 1 + i < board.width) &&
    decide (s.CellFree (v.x + v.length - 1 + i) v.y)) 1 (board.width - 1).toNat

/-- Spec-modelled free run to the left of a horizontal vehicle. -/
def freeRunLeft (s : State) (board : Board) (v : Vehicle) : Nat :=
  countWhile (fun i => decide (v.x - i ≥ 0) &&
    decide (s.CellFree (v.x - i) v.y)) 1 (board.width - 1).toNat

/-- Spec-modelled free run below a vertical vehicle. -/
def freeRunDown (s : State) (board : Board) (v : Vehicle) : Nat :=
  countWhile (fun i => decide (v.y + v.length - 1 + i < board.height) &&
    decide (s.CellFree v.x (v.y + v.length - 1 + i))) 1 (board.height - 1).toNat

/-- Spec-modelled free run above a vertical vehicle. -/
def freeRunUp (s : State) (board : Board) (v : Vehicle) : Nat :=
  countWhile (fun i => decide (v.y - i ≥ 0) &&
    decide (s.CellFree v.x (v.y - i))) 1 (board.height - 1).toNat

/-- The state reached from `sXA` by sliding 'X' one cell right. -/
def sXA_r1 : State := ⟨[('X', ⟨'X', .h, 1, 2, 2⟩), ('A', vA0)]⟩

/-! ## Shared search infrastructure: skeletons, the finite state
universe, path costs and chains -/

/-- The move-invariant data of a state: ids, orientations and lengths
in mapping order.  Successor generation only changes positions. -/
def skeleton (s : State) : List (Char × Orient × Nat) :=
  s.vehicles.map (fun p => (p.1, p.2.orientation, p.2.length))

/-- All 36 cells of the 6x6 grid. -/
def allCoords : List (Int × Int) :=
  (List.range 6).flatMap (fun (x : Nat) =>
    (List.range 6).map (fun (y : Nat) => ((x : Int), (y : Int))))

/-- Every vehicle list over a given skeleton with anchors on the grid. -/
def placements : List (Char × Orient × Nat) → List (List (Char × Vehicle))
  | [] => [[]]
  | (c, o, len) :: rest =>
      allCoords.flatMap (fun xy =>
        (placements rest).map (fun tail => (c, ⟨c, o, xy.1, xy.2, len⟩) :: tail))

/-- The finite set of state keys any search from `s0` can ever meet. -/
def universeKeys (s0 : State) : Finset StateKey :=
  ((placements (skeleton s0)).map (fun l => State.key ⟨l⟩)).toFinset

/-! ## C9: termination of the four solvers -/

/-- States a search from `s0` can hold: invariant plus unchanged
skeleton. -/
def GoodState (s0 s : State) : Prop :=
  s.Inv ∧ skeleton s = skeleton s0

/-- The number of keys in the finite universe reachable from `s0`. -/
def stateCount (s0 : State) : Nat := (universeKeys s0).card

/-- A fuel budget sufficient for the uninformed solvers. -/
def uninformedBound (s0 : State) : Nat := stateCount s0 + 1

/-- The cost of the parent chain ending at `s` with ancestors `anc`
(nearest parent first): the sum of moved-vehicle lengths over the
steps, the cost model of UCS/A*. -/
def pathCostR : State → List State → Nat
  | _, [] => 0
  | s, a :: rest => pathCostR a rest + movedCost a s

/-- The parent chain is a successor path. -/
def ChainR (board : Board) : State → List State → Prop
  | _, [] => True
  | s, a :: rest => s ∈ a.get_successors board ∧ ChainR board a rest

/-- Every chain element is recorded in the explored map with a value at
most its chain cost. -/
def ExLe (ex : StateKey → Option Nat) : State → List State → Prop
  | s, [] => ∃ c, ex s.key = some c ∧ c ≤ pathCostR s []
  | s, a :: rest =>
      (∃ c, ex s.key = some c ∧ c ≤ pathCostR s (a :: rest)) ∧ ExLe ex a rest

/-- Well-formedness of a weighted-search node: good states along an
acyclic successor chain, a path cost that matches the chain, and
explored entries dominating the chain costs. -/
def NodeOK (board : Board) (s0 : State) (ex : StateKey → Option Nat)
    (n : Node) : Prop :=
  GoodState s0 n.state ∧ (∀ t ∈ n.rpath, GoodState s0 t) ∧
    ChainR board n.state n.rpath ∧
    n.path_cost = pathCostR n.state n.rpath ∧
    ExLe ex n.state n.rpath ∧
    ((n.state :: n.rpath).map State.key).Nodup

/-- Pointwise weakening of the explored map: every recorded value only
ever decreases (or appears). -/
def ExDecr (ex ex' : StateKey → Option Nat) : Prop :=
  ∀ k c, ex k = some c → ∃ c', ex' k = some c' ∧ c' ≤ c

/-- The measure value of one explored entry: its recorded cost, or the
ceiling `B` when the key is unexplored. -/
def exVal (B : Nat) (o : Option Nat) : Nat := o.getD B

/-- The explored part of the weighted-search termination measure. -/
def exSum (s0 : State) (B : Nat) (ex : StateKey → Option Nat) : Nat :=
  (universeKeys s0).sum (fun k => exVal B (ex k))

/-- Strict upper bound on every cost the weighted searches can push. -/
def costBound (s0 : State) : Nat := 6 * stateCount s0 + 1

/-- A fuel budget sufficient for the weighted solvers. -/
def weightedBound (s0 : State) : Nat :=
  costBound s0 * stateCount s0 + 2

/-! ## Paths, solutions, and their relation to parent chains -/

/-- A root-first list of states in which each state is a generated
successor of the previous one. -/
def IsPath (board : Board) (p : List State) : Prop :=
  List.Chain' (fun a b => b ∈ a.get_successors board) p

/-- The claim's cost metric on a root-first path: the sum over
consecutive states of the length of the vehicle that moved. -/
def pathCost : List State → Nat
  | [] => 0
  | [_] => 0
  | a :: b :: rest => movedCost a b + pathCost (b :: rest)

/-- A full solution: starts at the initial state, staying a successor
path, ending in a goal state. -/
def ValidSolution (board : Board) (s0 : State) (p : List State) : Prop :=
  p.head? = some s0 ∧ IsPath board p ∧
    ∃ last, p.getLast? = some last ∧ last.is_goal_state board = true

/-- A node's chain is anchored at the initial state. -/
def Rooted (s0 : State) (n : Node) : Prop :=
  (n.state :: n.rpath).getLast? = some s0

/-- Per-node invariant of the BFS frontier: good acyclic-free rooted
chain, non-goal state, explored key, recorded insertion depth at least
the node's depth. -/
def BfsNodeOK (board : Board) (s0 : State) (ex : Finset StateKey)
    (D : StateKey → Nat) (n : Node) : Prop :=
  GoodState s0 n.state ∧ (∀ t ∈ n.rpath, GoodState s0 t) ∧
    ChainR board n.state n.rpath ∧ Rooted s0 n ∧
    n.state.is_goal_state board = false ∧
    n.state.key ∈ ex ∧ n.rpath.length ≤ D n.state.key

/-- Covering invariant: every valid solution is tracked by some
frontier node whose recorded depth is at most the matching index. -/
def BfsCov (board : Board) (s0 : State) (fr : List Node)
    (D : StateKey → Nat) : Prop :=
  ∀ q, ValidSolution board s0 q →
    ∃ n ∈ fr, ∃ i st, q[i]? = some st ∧ st.key = n.state.key ∧
      D n.state.key ≤ i

/-- A concrete solution on the two-vehicle fixture: slide `A` up once,
then slide `X` right four times to the exit. -/
def solPathXA : List State :=
  [sXA,
   ⟨[('X', ⟨'X', .h, 0, 2, 2⟩), ('A', ⟨'A', .v, 4, 0, 2⟩)]⟩,
   ⟨[('X', ⟨'X', .h, 1, 2, 2⟩), ('A', ⟨'A', .v, 4, 0, 2⟩)]⟩,
   ⟨[('X', ⟨'X', .h, 2, 2, 2⟩), ('A', ⟨'A', .v, 4, 0, 2⟩)]⟩,
   ⟨[('X', ⟨'X', .h, 3, 2, 2⟩), ('A', ⟨'A', .v, 4, 0, 2⟩)]⟩,
   ⟨[('X', ⟨'X', .h, 4, 2, 2⟩), ('A', ⟨'A', .v, 4, 0, 2⟩)]⟩]

/-- A fully-expanded explored entry: a good non-goal state with this
key whose every successor is explored at a cost within one move. -/
def UcsRight (board : Board) (s0 : State) (ex : StateKey → Option Nat)
    (k : StateKey) (e : Nat) : Prop :=
  ∃ s, GoodState s0 s ∧ s.key = k ∧ s.is_goal_state board = false ∧
    ∀ s' ∈ s.get_successors board, ∃ c', ex s'.key = some c' ∧
      c' ≤ e + movedCost s s'

/-- The UCS link invariant: every explored cost is realized by a
frontier node or dominated through a fully-expanded state. -/
def UcsLink (board : Board) (s0 : State) (fr : List Node)
    (ex : StateKey → Option Nat) : Prop :=
  ∀ k e, ex k = some e →
    (∃ n ∈ fr, n.state.key = k ∧ n.path_cost = e) ∨
    UcsRight board s0 ex k e

/-- Any cell a vehicle occupies lies in the closed box around its anchor. -/
theorem Vehicle.occupies_mem_box {v : Vehicle} {x y : Int}
    (h : v.occupies x y = true) :
    x ∈ Finset.Icc v.x (v.x + v.length) ∧ y ∈ Finset.Icc v.y (v.y + v.length) := by
  unfold Vehicle.occupies at h
  rcases hv : v.orientation <;> rw [hv] at h <;>
    simp only [Bool.and_eq_true, decide_eq_true_eq, beq_iff_eq] at h <;>
    constructor <;> simp only [Finset.mem_Icc] <;> omega

/-! ## The occupancy grid computes vehicle occupancy -/

theorem writeCell_apply (g : Int → Int → Char) (x y : Int) (c : Char) (x' y' : Int) :
    writeCell g x y c x' y' = if x' = x ∧ y' = y then c else g x' y' := rfl

theorem foldl_writeCell_h (vx vy : Int) (c : Char) :
    ∀ (n : Nat) (g : Int → Int → Char) (x y : Int),
      ((List.range n).foldl (fun g (i : Nat) => writeCell g (vx + i) vy c) g) x y
        = if y = vy ∧ vx ≤ x ∧ x < vx + (n : Int) then c else g x y := by
  intro n
  induction n with
  | zero =>
      intro g x y
      simp only [List.range_zero, List.foldl_nil]
      split_ifs with h
      · exfalso; omega
      · rfl
  | succ n ih =>
      intro g x y
      rw [List.range_succ, List.foldl_append]
      simp only [List.foldl_cons, List.foldl_nil, writeCell_apply, ih]
      split_ifs <;> first | rfl | (exfalso; omega)

theorem foldl_writeCell_v (vx vy : Int) (c : Char) :
    ∀ (n : Nat) (g : Int → Int → Char) (x y : Int),
      ((List.range n).foldl (fun g (i : Nat) => writeCell g vx (vy + i) c) g) x y
        = if x = vx ∧ vy ≤ y ∧ y < vy + (n : Int) then c else g x y := by
  intro n
  induction n with
  | zero =>
      intro g x y
      simp only [List.range_zero, List.foldl_nil]
      split_ifs with h
      · exfalso; omega
      · rfl
  | succ n ih =>
      intro g x y
      rw [List.range_succ, List.foldl_append]
      simp only [List.foldl_cons, List.foldl_nil, writeCell_apply, ih]
      split_ifs <;> first | rfl | (exfalso; omega)

/-- Writing one vehicle marks exactly the cells it occupies with its id. -/
theorem writeVehicle_apply (g : Int → Int → Char) (v : Vehicle) (x y : Int) :
    writeVehicle g v x y = if v.occupies x y = true then v.id else g x y := by
  unfold writeVehicle Vehicle.occupies
  rcases h : v.orientation with _ | _ <;> simp only [h]
  · rw [foldl_writeCell_h]
    simp only [Bool.and_eq_true, decide_eq_true_eq, beq_iff_eq]
    split_ifs <;> first | rfl | (exfalso; tauto)
  · rw [foldl_writeCell_v]
    simp only [Bool.and_eq_true, decide_eq_true_eq, beq_iff_eq]
    split_ifs <;> first | rfl | (exfalso; tauto)

theorem foldl_writeVehicle_of_not_occ :
    ∀ (l : List (Char × Vehicle)) (g : Int → Int → Char) (x y : Int),
      (∀ p ∈ l, ¬ p.2.occupies x y = true) →
      (l.foldl (fun g p => writeVehicle g p.2) g) x y = g x y := by
  intro l
  induction l with
  | nil => intro g x y _; rfl
  | cons p t ih =>
      intro g x y h
      simp only [List.foldl_cons]
      rw [ih _ x y (fun q hq => h q (List.mem_cons_of_mem p hq))]
      rw [writeVehicle_apply]
      simp [h p (List.mem_cons_self p t)]

theorem foldl_writeVehicle_of_occ :
    ∀ (l : List (Char × Vehicle)) (g : Int → Int → Char) (x y : Int) (p : Char × Vehicle),
      l.Pairwise (fun p q => p.2.Disj q.2) → p ∈ l → p.2.occupies x y = true →
      (l.foldl (fun g q => writeVehicle g q.2) g) x y = p.2.id := by
  intro l
  induction l with
  | nil => intro g x y p _ hmem; cases hmem
  | cons q t ih =>
      intro g x y p hpw hmem hocc
      rcases List.pairwise_cons.mp hpw with ⟨hq, hpw'⟩
      simp only [List.foldl_cons]
      rcases List.mem_cons.mp hmem with rfl | hmem'
      · rw [foldl_writeVehicle_of_not_occ]
        · rw [writeVehicle_apply]; simp [hocc]
        · intro r hr hro
          exact hq r hr x y ⟨hocc, hro⟩
      · exact ih _ x y p hpw' hmem' hocc

/-- Under the invariant, the grid holds '.' exactly at cells no vehicle
occupies. -/
theorem State.create_grid_eq_dot {s : State} (x y : Int)
    (h : ∀ p ∈ s.vehicles, ¬ p.2.occupies x y = true) :
    s.create_grid x y = '.' := by
  unfold State.create_grid
  exact foldl_writeVehicle_of_not_occ _ _ x y h

/-- Under the invariant, the grid holds the occupying vehicle's key at
each occupied cell. -/
theorem State.create_grid_eq_id {s : State} {p : Char × Vehicle} {x y : Int}
    (hinv : s.Inv) (hmem : p ∈ s.vehicles) (hocc : p.2.occupies x y = true) :
    s.create_grid x y = p.1 := by
  unfold State.create_grid
  rw [foldl_writeVehicle_of_occ _ _ x y p hinv.2.2 hmem hocc]
  exact hinv.1.2.1 p hmem

/-- Under the invariant the grid reads '.' exactly at free cells. -/
theorem State.create_grid_eq_dot_iff {s : State} (hinv : s.Inv) (x y : Int) :
    s.create_grid x y = '.' ↔ s.CellFree x y := by
  constructor
  · intro hg
    intro p hp hocc
    rw [State.create_grid_eq_id hinv hp hocc] at hg
    exact hinv.1.2.2 p hp hg
  · intro hfree
    exact State.create_grid_eq_dot x y hfree

theorem probeGo_eq_replicate (test : Int → Bool) (moved : State) :
    ∀ (fuel : Nat) (i : Int),
      probeGo test moved i fuel = List.replicate (countWhile test i fuel) moved := by
  intro fuel
  induction fuel with
  | zero => intro i; rfl
  | succ n ih =>
      intro i
      unfold probeGo countWhile
      by_cases h : test i <;> simp [h, ih, List.replicate_succ]

theorem probe_eq_replicate (test : Int → Bool) (moved : State) (bound : Int) :
    probe test moved bound
      = List.replicate (countWhile test 1 (bound - 1).toNat) moved :=
  probeGo_eq_replicate test moved _ 1

/-- Tests that agree on the scanned range give equal run lengths. -/
theorem countWhile_congr (test test' : Int → Bool) :
    ∀ (fuel : Nat) (i : Int), (∀ j : Int, i ≤ j → j < i + fuel → test j = test' j) →
      countWhile test i fuel = countWhile test' i fuel := by
  intro fuel
  induction fuel with
  | zero => intro i _; rfl
  | succ n ih =>
      intro i h
      unfold countWhile
      rw [h i le_rfl (by omega), ih (i + 1) (fun j hj hj' => h j (by omega) (by push_cast at hj' ⊢; omega))]

/-- If the probe emits anything, the first iteration's guard held. -/
theorem countWhile_pos_iff (test : Int → Bool) (i : Int) (fuel : Nat) :
    0 < countWhile test i fuel ↔ 0 < fuel ∧ test i = true := by
  cases fuel with
  | zero => simp [countWhile]
  | succ n =>
      unfold countWhile
      by_cases h : test i <;> simp [h]

/-! ## Lookup and single-entry update on the vehicle mapping -/

theorem lookup_eq_some_iff {s : State}
    (hnd : (s.vehicles.map Prod.fst).Nodup) {vid : Char} {v : Vehicle} :
    s.lookup vid = some v ↔ (vid, v) ∈ s.vehicles := by
  unfold State.lookup
  rcases s with ⟨l⟩
  simp only at hnd ⊢
  induction l with
  | nil => simp
  | cons p t ih =>
      rcases p with ⟨a, w⟩
      simp only [List.map_cons, List.nodup_cons] at hnd
      by_cases hp : a = vid
      · subst hp
        rw [List.find?_cons_of_pos _ (by simp)]
        constructor
        · intro hv
          have hwv : w = v := by simpa using hv
          subst hwv
          exact List.mem_cons_self _ _
        · intro hmem
          rcases List.mem_cons.mp hmem with heq | hmem'
          · rw [Prod.mk.injEq] at heq
            rw [heq.2]
            rfl
          · exact absurd (List.mem_map_of_mem Prod.fst hmem') hnd.1
      · rw [List.find?_cons_of_neg _ (by simp only [beq_iff_eq]; exact hp)]
        rw [ih hnd.2]
        constructor
        · exact fun hmem => List.mem_cons_of_mem _ hmem
        · intro hmem
          rcases List.mem_cons.mp hmem with heq | hmem'
          · rw [Prod.mk.injEq] at heq
            exact absurd heq.1.symm hp
          · exact hmem'

theorem lookup_eq_none_iff {s : State} {vid : Char} :
    s.lookup vid = none ↔ ∀ p ∈ s.vehicles, p.1 ≠ vid := by
  unfold State.lookup
  constructor
  · intro h p hp hpk
    cases hfind : s.vehicles.find? (fun q => q.1 == vid) with
    | none =>
        rw [List.find?_eq_none] at hfind
        exact hfind p hp (by simp [hpk])
    | some q =>
        rw [hfind] at h
        exact Option.noConfusion h
  · intro h
    have hf : s.vehicles.find? (fun q => q.1 == vid) = none := by
      rw [List.find?_eq_none]
      intro p hp
      simp [h p hp]
    rw [hf]
    rfl

/-- `moveEntry` leaves keys in place. -/
theorem moveEntry_map_fst (l : List (Char × Vehicle)) (vid : Char)
    (f : Vehicle → Vehicle) :
    (moveEntry l vid f).map Prod.fst = l.map Prod.fst := by
  unfold moveEntry
  rw [List.map_map]
  apply List.map_congr_left
  intro p _
  by_cases h : p.1 = vid <;> simp [h]

/-- Membership in a moved mapping. -/
theorem mem_moveEntry_iff {l : List (Char × Vehicle)} {vid : Char}
    {f : Vehicle → Vehicle} {q : Char × Vehicle} :
    q ∈ moveEntry l vid f ↔
      ∃ p ∈ l, q = if p.1 = vid then (p.1, f p.2) else p := by
  unfold moveEntry
  rw [List.mem_map]
  constructor
  · rintro ⟨p, hp, rfl⟩; exact ⟨p, hp, rfl⟩
  · rintro ⟨p, hp, rfl⟩; exact ⟨p, hp, rfl⟩

/-! ## C2: state equality is mapping equality, insertion-order free -/

/-- Shared helper: the equality/hash key coincides for two well-formed
states exactly when their vehicle mappings agree under every id. -/
theorem key_eq_iff_lookup_eq {s t : State} (hs : s.WF) (ht : t.WF) :
    s.key = t.key ↔ ∀ vid : Char, s.lookup vid = t.lookup vid := by
  unfold State.key
  constructor
  · intro hkey vid
    cases hlook : s.lookup vid with
    | some v =>
        have hmem : (vid, v) ∈ s.vehicles := (lookup_eq_some_iff hs.1).mp hlook
        have hmem' : (vid, v) ∈ t.vehicles := by
          rw [← List.mem_toFinset, ← hkey, List.mem_toFinset]
          exact hmem
        exact ((lookup_eq_some_iff ht.1).mpr hmem').symm
    | none =>
        rw [lookup_eq_none_iff] at hlook
        cases hlook' : t.lookup vid with
        | some w =>
            have hmem' : (vid, w) ∈ t.vehicles := (lookup_eq_some_iff ht.1).mp hlook'
            have hmem : (vid, w) ∈ s.vehicles := by
              rw [← List.mem_toFinset, hkey, List.mem_toFinset]
              exact hmem'
            exact absurd rfl (hlook (vid, w) hmem)
        | none => rfl
  · intro hlook
    ext ⟨vid, v⟩
    rw [List.mem_toFinset, List.mem_toFinset,
      ← lookup_eq_some_iff hs.1, ← lookup_eq_some_iff ht.1, hlook vid]

/-- C2: for well-formed states, the equality/hash key (the frozenset of
dict items that `State.__init__` hashes and `__eq__`/`__hash__`
compare) coincides for two states exactly when their vehicle mappings
are equal as mappings — the same vehicle under every id — regardless of
the insertion/iteration order of the keys. -/
theorem C2_state_eq_iff_mapping_eq {s t : State} (hs : s.WF) (ht : t.WF) :
    s.key = t.key ↔ ∀ vid : Char, s.lookup vid = t.lookup vid :=
  key_eq_iff_lookup_eq hs ht

/-- Witness for C2 at a concrete pair of states that list the same two
vehicles in opposite insertion orders. -/
theorem C2_witness :
    sXA.key = sAX.key ↔ ∀ vid : Char, sXA.lookup vid = sAX.lookup vid :=
  C2_state_eq_iff_mapping_eq (by decide) (by decide)

/-- Equal keys of well-formed states give equal goal status. -/
theorem is_goal_congr {s t : State} {board : Board} (hs : s.WF) (ht : t.WF)
    (hk : s.key = t.key) : s.is_goal_state board = t.is_goal_state board := by
  unfold State.is_goal_state
  rw [(key_eq_iff_lookup_eq hs ht).mp hk 'X']

/-- Counterexample to C7 as stated: with a blocker occupying only the
exit column of the red car's row, the code's heuristic counts it (value
1) although no vehicle occupies a cell strictly between the trailing
edge and the exit column (value 0). -/
theorem C7_counterexample :
    blocking_heuristic bXB sXB = 1 ∧ strictBetweenBlockers bXB sXB = 0 := by
  decide

/-- C7 (amended): the heuristic equals the number of distinct vehicles
occupying cells from just past the target's trailing edge through the
board's last column inclusive — the exit column itself included — on
the target's row. -/
theorem C7_heuristic_counts_through_exit {board : Board} {s : State}
    (hinv : s.Inv) :
    blocking_heuristic board s = throughExitBlockers board s := by
  unfold blocking_heuristic throughExitBlockers
  cases hred : s.lookup 'X' with
  | none => rfl
  | some red =>
      apply congrArg Finset.card
      ext c
      simp only [List.mem_toFinset, List.mem_filter, List.mem_map, List.mem_range,
        List.any_eq_true, bne_iff_ne, ne_eq]
      constructor
      · rintro ⟨⟨j, hj, rfl⟩, hne⟩
        by_cases hfree : s.CellFree (red.x + red.length + j) red.y
        · exact absurd (State.create_grid_eq_dot _ _ hfree) hne
        · unfold State.CellFree at hfree
          push_neg at hfree
          obtain ⟨p, hp, hocc⟩ := hfree
          exact ⟨p, ⟨hp, ⟨j, hj, hocc⟩⟩,
            (State.create_grid_eq_id hinv hp hocc).symm⟩
      · rintro ⟨p, ⟨hp, j, hj, hocc⟩, rfl⟩
        refine ⟨⟨j, hj, State.create_grid_eq_id hinv hp hocc⟩, ?_⟩
        exact hinv.1.2.2 p hp

/-- Witness for the amended C7 at the concrete exit-column-blocker
state. -/
theorem C7_witness : blocking_heuristic bXB sXB = throughExitBlockers bXB sXB :=
  C7_heuristic_counts_through_exit (by decide)

/-- Counterexample to C1 as stated: from `sXA` the red car has k = 2
consecutive empty in-bounds cells to its right, and `get_successors`
indeed emits two successors for that probe — but they are the *same*
state (both the single one-cell slide), not distinct states. -/
theorem C1_counterexample :
    (sXA.get_successors bXA).take 2 = [sXA_r1, sXA_r1] ∧
      ¬ (sXA.get_successors bXA).Nodup := by
  constructor
  · rfl
  · decide

/-- Under the invariant, the grid's emptiness test agrees with
occupancy-based cell freeness. -/
theorem grid_dot_test {s : State} (hinv : s.Inv) (x y : Int) :
    (s.create_grid x y == '.') = decide (s.CellFree x y) := by
  by_cases h : s.CellFree x y
  · rw [(State.create_grid_eq_dot_iff hinv x y).mpr h]
    simp [h]
  · have : ¬ s.create_grid x y = '.' :=
      fun hg => h ((State.create_grid_eq_dot_iff hinv x y).mp hg)
    simp [h, this]

/-- Shared characterization: under the invariant the successor list
decomposes vehicle-by-vehicle into, per direction, a run of equal
one-cell-slide states, one emission per consecutive empty in-bounds
cell beyond the trailing edge. -/
theorem successors_eq_runs {s : State} {board : Board} (hinv : s.Inv) :
    s.get_successors board = s.vehicles.flatMap (fun p =>
      match p.2.orientation with
      | .h => List.replicate (freeRunRight s board p.2)
                ⟨moveEntry s.vehicles p.1 Vehicle.right⟩
              ++ List.replicate (freeRunLeft s board p.2)
                ⟨moveEntry s.vehicles p.1 Vehicle.left⟩
      | .v => List.replicate (freeRunDown s board p.2)
                ⟨moveEntry s.vehicles p.1 Vehicle.down⟩
              ++ List.replicate (freeRunUp s board p.2)
                ⟨moveEntry s.vehicles p.1 Vehicle.up⟩) := by
  unfold State.get_successors
  apply List.flatMap_congr
  intro p _
  unfold vehicleSuccessors freeRunRight freeRunLeft freeRunDown freeRunUp
  cases hor : p.2.orientation <;>
    simp only [probe_eq_replicate, grid_dot_test hinv]

/-- C1 (amended): for every state satisfying the invariant, the
successor list decomposes vehicle-by-vehicle into, per direction, a
run of k *equal* one-cell-slide states — one emission per consecutive
empty in-bounds cell beyond the trailing edge, probing stopped at the
first blocked or out-of-bounds offset — where a slide of k cells
yields k duplicate copies of the single one-cell slide, not k distinct
states. -/
theorem C1_successors_run_characterization {s : State} {board : Board}
    (hinv : s.Inv) :
    s.get_successors board = s.vehicles.flatMap (fun p =>
      match p.2.orientation with
      | .h => List.replicate (freeRunRight s board p.2)
                ⟨moveEntry s.vehicles p.1 Vehicle.right⟩
              ++ List.replicate (freeRunLeft s board p.2)
                ⟨moveEntry s.vehicles p.1 Vehicle.left⟩
      | .v => List.replicate (freeRunDown s board p.2)
                ⟨moveEntry s.vehicles p.1 Vehicle.down⟩
              ++ List.replicate (freeRunUp s board p.2)
                ⟨moveEntry s.vehicles p.1 Vehicle.up⟩) :=
  successors_eq_runs hinv

/-- Witness for the amended C1 at the concrete two-vehicle state. -/
theorem C1_witness :
    sXA.get_successors bXA = sXA.vehicles.flatMap (fun p =>
      match p.2.orientation with
      | .h => List.replicate (freeRunRight sXA bXA p.2)
                ⟨moveEntry sXA.vehicles p.1 Vehicle.right⟩
              ++ List.replicate (freeRunLeft sXA bXA p.2)
                ⟨moveEntry sXA.vehicles p.1 Vehicle.left⟩
      | .v => List.replicate (freeRunDown sXA bXA p.2)
                ⟨moveEntry sXA.vehicles p.1 Vehicle.down⟩
              ++ List.replicate (freeRunUp sXA bXA p.2)
                ⟨moveEntry sXA.vehicles p.1 Vehicle.up⟩) :=
  C1_successors_run_characterization (by decide)

/-! ## C6: silently defaulted goal position when 'X' is absent -/

/-- C6 (code bug): a Board built from a vehicle mapping with no target
vehicle 'X' does not fail — `Board.__init__` silently defaults
`goal_pos` to `(5, 2)` — while a mapping containing 'X' gets `goal_pos`
derived from the target's row as `(width - 1, X.y)`. -/
theorem C6_board_goal_default :
    (mkBoard [('A', vA0)]).goal_pos = (5, 2) ∧
      (mkBoard sXA.vehicles).goal_pos = (5, vX0.y) := by
  constructor <;> rfl

/-! ## C8: each successor moves exactly one vehicle by exactly one cell -/

/-- Everything a probe loop emits is the single moved state. -/
theorem eq_moved_of_mem_probe {test : Int → Bool} {moved s' : State}
    {bound : Int} (h : s' ∈ probe test moved bound) : s' = moved := by
  rw [probe_eq_replicate] at h
  exact List.eq_of_mem_replicate h

/-- Raw shape of a successor: some vehicle moved one cell along its
orientation axis, the rest of the mapping untouched (no state
invariant needed). -/
theorem shape_of_mem_successors {s s' : State} {board : Board}
    (h : s' ∈ s.get_successors board) :
    ∃ p ∈ s.vehicles,
      (p.2.orientation = .h ∧
        (s' = ⟨moveEntry s.vehicles p.1 Vehicle.right⟩ ∨
         s' = ⟨moveEntry s.vehicles p.1 Vehicle.left⟩)) ∨
      (p.2.orientation = .v ∧
        (s' = ⟨moveEntry s.vehicles p.1 Vehicle.down⟩ ∨
         s' = ⟨moveEntry s.vehicles p.1 Vehicle.up⟩)) := by
  unfold State.get_successors at h
  rw [List.mem_flatMap] at h
  obtain ⟨p, hp, hmem⟩ := h
  refine ⟨p, hp, ?_⟩
  unfold vehicleSuccessors at hmem
  cases hor : p.2.orientation with
  | h =>
      rw [hor] at hmem
      rcases List.mem_append.mp hmem with h' | h'
      · exact Or.inl ⟨rfl, Or.inl (eq_moved_of_mem_probe h')⟩
      · exact Or.inl ⟨rfl, Or.inr (eq_moved_of_mem_probe h')⟩
  | v =>
      rw [hor] at hmem
      rcases List.mem_append.mp hmem with h' | h'
      · exact Or.inr ⟨rfl, Or.inl (eq_moved_of_mem_probe h')⟩
      · exact Or.inr ⟨rfl, Or.inr (eq_moved_of_mem_probe h')⟩

/-- Looking up the moved id returns the moved vehicle. -/
theorem lookup_moveEntry_self {l : List (Char × Vehicle)} {vid : Char}
    {v : Vehicle} (hnd : (l.map Prod.fst).Nodup)
    (hmem : (vid, v) ∈ l) (f : Vehicle → Vehicle) :
    State.lookup ⟨moveEntry l vid f⟩ vid = some (f v) := by
  apply (lookup_eq_some_iff (s := ⟨moveEntry l vid f⟩) (by
    show ((moveEntry l vid f).map Prod.fst).Nodup
    rw [moveEntry_map_fst]; exact hnd)).mpr
  show (vid, f v) ∈ moveEntry l vid f
  rw [mem_moveEntry_iff]
  exact ⟨(vid, v), hmem, by simp⟩

/-- Looking up any other id is unchanged by the move. -/
theorem lookup_moveEntry_other {l : List (Char × Vehicle)} {vid other : Char}
    (hne : other ≠ vid) (f : Vehicle → Vehicle) :
    State.lookup ⟨moveEntry l vid f⟩ other = State.lookup (⟨l⟩ : State) other := by
  unfold State.lookup moveEntry
  simp only
  induction l with
  | nil => rfl
  | cons p t ih =>
      simp only [List.map_cons]
      by_cases hp : p.1 = vid
      · rw [if_pos hp]
        rw [List.find?_cons_of_neg _ (by
              simp only [beq_iff_eq, hp]; exact fun h => hne h.symm),
          List.find?_cons_of_neg _ (by
              simp only [beq_iff_eq, hp]; exact fun h => hne h.symm)]
        exact ih
      · rw [if_neg hp]
        cases hfind : (p.1 == other) with
        | true =>
            rw [List.find?_cons_of_pos (p := fun q : Char × Vehicle => q.1 == other) _ hfind,
              List.find?_cons_of_pos (p := fun q : Char × Vehicle => q.1 == other) _ hfind]
        | false =>
            rw [List.find?_cons_of_neg _ (by simp_all),
              List.find?_cons_of_neg _ (by simp_all)]
            exact ih

/-- C8: every successor is a fresh mapping with the same keys in the
same order, in which exactly one vehicle's position changed, by
exactly one cell along its own orientation axis, with id, orientation
and length intact, and every other vehicle's entry untouched (the
parent state itself, being a value, is unchanged by construction). -/
theorem C8_one_vehicle_one_cell {s s' : State} {board : Board}
    (hwf : s.WF) (h : s' ∈ s.get_successors board) :
    s'.vehicles.map Prod.fst = s.vehicles.map Prod.fst ∧
      ∃ vid v v', s.lookup vid = some v ∧ s'.lookup vid = some v' ∧
        v'.id = v.id ∧ v'.orientation = v.orientation ∧ v'.length = v.length ∧
        (match v.orientation with
         | .h => v'.y = v.y ∧ (v'.x = v.x + 1 ∨ v'.x = v.x - 1)
         | .v => v'.x = v.x ∧ (v'.y = v.y + 1 ∨ v'.y = v.y - 1)) ∧
        ∀ other : Char, other ≠ vid → s'.lookup other = s.lookup other := by
  obtain ⟨p, hp, hcase⟩ := shape_of_mem_successors h
  have hlook : s.lookup p.1 = some p.2 :=
    (lookup_eq_some_iff hwf.1).mpr (by rw [Prod.mk.eta]; exact hp)
  have hp' : (p.1, p.2) ∈ s.vehicles := by rw [Prod.mk.eta]; exact hp
  rcases hcase with ⟨hor, hmv | hmv⟩ | ⟨hor, hmv | hmv⟩ <;> subst hmv <;>
    refine ⟨moveEntry_map_fst _ _ _, p.1, p.2, _, hlook,
      lookup_moveEntry_self hwf.1 hp' _, rfl, rfl, rfl, ?_, ?_⟩ <;>
    first
      | (rw [hor]; exact ⟨rfl, Or.inl rfl⟩)
      | (rw [hor]; exact ⟨rfl, Or.inr rfl⟩)
      | (intro other hne
         rw [lookup_moveEntry_other hne])

/-- A state whose vehicles sit on the grid, whose ids match their keys,
and whose skeleton matches, has its key in the universe. -/
theorem key_mem_universeKeys {s s0 : State}
    (hsk : skeleton s = skeleton s0)
    (hids : ∀ p ∈ s.vehicles, p.2.id = p.1)
    (hbounds : ∀ p ∈ s.vehicles, p.2.InBounds) :
    s.key ∈ universeKeys s0 := by
  unfold universeKeys
  rw [List.mem_toFinset, List.mem_map]
  refine ⟨s.vehicles, ?_, rfl⟩
  rw [← hsk]
  clear hsk
  unfold skeleton
  rcases s with ⟨l⟩
  simp only at hids hbounds ⊢
  induction l with
  | nil => exact List.mem_singleton.mpr rfl
  | cons p t ih =>
      simp only [List.map_cons]
      show _ ∈ placements ((p.1, p.2.orientation, p.2.length) :: t.map _)
      unfold placements
      rw [List.mem_flatMap]
      have hv := hbounds p (List.mem_cons_self _ _)
      have hvid := hids p (List.mem_cons_self _ _)
      obtain ⟨hlen, hx0, hy0, hbox⟩ := hv
      have hx6 : p.2.x < 6 := by
        rcases ho : p.2.orientation with _ | _ <;> rw [ho] at hbox
        · omega
        · exact hbox.2
      have hy6 : p.2.y < 6 := by
        rcases ho : p.2.orientation with _ | _ <;> rw [ho] at hbox
        · exact hbox.2
        · omega
      refine ⟨(p.2.x, p.2.y), ?_, ?_⟩
      · unfold allCoords
        rw [List.mem_flatMap]
        refine ⟨p.2.x.toNat, by rw [List.mem_range]; omega, ?_⟩
        rw [List.mem_map]
        exact ⟨p.2.y.toNat, by rw [List.mem_range]; omega, by
          rw [Prod.mk.injEq]
          constructor <;> omega⟩
      · rw [List.mem_map]
        refine ⟨t, ?_, ?_⟩
        · exact ih (fun q hq => hids q (List.mem_cons_of_mem _ hq))
            (fun q hq => hbounds q (List.mem_cons_of_mem _ hq))
        · show (p.1, (⟨p.1, p.2.orientation, p.2.x, p.2.y, p.2.length⟩ : Vehicle)) :: t
              = p :: t
          have hveh : (⟨p.1, p.2.orientation, p.2.x, p.2.y, p.2.length⟩ : Vehicle)
              = p.2 := by rw [← hvid]
          rw [hveh, Prod.mk.eta]

/-- Successors have the same skeleton as their parent. -/
theorem skeleton_succ {s s' : State} {board : Board}
    (h : s' ∈ s.get_successors board) : skeleton s' = skeleton s := by
  obtain ⟨p, -, hcase⟩ := shape_of_mem_successors h
  have hmv : ∀ (f : Vehicle → Vehicle),
      (∀ v : Vehicle, (f v).orientation = v.orientation ∧ (f v).length = v.length) →
      skeleton ⟨moveEntry s.vehicles p.1 f⟩ = skeleton s := by
    intro f hf
    unfold skeleton moveEntry
    rw [List.map_map]
    apply List.map_congr_left
    intro q _
    by_cases hq : q.1 = p.1 <;> simp [hq, (hf q.2).1, (hf q.2).2]
  rcases hcase with ⟨-, hmv' | hmv'⟩ | ⟨-, hmv' | hmv'⟩ <;> subst hmv' <;>
    exact hmv _ (fun v => ⟨rfl, rfl⟩)

/-- The single moves change the vehicle. -/
theorem move_ne (v : Vehicle) :
    Vehicle.right v ≠ v ∧ Vehicle.left v ≠ v ∧
      Vehicle.down v ≠ v ∧ Vehicle.up v ≠ v := by
  refine ⟨?_, ?_, ?_, ?_⟩ <;>
    · intro h
      have := congrArg Vehicle.x h
      have := congrArg Vehicle.y h
      simp only [Vehicle.right, Vehicle.left, Vehicle.down, Vehicle.up] at *
      omega

/-- `find?` returns the head of the first true suffix. -/
theorem find?_append_first {α : Type} {p : α → Bool} :
    ∀ (l1 : List α) (a : α) (l2 : List α), (∀ x ∈ l1, p x = false) →
      p a = true → List.find? p (l1 ++ a :: l2) = some a := by
  intro l1
  induction l1 with
  | nil =>
      intro a l2 _ ha
      rw [List.nil_append]
      exact List.find?_cons_of_pos _ ha
  | cons x t ih =>
      intro a l2 hf ha
      rw [List.cons_append, List.find?_cons_of_neg _ (by
        rw [hf x (List.mem_cons_self _ _)]
        exact Bool.false_ne_true)]
      exact ih a l2 (fun y hy => hf y (List.mem_cons_of_mem _ hy)) ha

/-- What the moved-vehicle scan computes on a real successor: the
length of the unique vehicle that moved, which is between 1 and 6 when
the parent satisfies the invariant. -/
theorem movedCost_eq {s s' : State} {board : Board} (hinv : s.Inv)
    (h : s' ∈ s.get_successors board) :
    ∃ vid v v', s.lookup vid = some v ∧ s'.lookup vid = some v' ∧
      v'.length = v.length ∧ movedCost s s' = v.length ∧
      1 ≤ v.length ∧ v.length ≤ 6 := by
  obtain ⟨p, hp, hcase⟩ := shape_of_mem_successors h
  have hnd := hinv.1.1
  have hp' : (p.1, p.2) ∈ s.vehicles := by rw [Prod.mk.eta]; exact hp
  have hlook : s.lookup p.1 = some p.2 := (lookup_eq_some_iff hnd).mpr hp'
  obtain ⟨hlen1, hbox⟩ : 1 ≤ p.2.length ∧ p.2.length ≤ 6 := by
    obtain ⟨h1, hx0, hy0, hb⟩ := hinv.2.1 p hp
    refine ⟨h1, ?_⟩
    rcases ho : p.2.orientation with _ | _ <;> rw [ho] at hb <;> omega
  have main : ∀ (f : Vehicle → Vehicle), f p.2 ≠ p.2 →
      (f p.2).length = p.2.length →
      s' = (⟨moveEntry s.vehicles p.1 f⟩ : State) →
      ∃ vid v v', s.lookup vid = some v ∧ s'.lookup vid = some v' ∧
        v'.length = v.length ∧ movedCost s s' = v.length ∧
        1 ≤ v.length ∧ v.length ≤ 6 := by
    intro f hne hflen hs'
    have hlook' : s'.lookup p.1 = some (f p.2) := by
      rw [hs']
      exact lookup_moveEntry_self hnd hp' f
    refine ⟨p.1, p.2, f p.2, hlook, hlook', hflen, ?_, hlen1, hbox⟩
    obtain ⟨l1, l2, hsplit⟩ := List.append_of_mem hp'
    have hl1keys : ∀ q ∈ l1, q.1 ≠ p.1 := by
      intro q hq hqk
      have hmapped : (s.vehicles.map Prod.fst) =
          l1.map Prod.fst ++ p.1 :: l2.map Prod.fst := by
        rw [hsplit, List.map_append, List.map_cons]
      rw [hmapped] at hnd
      rw [List.nodup_middle] at hnd
      rcases List.nodup_cons.mp hnd with ⟨hnotmem, -⟩
      apply hnotmem
      rw [List.mem_append]
      exact Or.inl (by rw [← hqk]; exact List.mem_map_of_mem Prod.fst hq)
    have hfind : s.vehicles.find? (fun q => !(s'.lookup q.1 == some q.2))
        = some (p.1, p.2) := by
      rw [hsplit]
      apply find?_append_first
      · intro q hq
        have hq2 : q ∈ s.vehicles := by
          rw [hsplit, List.mem_append]
          exact Or.inl hq
        have hlq : s.lookup q.1 = some q.2 :=
          (lookup_eq_some_iff hnd).mpr (by rw [Prod.mk.eta]; exact hq2)
        have : s'.lookup q.1 = some q.2 := by
          rw [hs', lookup_moveEntry_other (hl1keys q hq)]
          exact hlq
        rw [this]
        simp
      · rw [hlook']
        simp only [Bool.not_eq_true', beq_eq_false_iff_ne, ne_eq,
          Option.some_inj]
        intro hc
        exact hne hc
    unfold movedCost
    rw [hfind]
    show (match s'.lookup p.1 with
          | some v' => v'.length
          | none => 0) = p.2.length
    rw [hlook']
    exact hflen
  rcases hcase with ⟨-, hmv | hmv⟩ | ⟨-, hmv | hmv⟩
  · exact main Vehicle.right (move_ne p.2).1 rfl hmv
  · exact main Vehicle.left (move_ne p.2).2.1 rfl hmv
  · exact main Vehicle.down (move_ne p.2).2.2.1 rfl hmv
  · exact main Vehicle.up (move_ne p.2).2.2.2 rfl hmv

/-- `popMin` never fails on a nonempty list. -/
theorem popMin_ne_none {fr : List Node} (h : fr ≠ []) :
    popMin fr ≠ none := by
  cases fr with
  | nil => exact absurd rfl h
  | cons m rest =>
      unfold popMin
      cases popMin rest with
      | none => simp
      | some p =>
          rcases p with ⟨m', rest'⟩
          by_cases hle : m.path_cost ≤ m'.path_cost <;> simp [hle]

/-- `popMin` returns an element of the list and the rest of it. -/
theorem popMin_perm : ∀ {fr : List Node} {n : Node} {fr' : List Node},
    popMin fr = some (n, fr') → fr.Perm (n :: fr') := by
  intro fr
  induction fr with
  | nil => intro n fr' h; cases h
  | cons m rest ih =>
      intro n fr' h
      unfold popMin at h
      cases hrec : popMin rest with
      | none =>
          rw [hrec] at h
          cases rest with
          | nil =>
              cases h
              exact List.Perm.refl _
          | cons a b =>
              exact absurd hrec (popMin_ne_none (by simp))
      | some p =>
          rw [hrec] at h
          rcases p with ⟨m', rest'⟩
          have h2 : (if m.path_cost ≤ m'.path_cost then some (m, rest)
              else some (m', m :: rest')) = some (n, fr') := h
          by_cases hle : m.path_cost ≤ m'.path_cost
          · rw [if_pos hle] at h2
            cases h2
            exact List.Perm.refl _
          · rw [if_neg hle] at h2
            cases h2
            exact (List.Perm.cons m (ih hrec)).trans (List.Perm.swap _ _ _)

/-! ## C5: where each strategy checks the goal -/

/-- Unfolding equations for the expand/loop functions (definitional). -/
theorem bfsExpand_nil (board : Board) (parent : Node) (fr : List Node)
    (ex : Finset StateKey) : bfsExpand board parent [] fr ex = (none, (fr, ex)) := rfl

theorem bfsExpand_cons (board : Board) (parent : Node) (st : State)
    (rest : List State) (fr : List Node) (ex : Finset StateKey) :
    bfsExpand board parent (st :: rest) fr ex
      = if st.key ∈ ex then bfsExpand board parent rest fr ex
        else if st.is_goal_state board then
          (some (reconstruct ⟨st, parent.state :: parent.rpath, 0⟩), (fr, ex))
        else bfsExpand board parent rest
          (fr ++ [⟨st, parent.state :: parent.rpath, 0⟩]) (insert st.key ex) := rfl

theorem dfsExpand_nil (board : Board) (parent : Node) (fr : List Node)
    (ex : Finset StateKey) : dfsExpand board parent [] fr ex = (none, (fr, ex)) := rfl

theorem dfsExpand_cons (board : Board) (parent : Node) (st : State)
    (rest : List State) (fr : List Node) (ex : Finset StateKey) :
    dfsExpand board parent (st :: rest) fr ex
      = if st.key ∈ ex then dfsExpand board parent rest fr ex
        else if st.is_goal_state board then
          (some (reconstruct ⟨st, parent.state :: parent.rpath, 0⟩), (fr, ex))
        else dfsExpand board parent rest
          (⟨st, parent.state :: parent.rpath, 0⟩ :: fr) (insert st.key ex) := rfl

theorem ucsLoop_succ (board : Board) (fuel : Nat) (fr : List Node)
    (ex : StateKey → Option Nat) :
    ucsLoop board (fuel + 1) fr ex
      = match popMin fr with
        | none => some none
        | some (n, fr') =>
            if n.state.is_goal_state board then some (some (reconstruct n))
            else
              ucsLoop board fuel
                (ucsExpand board n (n.state.get_successors board) fr' ex).1
                (ucsExpand board n (n.state.get_successors board) fr' ex).2 := rfl

theorem astarLoop_succ (board : Board) (fuel : Nat) (fr : List (Nat × Node))
    (ex : StateKey → Option Nat) :
    astarLoop board (fuel + 1) fr ex
      = match astarPopMin fr with
        | none => some none
        | some (pn, fr') =>
            if pn.2.state.is_goal_state board then some (some (reconstruct pn.2))
            else
              astarLoop board fuel
                (astarExpand board pn.2 (pn.2.state.get_successors board) fr' ex).1
                (astarExpand board pn.2 (pn.2.state.get_successors board) fr' ex).2 := rfl

/-- C5: (i) BFS and DFS special-case a goal root before entering the
main loop (they answer even with zero loop iterations available);
(ii) UCS and A* have no such shortcut — with zero loop iterations they
answer nothing even on a goal root, and need the bootstrap pop of the
first iteration to return it; (iii) the BFS/DFS successor loop returns
the moment the first unexplored goal child is generated — the result
ignores every later successor, and the frontier/explored pair at the
return point is exactly the one built from the earlier successors, so
the goal child is never enqueued; (iv) UCS and A* test the goal only
on a node popped from the priority queue: a popped goal returns its
path, and a popped non-goal leads to expansion and continuation
regardless of any goal states among the generated successors. -/
theorem C5_goal_check_discipline :
    (∀ (board : Board) (s0 : State) (fuel : Nat), s0.is_goal_state board = true →
        bfsSolve board s0 fuel = some (some [s0]) ∧
        dfsSolve board s0 fuel = some (some [s0]))
    ∧ (∀ (board : Board) (s0 : State), s0.is_goal_state board = true →
        ucsSolve board s0 0 = none ∧ astarSolve board s0 0 = none ∧
        ucsSolve board s0 1 = some (some [s0]) ∧
        astarSolve board s0 1 = some (some [s0]))
    ∧ (∀ (board : Board) (parent : Node) (pre : List State) (g : State)
        (post : List State) (fr : List Node) (ex : Finset StateKey),
        (∀ st ∈ pre, st.WF) → g.WF →
        (∀ st ∈ pre, st.key ∈ ex ∨ st.is_goal_state board = false) →
        g.key ∉ ex → g.is_goal_state board = true →
        (bfsExpand board parent (pre ++ g :: post) fr ex).1
            = some (reconstruct ⟨g, parent.state :: parent.rpath, 0⟩) ∧
        (bfsExpand board parent (pre ++ g :: post) fr ex).2
            = (bfsExpand board parent pre fr ex).2 ∧
        (dfsExpand board parent (pre ++ g :: post) fr ex).1
            = some (reconstruct ⟨g, parent.state :: parent.rpath, 0⟩) ∧
        (dfsExpand board parent (pre ++ g :: post) fr ex).2
            = (dfsExpand board parent pre fr ex).2)
    ∧ (∀ (board : Board) (fuel : Nat) (fr fr' : List Node) (n : Node)
        (ex : StateKey → Option Nat), popMin fr = some (n, fr') →
        (n.state.is_goal_state board = true →
          ucsLoop board (fuel + 1) fr ex = some (some (reconstruct n))) ∧
        (n.state.is_goal_state board = false →
          ucsLoop board (fuel + 1) fr ex = ucsLoop board fuel
            (ucsExpand board n (n.state.get_successors board) fr' ex).1
            (ucsExpand board n (n.state.get_successors board) fr' ex).2))
    ∧ (∀ (board : Board) (fuel : Nat) (fr fr' : List (Nat × Node))
        (pn : Nat × Node) (ex : StateKey → Option Nat),
        astarPopMin fr = some (pn, fr') →
        (pn.2.state.is_goal_state board = true →
          astarLoop board (fuel + 1) fr ex = some (some (reconstruct pn.2))) ∧
        (pn.2.state.is_goal_state board = false →
          astarLoop board (fuel + 1) fr ex = astarLoop board fuel
            (astarExpand board pn.2 (pn.2.state.get_successors board) fr' ex).1
            (astarExpand board pn.2 (pn.2.state.get_successors board) fr' ex).2)) := by
  refine ⟨?_, ?_, ?_, ?_, ?_⟩
  · intro board s0 fuel h
    constructor
    · unfold bfsSolve
      rw [if_pos h]
      rfl
    · unfold dfsSolve
      rw [if_pos h]
      rfl
  · intro board s0 h
    refine ⟨rfl, rfl, ?_, ?_⟩
    · unfold ucsSolve
      rw [ucsLoop_succ,
        show popMin [(⟨s0, [], 0⟩ : Node)] = some (⟨s0, [], 0⟩, []) from rfl]
      simp only [h, if_true]
      rfl
    · unfold astarSolve
      rw [astarLoop_succ,
        show astarPopMin [(blocking_heuristic board s0, (⟨s0, [], 0⟩ : Node))]
          = some ((blocking_heuristic board s0, ⟨s0, [], 0⟩), []) from rfl]
      simp only [h, if_true]
      rfl
  · intro board parent pre g post fr ex hwfpre hwfg hpre hg hgoal
    induction pre generalizing fr ex with
    | nil =>
        refine ⟨?_, ?_, ?_, ?_⟩ <;>
          simp only [List.nil_append, bfsExpand_cons, dfsExpand_cons,
            bfsExpand_nil, dfsExpand_nil, if_neg hg, if_pos hgoal]
    | cons st pre ih =>
        have hwfpre' : ∀ u ∈ pre, u.WF :=
          fun u hu => hwfpre u (List.mem_cons_of_mem st hu)
        have hpre' : ∀ u ∈ pre, u.key ∈ ex ∨ u.is_goal_state board = false :=
          fun u hu => hpre u (List.mem_cons_of_mem st hu)
        by_cases hmem : st.key ∈ ex
        · simp only [List.cons_append, bfsExpand_cons, dfsExpand_cons, if_pos hmem]
          exact ih fr ex hwfpre' hpre' hg
        · have hnotgoal : st.is_goal_state board = false := by
            rcases hpre st (List.mem_cons_self st pre) with h | h
            · exact absurd h hmem
            · exact h
          have hng : ¬ st.is_goal_state board = true := by
            rw [hnotgoal]; decide
          simp only [List.cons_append, bfsExpand_cons, dfsExpand_cons,
            if_neg hmem, if_neg hng]
          have hpre2 : ∀ u ∈ pre, u.key ∈ insert st.key ex ∨
              u.is_goal_state board = false := fun u hu => by
            rcases hpre' u hu with h | h
            · exact Or.inl (Finset.mem_insert_of_mem h)
            · exact Or.inr h
          have hg2 : g.key ∉ insert st.key ex := by
            rw [Finset.mem_insert]
            rintro (hk | hk)
            · have heq : g.is_goal_state board = st.is_goal_state board :=
                is_goal_congr hwfg (hwfpre st (List.mem_cons_self st pre)) hk
              rw [hgoal, hnotgoal] at heq
              exact absurd heq (by decide)
            · exact hg hk
          have h1 := ih (fr ++ [⟨st, parent.state :: parent.rpath, 0⟩])
            (insert st.key ex) hwfpre' hpre2 hg2
          have h2 := ih (⟨st, parent.state :: parent.rpath, 0⟩ :: fr)
            (insert st.key ex) hwfpre' hpre2 hg2
          exact ⟨h1.1, h1.2.1, h2.2.2.1, h2.2.2.2⟩
  · intro board fuel fr fr' n ex hpop
    constructor
    · intro hgoal
      rw [ucsLoop_succ, hpop]
      simp only [hgoal, if_true]
    · intro hnotgoal
      rw [ucsLoop_succ, hpop]
      simp only [hnotgoal, Bool.false_eq_true, if_false]
  · intro board fuel fr fr' pn ex hpop
    constructor
    · intro hgoal
      rw [astarLoop_succ, hpop]
      simp only [hgoal, if_true]
    · intro hnotgoal
      rw [astarLoop_succ, hpop]
      simp only [hnotgoal, Bool.false_eq_true, if_false]

/-- Witness for C5 at a concrete goal root, concrete expansion lists,
and a concrete popped configuration. -/
theorem C5_witness :
    ((⟨[('X', ⟨'X', .h, 4, 2, 2⟩)]⟩ : State).is_goal_state
        (mkBoard [('X', ⟨'X', .h, 4, 2, 2⟩)]) = true) ∧
      bfsSolve (mkBoard [('X', ⟨'X', .h, 4, 2, 2⟩)])
        ⟨[('X', ⟨'X', .h, 4, 2, 2⟩)]⟩ 0
        = some (some [⟨[('X', ⟨'X', .h, 4, 2, 2⟩)]⟩]) ∧
      ucsSolve (mkBoard [('X', ⟨'X', .h, 4, 2, 2⟩)])
        ⟨[('X', ⟨'X', .h, 4, 2, 2⟩)]⟩ 0 = none ∧
      ucsSolve (mkBoard [('X', ⟨'X', .h, 4, 2, 2⟩)])
        ⟨[('X', ⟨'X', .h, 4, 2, 2⟩)]⟩ 1
        = some (some [⟨[('X', ⟨'X', .h, 4, 2, 2⟩)]⟩]) := by
  have h : (⟨[('X', ⟨'X', .h, 4, 2, 2⟩)]⟩ : State).is_goal_state
      (mkBoard [('X', ⟨'X', .h, 4, 2, 2⟩)]) = true := by decide
  exact ⟨h, (C5_goal_check_discipline.1 _ _ 0 h).1,
    (C5_goal_check_discipline.2.1 _ _ h).1,
    (C5_goal_check_discipline.2.1 _ _ h).2.2.1⟩

/-! ## C4: successors preserve separation and bounds -/

theorem Vehicle.Disj.symm {v w : Vehicle} (h : v.Disj w) : w.Disj v :=
  fun x y hc => h x y ⟨hc.2, hc.1⟩

/-- Two entries of a nodup-keyed mapping with the same key carry the
same vehicle. -/
theorem key_unique {l : List (Char × Vehicle)}
    (hnd : (l.map Prod.fst).Nodup) {k : Char} {v w : Vehicle}
    (hv : (k, v) ∈ l) (hw : (k, w) ∈ l) : v = w := by
  have h1 : State.lookup ⟨l⟩ k = some v := (lookup_eq_some_iff hnd).mpr hv
  have h2 : State.lookup ⟨l⟩ k = some w := (lookup_eq_some_iff hnd).mpr hw
  rw [h1] at h2
  exact Option.some_inj.mp h2

/-- Occupancy of a horizontal vehicle, spelled arithmetically. -/
theorem occupies_h {v : Vehicle} (hor : v.orientation = .h) (x y : Int) :
    v.occupies x y = true ↔ v.y = y ∧ v.x ≤ x ∧ x < v.x + (v.length : Int) := by
  unfold Vehicle.occupies
  rw [hor]
  simp only [Bool.and_eq_true, decide_eq_true_eq, beq_iff_eq]
  omega

/-- Occupancy of a vertical vehicle, spelled arithmetically. -/
theorem occupies_v {v : Vehicle} (hor : v.orientation = .v) (x y : Int) :
    v.occupies x y = true ↔ v.x = x ∧ v.y ≤ y ∧ y < v.y + (v.length : Int) := by
  unfold Vehicle.occupies
  rw [hor]
  simp only [Bool.and_eq_true, decide_eq_true_eq, beq_iff_eq]
  omega

theorem occupies_right_cases {v : Vehicle} (hor : v.orientation = .h)
    {x y : Int} (h : (v.right).occupies x y = true) :
    v.occupies x y = true ∨ (x = v.x + v.length ∧ y = v.y) := by
  rw [occupies_h (v := v.right) hor] at h
  rw [occupies_h hor]
  simp only [Vehicle.right] at h
  omega

theorem occupies_left_cases {v : Vehicle} (hor : v.orientation = .h)
    {x y : Int} (h : (v.left).occupies x y = true) :
    v.occupies x y = true ∨ (x = v.x - 1 ∧ y = v.y) := by
  rw [occupies_h (v := v.left) hor] at h
  rw [occupies_h hor]
  simp only [Vehicle.left] at h
  omega

theorem occupies_down_cases {v : Vehicle} (hor : v.orientation = .v)
    {x y : Int} (h : (v.down).occupies x y = true) :
    v.occupies x y = true ∨ (x = v.x ∧ y = v.y + v.length) := by
  rw [occupies_v (v := v.down) hor] at h
  rw [occupies_v hor]
  simp only [Vehicle.down] at h
  omega

theorem occupies_up_cases {v : Vehicle} (hor : v.orientation = .v)
    {x y : Int} (h : (v.up).occupies x y = true) :
    v.occupies x y = true ∨ (x = v.x ∧ y = v.y - 1) := by
  rw [occupies_v (v := v.up) hor] at h
  rw [occupies_v hor]
  simp only [Vehicle.up] at h
  omega

/-- Moving one vehicle into a free target cell preserves the state
invariant, provided the move only adds that one free cell to the
vehicle's footprint and lands in bounds. -/
theorem moveEntry_inv {s : State} {p : Char × Vehicle} (hinv : s.Inv)
    (hp : p ∈ s.vehicles) (f : Vehicle → Vehicle) (cx cy : Int)
    (hid : (f p.2).id = p.2.id)
    (hcases : ∀ x y : Int, (f p.2).occupies x y = true →
      p.2.occupies x y = true ∨ (x = cx ∧ y = cy))
    (hfree : s.CellFree cx cy)
    (hib : (f p.2).InBounds) :
    State.Inv ⟨moveEntry s.vehicles p.1 f⟩ := by
  obtain ⟨⟨hnd, hids, hdot⟩, hbounds, hpw⟩ := hinv
  have hkey : ∀ r ∈ s.vehicles, r.1 = p.1 → r = p := by
    intro r hr hrk
    have h1 : (p.1, r.2) ∈ s.vehicles := by
      have hrr : (r.1, r.2) ∈ s.vehicles := by rw [Prod.mk.eta]; exact hr
      rwa [hrk] at hrr
    have h2 : (p.1, p.2) ∈ s.vehicles := by rw [Prod.mk.eta]; exact hp
    have h3 : r.2 = p.2 := key_unique hnd h1 h2
    calc r = (r.1, r.2) := (Prod.mk.eta).symm
    _ = (p.1, p.2) := by rw [hrk, h3]
    _ = p := Prod.mk.eta
  refine ⟨⟨?_, ?_, ?_⟩, ?_, ?_⟩
  · show ((moveEntry s.vehicles p.1 f).map Prod.fst).Nodup
    rw [moveEntry_map_fst]; exact hnd
  · intro q hq
    rw [mem_moveEntry_iff] at hq
    obtain ⟨r, hr, rfl⟩ := hq
    by_cases hrk : r.1 = p.1
    · rw [if_pos hrk]
      have := hkey r hr hrk
      subst this
      simpa [hid] using hids r hr
    · rw [if_neg hrk]
      exact hids r hr
  · intro q hq
    rw [mem_moveEntry_iff] at hq
    obtain ⟨r, hr, rfl⟩ := hq
    by_cases hrk : r.1 = p.1
    · rw [if_pos hrk]
      exact hdot r hr
    · rw [if_neg hrk]
      exact hdot r hr
  · intro q hq
    rw [mem_moveEntry_iff] at hq
    obtain ⟨r, hr, rfl⟩ := hq
    by_cases hrk : r.1 = p.1
    · rw [if_pos hrk]
      have := hkey r hr hrk
      subst this
      exact hib
    · rw [if_neg hrk]
      exact hbounds r hr
  · show ((moveEntry s.vehicles p.1 f)).Pairwise (fun a b => a.2.Disj b.2)
    unfold moveEntry
    rw [List.pairwise_map]
    have hnd' : s.vehicles.Pairwise (fun a b => a.1 ≠ b.1) :=
      (List.pairwise_map.mp hnd)
    have hcomb := hpw.and hnd'
    refine hcomb.imp_of_mem ?_
    intro a b ha hb hab
    obtain ⟨hdisj, hkne⟩ := hab
    by_cases hak : a.1 = p.1 <;> by_cases hbk : b.1 = p.1
    · exact absurd (hak.trans hbk.symm) hkne
    · rw [if_pos hak, if_neg hbk]
      have ha' := hkey a ha hak
      subst ha'
      intro x y ⟨h1, h2⟩
      rcases hcases x y h1 with hocc | ⟨rfl, rfl⟩
      · exact hdisj x y ⟨hocc, h2⟩
      · exact hfree b hb h2
    · rw [if_neg hak, if_pos hbk]
      have hb' := hkey b hb hbk
      subst hb'
      intro x y ⟨h1, h2⟩
      rcases hcases x y h2 with hocc | ⟨rfl, rfl⟩
      · exact hdisj x y ⟨h1, hocc⟩
      · exact hfree a ha h1
    · rw [if_neg hak, if_neg hbk]
      exact hdisj

/-- Shared helper: successor states satisfy the invariant. -/
theorem successors_inv {s : State} {board : Board}
    (hinv : s.Inv) (hw : board.width = 6) (hh : board.height = 6) :
    ∀ s' ∈ s.get_successors board, s'.Inv := by
  intro s' h
  rw [successors_eq_runs hinv] at h
  rw [List.mem_flatMap] at h
  obtain ⟨p, hp, hmem⟩ := h
  have hib := hinv.2.1 p hp
  obtain ⟨hlen, hx0, hy0, hbox⟩ := hib
  cases hor : p.2.orientation with
  | h =>
      rw [hor] at hmem hbox
      rcases List.mem_append.mp hmem with h' | h' <;>
        obtain ⟨hne, rfl⟩ := List.mem_replicate.mp h'
      · -- right move
        obtain ⟨-, htest⟩ := (countWhile_pos_iff _ _ _).mp (Nat.pos_of_ne_zero hne)
        rw [Bool.and_eq_true, decide_eq_true_eq, decide_eq_true_eq] at htest
        obtain ⟨hbnd, hfree⟩ := htest
        have harith : p.2.x + (p.2.length : Int) - 1 + 1 = p.2.x + p.2.length := by ring
        rw [harith] at hbnd hfree
        refine moveEntry_inv hinv hp Vehicle.right (p.2.x + p.2.length) p.2.y rfl
          (fun x y hxy => occupies_right_cases hor hxy) hfree ?_
        refine ⟨hlen, by simp [Vehicle.right]; omega, by simp [Vehicle.right]; omega, ?_⟩
        show match (Vehicle.right p.2).orientation with
          | .h => (Vehicle.right p.2).x + ((Vehicle.right p.2).length : Int) ≤ 6 ∧
              (Vehicle.right p.2).y < 6
          | .v => (Vehicle.right p.2).y + ((Vehicle.right p.2).length : Int) ≤ 6 ∧
              (Vehicle.right p.2).x < 6
        have : (Vehicle.right p.2).orientation = .h := hor
        rw [this]
        constructor
        · show p.2.x + 1 + (p.2.length : Int) ≤ 6
          rw [hw] at hbnd
          omega
        · exact hbox.2
      · -- left move
        obtain ⟨-, htest⟩ := (countWhile_pos_iff _ _ _).mp (Nat.pos_of_ne_zero hne)
        rw [Bool.and_eq_true, decide_eq_true_eq, decide_eq_true_eq] at htest
        obtain ⟨hbnd, hfree⟩ := htest
        refine moveEntry_inv hinv hp Vehicle.left (p.2.x - 1) p.2.y rfl
          (fun x y hxy => occupies_left_cases hor hxy) hfree ?_
        refine ⟨hlen, by simp [Vehicle.left]; omega, by simp [Vehicle.left]; omega, ?_⟩
        have : (Vehicle.left p.2).orientation = .h := hor
        show match (Vehicle.left p.2).orientation with
          | .h => (Vehicle.left p.2).x + ((Vehicle.left p.2).length : Int) ≤ 6 ∧
              (Vehicle.left p.2).y < 6
          | .v => (Vehicle.left p.2).y + ((Vehicle.left p.2).length : Int) ≤ 6 ∧
              (Vehicle.left p.2).x < 6
        rw [this]
        constructor
        · show p.2.x - 1 + (p.2.length : Int) ≤ 6
          omega
        · exact hbox.2
  | v =>
      rw [hor] at hmem hbox
      rcases List.mem_append.mp hmem with h' | h' <;>
        obtain ⟨hne, rfl⟩ := List.mem_replicate.mp h'
      · -- down move
        obtain ⟨-, htest⟩ := (countWhile_pos_iff _ _ _).mp (Nat.pos_of_ne_zero hne)
        rw [Bool.and_eq_true, decide_eq_true_eq, decide_eq_true_eq] at htest
        obtain ⟨hbnd, hfree⟩ := htest
        have harith : p.2.y + (p.2.length : Int) - 1 + 1 = p.2.y + p.2.length := by ring
        rw [harith] at hbnd hfree
        refine moveEntry_inv hinv hp Vehicle.down p.2.x (p.2.y + p.2.length) rfl
          (fun x y hxy => occupies_down_cases hor hxy) hfree ?_
        refine ⟨hlen, by simp [Vehicle.down]; omega, by simp [Vehicle.down]; omega, ?_⟩
        have : (Vehicle.down p.2).orientation = .v := hor
        show match (Vehicle.down p.2).orientation with
          | .h => (Vehicle.down p.2).x + ((Vehicle.down p.2).length : Int) ≤ 6 ∧
              (Vehicle.down p.2).y < 6
          | .v => (Vehicle.down p.2).y + ((Vehicle.down p.2).length : Int) ≤ 6 ∧
              (Vehicle.down p.2).x < 6
        rw [this]
        constructor
        · show p.2.y + 1 + (p.2.length : Int) ≤ 6
          rw [hh] at hbnd
          omega
        · exact hbox.2
      · -- up move
        obtain ⟨-, htest⟩ := (countWhile_pos_iff _ _ _).mp (Nat.pos_of_ne_zero hne)
        rw [Bool.and_eq_true, decide_eq_true_eq, decide_eq_true_eq] at htest
        obtain ⟨hbnd, hfree⟩ := htest
        refine moveEntry_inv hinv hp Vehicle.up p.2.x (p.2.y - 1) rfl
          (fun x y hxy => occupies_up_cases hor hxy) hfree ?_
        refine ⟨hlen, by simp [Vehicle.up]; omega, by simp [Vehicle.up]; omega, ?_⟩
        have : (Vehicle.up p.2).orientation = .v := hor
        show match (Vehicle.up p.2).orientation with
          | .h => (Vehicle.up p.2).x + ((Vehicle.up p.2).length : Int) ≤ 6 ∧
              (Vehicle.up p.2).y < 6
          | .v => (Vehicle.up p.2).y + ((Vehicle.up p.2).length : Int) ≤ 6 ∧
              (Vehicle.up p.2).x < 6
        rw [this]
        constructor
        · show p.2.y - 1 + (p.2.length : Int) ≤ 6
          omega
        · exact hbox.2

/-- C4: from any state satisfying the invariant, every successor state
again has pairwise non-overlapping vehicles all inside the 6x6 grid
(the board being the program's fixed 6x6 board). -/
theorem C4_successors_preserve_invariant {s : State} {board : Board}
    (hinv : s.Inv) (hw : board.width = 6) (hh : board.height = 6) :
    ∀ s' ∈ s.get_successors board, s'.Inv :=
  successors_inv hinv hw hh

/-- Witness for C4 at the concrete two-vehicle state and board: the
generated one-cell slide of `X` again satisfies the invariant. -/
theorem C4_witness : sXA_r1.Inv :=
  @C4_successors_preserve_invariant sXA bXA (by decide) (by decide)
    (by decide) sXA_r1
    (by rw [show sXA_r1 = (sXA.get_successors bXA).head (by decide)
          from rfl]
        exact List.head_mem _)

/-- Witness for C8 on the first successor of the concrete two-vehicle
state. -/
theorem C8_witness :
    sXA_r1.vehicles.map Prod.fst = sXA.vehicles.map Prod.fst ∧
      ∃ vid v v', sXA.lookup vid = some v ∧ sXA_r1.lookup vid = some v' ∧
        v'.id = v.id ∧ v'.orientation = v.orientation ∧ v'.length = v.length ∧
        (match v.orientation with
         | .h => v'.y = v.y ∧ (v'.x = v.x + 1 ∨ v'.x = v.x - 1)
         | .v => v'.x = v.x ∧ (v'.y = v.y + 1 ∨ v'.y = v.y - 1)) ∧
        ∀ other : Char, other ≠ vid → sXA_r1.lookup other = sXA.lookup other :=
  @C8_one_vehicle_one_cell sXA sXA_r1 bXA (by decide)
    (by rw [show sXA_r1 = (sXA.get_successors bXA).head (by decide) from rfl]
        exact List.head_mem _)

theorem goodState_key_mem {s0 s : State} (h : GoodState s0 s) :
    s.key ∈ universeKeys s0 :=
  key_mem_universeKeys h.2 h.1.1.2.1 h.1.2.1

theorem goodState_succ {s0 s s' : State} {board : Board}
    (hw : board.width = 6) (hh : board.height = 6)
    (hg : GoodState s0 s) (h : s' ∈ s.get_successors board) :
    GoodState s0 s' :=
  ⟨successors_inv hg.1 hw hh s' h, (skeleton_succ h).trans hg.2⟩

/-- The BFS expansion either returns a path or preserves the
termination measure `frontier length + (universe size - explored
size)` exactly, keeping the frontier good and explored inside the
universe. -/
theorem bfsExpand_term {board : Board} {s0 : State} (parent : Node) :
    ∀ (succs : List State) (fr : List Node) (ex : Finset StateKey),
      (∀ st ∈ succs, GoodState s0 st) →
      (∀ n ∈ fr, GoodState s0 n.state) → ex ⊆ universeKeys s0 →
      (∃ pth cfg, bfsExpand board parent succs fr ex = (some pth, cfg)) ∨
      (∃ fr' ex', bfsExpand board parent succs fr ex = (none, (fr', ex')) ∧
        fr'.length + ((universeKeys s0).card - ex'.card)
          = fr.length + ((universeKeys s0).card - ex.card) ∧
        (∀ n ∈ fr', GoodState s0 n.state) ∧ ex' ⊆ universeKeys s0) := by
  intro succs
  induction succs with
  | nil =>
      intro fr ex _ hfr hex
      exact Or.inr ⟨fr, ex, rfl, rfl, hfr, hex⟩
  | cons st rest ih =>
      intro fr ex hsuccs hfr hex
      have hst := hsuccs st (List.mem_cons_self _ _)
      have hrest : ∀ u ∈ rest, GoodState s0 u :=
        fun u hu => hsuccs u (List.mem_cons_of_mem _ hu)
      by_cases hmem : st.key ∈ ex
      · rw [bfsExpand_cons, if_pos hmem]
        exact ih fr ex hrest hfr hex
      · by_cases hgoal : st.is_goal_state board = true
        · rw [bfsExpand_cons, if_neg hmem, if_pos hgoal]
          exact Or.inl ⟨_, _, rfl⟩
        · rw [bfsExpand_cons, if_neg hmem, if_neg hgoal]
          have hfr' : ∀ n ∈ fr ++ [(⟨st, parent.state :: parent.rpath, 0⟩ : Node)],
              GoodState s0 n.state := by
            intro n hn
            rcases List.mem_append.mp hn with h | h
            · exact hfr n h
            · rw [List.mem_singleton.mp h]
              exact hst
          have hex' : insert st.key ex ⊆ universeKeys s0 := by
            rw [Finset.insert_subset_iff]
            exact ⟨goodState_key_mem hst, hex⟩
          rcases ih _ _ hrest hfr' hex' with hleft | ⟨fr', ex', heq, hmeas, hgood, hsub⟩
          · exact Or.inl hleft
          · refine Or.inr ⟨fr', ex', heq, ?_, hgood, hsub⟩
            rw [hmeas, List.length_append, List.length_singleton,
              Finset.card_insert_of_not_mem hmem]
            have hcard : ex.card + 1 ≤ (universeKeys s0).card := by
              rw [← Finset.card_insert_of_not_mem hmem]
              exact Finset.card_le_card hex'
            omega

/-- Same statement for the DFS expansion. -/
theorem dfsExpand_term {board : Board} {s0 : State} (parent : Node) :
    ∀ (succs : List State) (fr : List Node) (ex : Finset StateKey),
      (∀ st ∈ succs, GoodState s0 st) →
      (∀ n ∈ fr, GoodState s0 n.state) → ex ⊆ universeKeys s0 →
      (∃ pth cfg, dfsExpand board parent succs fr ex = (some pth, cfg)) ∨
      (∃ fr' ex', dfsExpand board parent succs fr ex = (none, (fr', ex')) ∧
        fr'.length + ((universeKeys s0).card - ex'.card)
          = fr.length + ((universeKeys s0).card - ex.card) ∧
        (∀ n ∈ fr', GoodState s0 n.state) ∧ ex' ⊆ universeKeys s0) := by
  intro succs
  induction succs with
  | nil =>
      intro fr ex _ hfr hex
      exact Or.inr ⟨fr, ex, rfl, rfl, hfr, hex⟩
  | cons st rest ih =>
      intro fr ex hsuccs hfr hex
      have hst := hsuccs st (List.mem_cons_self _ _)
      have hrest : ∀ u ∈ rest, GoodState s0 u :=
        fun u hu => hsuccs u (List.mem_cons_of_mem _ hu)
      by_cases hmem : st.key ∈ ex
      · rw [dfsExpand_cons, if_pos hmem]
        exact ih fr ex hrest hfr hex
      · by_cases hgoal : st.is_goal_state board = true
        · rw [dfsExpand_cons, if_neg hmem, if_pos hgoal]
          exact Or.inl ⟨_, _, rfl⟩
        · rw [dfsExpand_cons, if_neg hmem, if_neg hgoal]
          have hfr' : ∀ n ∈ (⟨st, parent.state :: parent.rpath, 0⟩ : Node) :: fr,
              GoodState s0 n.state := by
            intro n hn
            rcases List.mem_cons.mp hn with h | h
            · rw [h]
              exact hst
            · exact hfr n h
          have hex' : insert st.key ex ⊆ universeKeys s0 := by
            rw [Finset.insert_subset_iff]
            exact ⟨goodState_key_mem hst, hex⟩
          rcases ih _ _ hrest hfr' hex' with hleft | ⟨fr', ex', heq, hmeas, hgood, hsub⟩
          · exact Or.inl hleft
          · refine Or.inr ⟨fr', ex', heq, ?_, hgood, hsub⟩
            rw [hmeas, List.length_cons,
              Finset.card_insert_of_not_mem hmem]
            have hcard : ex.card + 1 ≤ (universeKeys s0).card := by
              rw [← Finset.card_insert_of_not_mem hmem]
              exact Finset.card_le_card hex'
            omega

/-- The BFS loop reaches a definite result within the measure. -/
theorem bfsLoop_term {board : Board} {s0 : State}
    (hw : board.width = 6) (hh : board.height = 6) :
    ∀ (fuel : Nat) (fr : List Node) (ex : Finset StateKey),
      (∀ n ∈ fr, GoodState s0 n.state) → ex ⊆ universeKeys s0 →
      fr.length + ((universeKeys s0).card - ex.card) < fuel →
      bfsLoop board fuel fr ex ≠ none := by
  intro fuel
  induction fuel with
  | zero => intro fr ex _ _ hlt; omega
  | succ f ih =>
      intro fr ex hfr hex hlt
      cases fr with
      | nil => simp [bfsLoop]
      | cons n fr' =>
          have hn := hfr n (List.mem_cons_self _ _)
          have hfr'' : ∀ m ∈ fr', GoodState s0 m.state :=
            fun m hm => hfr m (List.mem_cons_of_mem _ hm)
          have hsuccs : ∀ st ∈ n.state.get_successors board, GoodState s0 st :=
            fun st hst => goodState_succ hw hh hn hst
          show (match bfsExpand board n (n.state.get_successors board) fr' ex with
                | (some path, _) => some (some path)
                | (none, (fr'', ex'')) => bfsLoop board f fr'' ex'') ≠ none
          rcases bfsExpand_term n _ fr' ex hsuccs hfr'' hex with
            ⟨pth, cfg, heq⟩ | ⟨fr'', ex'', heq, hmeas, hgood, hsub⟩
          · rw [heq]
            simp
          · rw [heq]
            apply ih fr'' ex'' hgood hsub
            rw [List.length_cons] at hlt
            omega

/-- The DFS loop reaches a definite result within the measure. -/
theorem dfsLoop_term {board : Board} {s0 : State}
    (hw : board.width = 6) (hh : board.height = 6) :
    ∀ (fuel : Nat) (fr : List Node) (ex : Finset StateKey),
      (∀ n ∈ fr, GoodState s0 n.state) → ex ⊆ universeKeys s0 →
      fr.length + ((universeKeys s0).card - ex.card) < fuel →
      dfsLoop board fuel fr ex ≠ none := by
  intro fuel
  induction fuel with
  | zero => intro fr ex _ _ hlt; omega
  | succ f ih =>
      intro fr ex hfr hex hlt
      cases fr with
      | nil => simp [dfsLoop]
      | cons n fr' =>
          have hn := hfr n (List.mem_cons_self _ _)
          have hfr'' : ∀ m ∈ fr', GoodState s0 m.state :=
            fun m hm => hfr m (List.mem_cons_of_mem _ hm)
          have hsuccs : ∀ st ∈ n.state.get_successors board, GoodState s0 st :=
            fun st hst => goodState_succ hw hh hn hst
          show (match dfsExpand board n (n.state.get_successors board) fr' ex with
                | (some path, _) => some (some path)
                | (none, (fr'', ex'')) => dfsLoop board f fr'' ex'') ≠ none
          rcases dfsExpand_term n _ fr' ex hsuccs hfr'' hex with
            ⟨pth, cfg, heq⟩ | ⟨fr'', ex'', heq, hmeas, hgood, hsub⟩
          · rw [heq]
            simp
          · rw [heq]
            apply ih fr'' ex'' hgood hsub
            rw [List.length_cons] at hlt
            omega

/-- BFS terminates with a definite result on sufficient fuel. -/
theorem bfsSolve_term {board : Board} {s0 : State}
    (hinv : s0.Inv) (hw : board.width = 6) (hh : board.height = 6)
    {fuel : Nat} (hfuel : uninformedBound s0 ≤ fuel) :
    bfsSolve board s0 fuel ≠ none := by
  unfold bfsSolve
  by_cases hg : s0.is_goal_state board = true
  · rw [if_pos hg]
    simp
  · rw [if_neg hg]
    have hmem : s0.key ∈ universeKeys s0 :=
      key_mem_universeKeys rfl hinv.1.2.1 hinv.2.1
    have hcard : 1 ≤ (universeKeys s0).card :=
      Finset.card_pos.mpr ⟨s0.key, hmem⟩
    refine @bfsLoop_term board s0 hw hh fuel _ _ ?_ ?_ ?_
    · intro n hn
      rw [List.mem_singleton.mp hn]
      exact ⟨hinv, rfl⟩
    · rw [Finset.singleton_subset_iff]
      exact hmem
    · rw [Finset.card_singleton, List.length_singleton]
      unfold uninformedBound stateCount at hfuel
      omega

theorem ExDecr.refl (ex : StateKey → Option Nat) : ExDecr ex ex :=
  fun _ c h => ⟨c, h, le_rfl⟩

theorem ExDecr.trans {e1 e2 e3 : StateKey → Option Nat}
    (h12 : ExDecr e1 e2) (h23 : ExDecr e2 e3) : ExDecr e1 e3 := by
  intro k c h
  obtain ⟨c', h', hle⟩ := h12 k c h
  obtain ⟨c'', h'', hle'⟩ := h23 k c' h'
  exact ⟨c'', h'', hle'.trans hle⟩

theorem ExDecr.update_none {ex : StateKey → Option Nat} {k : StateKey}
    {v : Nat} (h : ex k = none) :
    ExDecr ex (Function.update ex k (some v)) := by
  intro k' c hc
  by_cases hk : k' = k
  · rw [hk, h] at hc
    cases hc
  · refine ⟨c, ?_, le_rfl⟩
    rw [Function.update_noteq hk]
    exact hc

theorem ExDecr.update_lt {ex : StateKey → Option Nat} {k : StateKey}
    {v c0 : Nat} (h : ex k = some c0) (hv : v ≤ c0) :
    ExDecr ex (Function.update ex k (some v)) := by
  intro k' c hc
  by_cases hk : k' = k
  · subst hk
    rw [h] at hc
    refine ⟨v, ?_, ?_⟩
    · rw [Function.update_same]
    · rw [Option.some_inj.mp hc] at hv
      exact hv
  · refine ⟨c, ?_, le_rfl⟩
    rw [Function.update_noteq hk]
    exact hc

theorem ExLe_mono {ex ex' : StateKey → Option Nat} (hd : ExDecr ex ex') :
    ∀ (s : State) (anc : List State), ExLe ex s anc → ExLe ex' s anc := by
  intro s anc
  induction anc generalizing s with
  | nil =>
      rintro ⟨c, hc, hle⟩
      obtain ⟨c', hc', hle'⟩ := hd s.key c hc
      exact ⟨c', hc', hle'.trans hle⟩
  | cons a rest ih =>
      rintro ⟨⟨c, hc, hle⟩, hrest⟩
      obtain ⟨c', hc', hle'⟩ := hd s.key c hc
      exact ⟨⟨c', hc', hle'.trans hle⟩, ih a hrest⟩

/-- Every chain element's explored value is at most the full chain
cost. -/
theorem ExLe_le_total {ex : StateKey → Option Nat} :
    ∀ (s : State) (anc : List State), ExLe ex s anc →
      ∀ t ∈ s :: anc, ∃ c, ex t.key = some c ∧ c ≤ pathCostR s anc := by
  intro s anc
  induction anc generalizing s with
  | nil =>
      rintro ⟨c, hc, hle⟩ t ht
      rw [List.mem_singleton.mp ht]
      exact ⟨c, hc, hle⟩
  | cons a rest ih =>
      rintro ⟨⟨c, hc, hle⟩, hrest⟩ t ht
      rcases List.mem_cons.mp ht with rfl | ht'
      · exact ⟨c, hc, hle⟩
      · obtain ⟨c', hc', hle'⟩ := ih a hrest t ht'
        refine ⟨c', hc', hle'.trans ?_⟩
        have hstep : pathCostR s (a :: rest) = pathCostR a rest + movedCost a s := rfl
        omega

/-- Chain costs are bounded by six per step. -/
theorem pathCostR_le {board : Board} {s0 : State} :
    ∀ (s : State) (anc : List State), (∀ t ∈ anc, GoodState s0 t) →
      ChainR board s anc → pathCostR s anc ≤ 6 * anc.length := by
  intro s anc
  induction anc generalizing s with
  | nil => intro _ _; exact Nat.le_refl 0
  | cons a rest ih =>
      rintro hgood ⟨hstep, hchain⟩
      have ha := hgood a (List.mem_cons_self _ _)
      obtain ⟨vid, v, v', -, -, -, hmc, -, hv6⟩ := movedCost_eq ha.1 hstep
      have hrest := ih a (fun t ht => hgood t (List.mem_cons_of_mem _ ht)) hchain
      show pathCostR a rest + movedCost a s ≤ 6 * (rest.length + 1)
      rw [hmc]
      omega

/-- A nodup chain of universe states has at most `stateCount` states. -/
theorem chain_length_le {s0 : State} {s : State} {anc : List State}
    (hgood : ∀ t ∈ s :: anc, GoodState s0 t)
    (hnd : ((s :: anc).map State.key).Nodup) :
    (s :: anc).length ≤ stateCount s0 := by
  have hsub : ((s :: anc).map State.key).toFinset ⊆ universeKeys s0 := by
    intro k hk
    rw [List.mem_toFinset, List.mem_map] at hk
    obtain ⟨t, ht, rfl⟩ := hk
    exact goodState_key_mem (hgood t ht)
  calc (s :: anc).length = ((s :: anc).map State.key).length :=
        (List.length_map _ _).symm
  _ = ((s :: anc).map State.key).toFinset.card := (List.toFinset_card_of_nodup hnd).symm
  _ ≤ (universeKeys s0).card := Finset.card_le_card hsub
  _ = stateCount s0 := rfl

theorem exSum_update {s0 : State} {B : Nat} {ex : StateKey → Option Nat}
    {k : StateKey} (hk : k ∈ universeKeys s0) (v : Nat) :
    exSum s0 B (Function.update ex k (some v)) + exVal B (ex k)
      = exSum s0 B ex + v := by
  unfold exSum
  have hpt : ∀ x, exVal B (Function.update ex k (some v) x)
      = Function.update (fun y => exVal B (ex y)) k v x := by
    intro x
    by_cases hx : x = k
    · subst hx
      rw [Function.update_same, Function.update_same]
      rfl
    · rw [Function.update_noteq hx, Function.update_noteq hx]
  simp only [hpt]
  rw [Finset.sum_update_of_mem hk]
  rw [← Finset.add_sum_erase _ (fun y => exVal B (ex y)) hk]
  rw [Finset.erase_eq]
  omega

theorem nodeOK_mono {board : Board} {s0 : State}
    {ex ex' : StateKey → Option Nat} {n : Node} (hd : ExDecr ex ex')
    (h : NodeOK board s0 ex n) : NodeOK board s0 ex' n :=
  ⟨h.1, h.2.1, h.2.2.1, h.2.2.2.1, ExLe_mono hd _ _ h.2.2.2.2.1, h.2.2.2.2.2⟩

theorem nodeOK_cost {board : Board} {s0 : State}
    {ex : StateKey → Option Nat} {n : Node} (h : NodeOK board s0 ex n) :
    n.path_cost + 6 ≤ 6 * stateCount s0 := by
  obtain ⟨hg, hanc, hch, hcost, hex, hnd⟩ := h
  have hlen : (n.state :: n.rpath).length ≤ stateCount s0 :=
    chain_length_le (fun t ht => by
      rcases List.mem_cons.mp ht with rfl | ht'
      · exact hg
      · exact hanc t ht') hnd
  have hpc : pathCostR n.state n.rpath ≤ 6 * n.rpath.length :=
    pathCostR_le n.state n.rpath hanc hch
  rw [List.length_cons] at hlen
  rw [hcost]
  omega

/-- Pushing a successor whose guard passed produces a well-formed node
and weakens the explored map pointwise. -/
theorem push_nodeOK {board : Board} {s0 : State}
    {ex : StateKey → Option Nat} {parent : Node} {st : State}
    (hw : board.width = 6) (hh : board.height = 6)
    (hpar : NodeOK board s0 ex parent)
    (hsucc : st ∈ parent.state.get_successors board)
    (hguard : ex st.key = none ∨ ∃ c, ex st.key = some c ∧
      parent.path_cost + movedCost parent.state st < c) :
    NodeOK board s0
        (Function.update ex st.key
          (some (parent.path_cost + movedCost parent.state st)))
        ⟨st, parent.state :: parent.rpath,
          parent.path_cost + movedCost parent.state st⟩ ∧
      ExDecr ex (Function.update ex st.key
        (some (parent.path_cost + movedCost parent.state st))) := by
  obtain ⟨hg, hanc, hch, hcost, hex, hnd⟩ := hpar
  have hstGood : GoodState s0 st := goodState_succ hw hh hg hsucc
  have hmc1 : 1 ≤ movedCost parent.state st := by
    obtain ⟨vid, v, v', -, -, -, hmc, hv1, -⟩ := movedCost_eq hg.1 hsucc
    omega
  have hcosteq : pathCostR st (parent.state :: parent.rpath)
      = parent.path_cost + movedCost parent.state st := by
    show pathCostR parent.state parent.rpath + movedCost parent.state st = _
    rw [hcost]
  have hkeynotin : st.key ∉ (parent.state :: parent.rpath).map State.key := by
    intro hk
    rw [List.mem_map] at hk
    obtain ⟨t, ht, htk⟩ := hk
    obtain ⟨c, hc, hle⟩ := ExLe_le_total parent.state parent.rpath hex t ht
    rw [htk] at hc
    rw [← hcost] at hle
    rcases hguard with hnone | ⟨c', hc', hlt⟩
    · rw [hnone] at hc
      cases hc
    · rw [hc'] at hc
      rw [Option.some_inj.mp hc] at hlt
      omega
  have hdecr : ExDecr ex (Function.update ex st.key
      (some (parent.path_cost + movedCost parent.state st))) := by
    rcases hguard with hnone | ⟨c, hc, hlt⟩
    · exact ExDecr.update_none hnone
    · exact ExDecr.update_lt hc (Nat.le_of_lt hlt)
  refine ⟨⟨hstGood, ?_, ⟨hsucc, hch⟩, hcosteq.symm, ?_, ?_⟩, hdecr⟩
  · intro t ht
    rcases List.mem_cons.mp ht with rfl | ht'
    · exact hg
    · exact hanc t ht'
  · show (∃ c, Function.update ex st.key
        (some (parent.path_cost + movedCost parent.state st)) st.key = some c ∧
        c ≤ pathCostR st (parent.state :: parent.rpath)) ∧ _
    refine ⟨⟨parent.path_cost + movedCost parent.state st, ?_, ?_⟩, ?_⟩
    · rw [Function.update_same]
    · rw [hcosteq]
    · exact ExLe_mono hdecr _ _ hex
  · rw [List.map_cons]
    exact List.nodup_cons.mpr ⟨hkeynotin, hnd⟩

/-- Unfolding equation for the UCS expansion. -/
theorem ucsExpand_cons (board : Board) (parent : Node) (st : State)
    (rest : List State) (fr : List Node) (ex : StateKey → Option Nat) :
    ucsExpand board parent (st :: rest) fr ex
      = match ex st.key with
        | none => ucsExpand board parent rest
            (fr ++ [⟨st, parent.state :: parent.rpath,
              parent.path_cost + movedCost parent.state st⟩])
            (Function.update ex st.key
              (some (parent.path_cost + movedCost parent.state st)))
        | some c =>
            if parent.path_cost + movedCost parent.state st < c then
              ucsExpand board parent rest
                (fr ++ [⟨st, parent.state :: parent.rpath,
                  parent.path_cost + movedCost parent.state st⟩])
                (Function.update ex st.key
                  (some (parent.path_cost + movedCost parent.state st)))
            else
              ucsExpand board parent rest fr ex := rfl

theorem movedCost_bounds {s s' : State} {board : Board} (hinv : s.Inv)
    (h : s' ∈ s.get_successors board) :
    1 ≤ movedCost s s' ∧ movedCost s s' ≤ 6 := by
  obtain ⟨vid, v, v', -, -, -, hmc, hv1, hv6⟩ := movedCost_eq hinv h
  omega

theorem ucsExpand_cons_none {board : Board} {parent : Node} {st : State}
    {rest : List State} {fr : List Node} {ex : StateKey → Option Nat}
    (h : ex st.key = none) :
    ucsExpand board parent (st :: rest) fr ex
      = ucsExpand board parent rest
          (fr ++ [⟨st, parent.state :: parent.rpath,
            parent.path_cost + movedCost parent.state st⟩])
          (Function.update ex st.key
            (some (parent.path_cost + movedCost parent.state st))) := by
  rw [ucsExpand_cons, h]

theorem ucsExpand_cons_lt {board : Board} {parent : Node} {st : State}
    {rest : List State} {fr : List Node} {ex : StateKey → Option Nat}
    {c : Nat} (h : ex st.key = some c)
    (hlt : parent.path_cost + movedCost parent.state st < c) :
    ucsExpand board parent (st :: rest) fr ex
      = ucsExpand board parent rest
          (fr ++ [⟨st, parent.state :: parent.rpath,
            parent.path_cost + movedCost parent.state st⟩])
          (Function.update ex st.key
            (some (parent.path_cost + movedCost parent.state st))) := by
  rw [ucsExpand_cons, h]
  exact if_pos hlt

theorem ucsExpand_cons_ge {board : Board} {parent : Node} {st : State}
    {rest : List State} {fr : List Node} {ex : StateKey → Option Nat}
    {c : Nat} (h : ex st.key = some c)
    (hge : ¬ parent.path_cost + movedCost parent.state st < c) :
    ucsExpand board parent (st :: rest) fr ex
      = ucsExpand board parent rest fr ex := by
  rw [ucsExpand_cons, h]
  exact if_neg hge

/-- The UCS expansion keeps every frontier node well formed, only
weakens the explored map, and never increases the termination
measure. -/
theorem ucsExpand_term {board : Board} {s0 : State}
    (hw : board.width = 6) (hh : board.height = 6) :
    ∀ (succs : List State) (fr : List Node) (ex : StateKey → Option Nat)
      (parent : Node),
      (∀ st ∈ succs, st ∈ parent.state.get_successors board) →
      NodeOK board s0 ex parent →
      (∀ n ∈ fr, NodeOK board s0 ex n) →
      (∀ n ∈ (ucsExpand board parent succs fr ex).1,
        NodeOK board s0 (ucsExpand board parent succs fr ex).2 n) ∧
      ExDecr ex (ucsExpand board parent succs fr ex).2 ∧
      (ucsExpand board parent succs fr ex).1.length
          + exSum s0 (costBound s0) (ucsExpand board parent succs fr ex).2
        ≤ fr.length + exSum s0 (costBound s0) ex := by
  intro succs
  induction succs with
  | nil =>
      intro fr ex parent _ _ hfr
      exact ⟨hfr, ExDecr.refl ex, le_rfl⟩
  | cons st rest ih =>
      intro fr ex parent hsub hpar hfr
      have hst := hsub st (List.mem_cons_self _ _)
      have hrest : ∀ u ∈ rest, u ∈ parent.state.get_successors board :=
        fun u hu => hsub u (List.mem_cons_of_mem _ hu)
      have hkU : st.key ∈ universeKeys s0 :=
        goodState_key_mem (goodState_succ hw hh hpar.1 hst)
      have hnc : parent.path_cost + movedCost parent.state st < costBound s0 := by
        have h6 := nodeOK_cost hpar
        have hmc := (movedCost_bounds hpar.1.1 hst).2
        unfold costBound
        omega
      have hpush : ∀ (hguard : ex st.key = none ∨ ∃ c, ex st.key = some c ∧
            parent.path_cost + movedCost parent.state st < c),
          (∀ n ∈ (ucsExpand board parent rest
              (fr ++ [⟨st, parent.state :: parent.rpath,
                parent.path_cost + movedCost parent.state st⟩])
              (Function.update ex st.key
                (some (parent.path_cost + movedCost parent.state st)))).1,
            NodeOK board s0 (ucsExpand board parent rest
              (fr ++ [⟨st, parent.state :: parent.rpath,
                parent.path_cost + movedCost parent.state st⟩])
              (Function.update ex st.key
                (some (parent.path_cost + movedCost parent.state st)))).2 n) ∧
          ExDecr ex (ucsExpand board parent rest
              (fr ++ [⟨st, parent.state :: parent.rpath,
                parent.path_cost + movedCost parent.state st⟩])
              (Function.update ex st.key
                (some (parent.path_cost + movedCost parent.state st)))).2 ∧
          (ucsExpand board parent rest
              (fr ++ [⟨st, parent.state :: parent.rpath,
                parent.path_cost + movedCost parent.state st⟩])
              (Function.update ex st.key
                (some (parent.path_cost + movedCost parent.state st)))).1.length
            + exSum s0 (costBound s0) (ucsExpand board parent rest
              (fr ++ [⟨st, parent.state :: parent.rpath,
                parent.path_cost + movedCost parent.state st⟩])
              (Function.update ex st.key
                (some (parent.path_cost + movedCost parent.state st)))).2
            ≤ fr.length + exSum s0 (costBound s0) ex := by
        intro hguard
        obtain ⟨hnodeOK, hdecr⟩ := push_nodeOK hw hh hpar hst hguard
        have hpar' := nodeOK_mono hdecr hpar
        have hfr' : ∀ n ∈ fr ++ [(⟨st, parent.state :: parent.rpath,
            parent.path_cost + movedCost parent.state st⟩ : Node)],
            NodeOK board s0 (Function.update ex st.key
              (some (parent.path_cost + movedCost parent.state st))) n := by
          intro n hn
          rcases List.mem_append.mp hn with h | h
          · exact nodeOK_mono hdecr (hfr n h)
          · rw [List.mem_singleton.mp h]
            exact hnodeOK
        obtain ⟨h1, h2, h3⟩ := ih _ _ parent hrest hpar' hfr'
        refine ⟨h1, hdecr.trans h2, ?_⟩
        have hupd := @exSum_update s0 (costBound s0) ex st.key hkU
          (parent.path_cost + movedCost parent.state st)
        have hval : exVal (costBound s0) (ex st.key) ≥
            parent.path_cost + movedCost parent.state st + 1 := by
          rcases hguard with hnone | ⟨c, hc, hlt⟩
          · rw [hnone]
            show _ + 1 ≤ costBound s0
            omega
          · rw [hc]
            show _ + 1 ≤ c
            omega
        rw [List.length_append, List.length_singleton] at h3
        omega
      cases hexk : ex st.key with
      | none =>
          rw [ucsExpand_cons_none hexk]
          exact hpush (Or.inl hexk)
      | some c =>
          by_cases hlt : parent.path_cost + movedCost parent.state st < c
          · rw [ucsExpand_cons_lt hexk hlt]
            exact hpush (Or.inr ⟨c, hexk, hlt⟩)
          · rw [ucsExpand_cons_ge hexk hlt]
            exact ih _ _ parent hrest hpar hfr

/-- The UCS loop reaches a definite result within the measure. -/
theorem ucsLoop_term {board : Board} {s0 : State}
    (hw : board.width = 6) (hh : board.height = 6) :
    ∀ (fuel : Nat) (fr : List Node) (ex : StateKey → Option Nat),
      (∀ n ∈ fr, NodeOK board s0 ex n) →
      fr.length + exSum s0 (costBound s0) ex < fuel →
      ucsLoop board fuel fr ex ≠ none := by
  intro fuel
  induction fuel with
  | zero => intro fr ex _ hlt; omega
  | succ f ih =>
      intro fr ex hfr hlt
      rw [ucsLoop_succ]
      cases hpop : popMin fr with
      | none => simp
      | some p =>
          rcases p with ⟨n, fr₂⟩
          have hperm := popMin_perm hpop
          have hn : NodeOK board s0 ex n :=
            hfr n (hperm.mem_iff.mpr (List.mem_cons_self _ _))
          have hfr₂ : ∀ m ∈ fr₂, NodeOK board s0 ex m :=
            fun m hm => hfr m (hperm.mem_iff.mpr (List.mem_cons_of_mem _ hm))
          have hlen : fr.length = fr₂.length + 1 := by
            rw [hperm.length_eq, List.length_cons]
          by_cases hgoal : n.state.is_goal_state board = true
          · simp [hgoal]
          · simp only [hgoal, Bool.false_eq_true, if_false]
            apply ih
            · exact (ucsExpand_term hw hh _ fr₂ ex n (fun st hst => hst) hn hfr₂).1
            · have := (ucsExpand_term hw hh
                (n.state.get_successors board) fr₂ ex n (fun st hst => hst) hn hfr₂).2.2
              omega

/-- UCS terminates with a definite result on sufficient fuel. -/
theorem ucsSolve_term {board : Board} {s0 : State}
    (hinv : s0.Inv) (hw : board.width = 6) (hh : board.height = 6)
    {fuel : Nat} (hfuel : weightedBound s0 ≤ fuel) :
    ucsSolve board s0 fuel ≠ none := by
  unfold ucsSolve
  have hkU : s0.key ∈ universeKeys s0 :=
    key_mem_universeKeys rfl hinv.1.2.1 hinv.2.1
  refine @ucsLoop_term board s0 hw hh fuel _ _ ?_ ?_
  · intro n hn
    rw [List.mem_singleton.mp hn]
    refine ⟨⟨hinv, rfl⟩, ?_, trivial, rfl, ?_, ?_⟩
    · intro t ht
      cases ht
    · show ∃ c, Function.update (fun _ => none) s0.key (some 0) s0.key
        = some c ∧ c ≤ pathCostR s0 []
      refine ⟨0, ?_, le_rfl⟩
      rw [Function.update_same]
    · exact List.nodup_singleton _
  · have hsum : exSum s0 (costBound s0)
        (Function.update (fun _ => none) s0.key (some 0))
        ≤ costBound s0 * stateCount s0 := by
      unfold exSum
      calc (universeKeys s0).sum (fun k => exVal (costBound s0)
            (Function.update (fun _ => none) s0.key (some 0) k))
          ≤ (universeKeys s0).sum (fun _ => costBound s0) := by
            apply Finset.sum_le_sum
            intro k _
            by_cases hk : k = s0.key
            · subst hk
              rw [Function.update_same]
              show 0 ≤ costBound s0
              omega
            · rw [Function.update_noteq hk]
              exact le_rfl
      _ = stateCount s0 * costBound s0 := by
            rw [Finset.sum_const, smul_eq_mul]
            rfl
      _ = costBound s0 * stateCount s0 := Nat.mul_comm _ _
    rw [List.length_singleton]
    unfold weightedBound at hfuel
    omega

/-- `astarPopMin` never fails on a nonempty list. -/
theorem astarPopMin_ne_none {fr : List (Nat × Node)} (h : fr ≠ []) :
    astarPopMin fr ≠ none := by
  cases fr with
  | nil => exact absurd rfl h
  | cons m rest =>
      unfold astarPopMin
      cases astarPopMin rest with
      | none => simp
      | some p =>
          rcases p with ⟨m', rest'⟩
          by_cases hle : m.1 < m'.1 ∨ (m.1 = m'.1 ∧ m.2.path_cost ≤ m'.2.path_cost) <;>
            simp [hle]

/-- `astarPopMin` returns an element of the list and the rest of it. -/
theorem astarPopMin_perm : ∀ {fr : List (Nat × Node)} {pn : Nat × Node}
    {fr' : List (Nat × Node)},
    astarPopMin fr = some (pn, fr') → fr.Perm (pn :: fr') := by
  intro fr
  induction fr with
  | nil => intro pn fr' h; cases h
  | cons m rest ih =>
      intro pn fr' h
      unfold astarPopMin at h
      cases hrec : astarPopMin rest with
      | none =>
          rw [hrec] at h
          cases rest with
          | nil =>
              cases h
              exact List.Perm.refl _
          | cons a b =>
              exact absurd hrec (astarPopMin_ne_none (by simp))
      | some p =>
          rw [hrec] at h
          rcases p with ⟨m', rest'⟩
          have h2 : (if m.1 < m'.1 ∨ (m.1 = m'.1 ∧ m.2.path_cost ≤ m'.2.path_cost)
              then some (m, rest) else some (m', m :: rest')) = some (pn, fr') := h
          by_cases hle : m.1 < m'.1 ∨ (m.1 = m'.1 ∧ m.2.path_cost ≤ m'.2.path_cost)
          · rw [if_pos hle] at h2
            cases h2
            exact List.Perm.refl _
          · rw [if_neg hle] at h2
            cases h2
            exact (List.Perm.cons m (ih hrec)).trans (List.Perm.swap _ _ _)

/-- Unfolding equation for the A* expansion. -/
theorem astarExpand_cons (board : Board) (parent : Node) (st : State)
    (rest : List State) (fr : List (Nat × Node)) (ex : StateKey → Option Nat) :
    astarExpand board parent (st :: rest) fr ex
      = match ex st.key with
        | none => astarExpand board parent rest
            (fr ++ [(parent.path_cost + movedCost parent.state st
                + blocking_heuristic board st,
              ⟨st, parent.state :: parent.rpath,
                parent.path_cost + movedCost parent.state st⟩)])
            (Function.update ex st.key
              (some (parent.path_cost + movedCost parent.state st)))
        | some c =>
            if parent.path_cost + movedCost parent.state st < c then
              astarExpand board parent rest
                (fr ++ [(parent.path_cost + movedCost parent.state st
                    + blocking_heuristic board st,
                  ⟨st, parent.state :: parent.rpath,
                    parent.path_cost + movedCost parent.state st⟩)])
                (Function.update ex st.key
                  (some (parent.path_cost + movedCost parent.state st)))
            else
              astarExpand board parent rest fr ex := rfl

theorem astarExpand_cons_none {board : Board} {parent : Node} {st : State}
    {rest : List State} {fr : List (Nat × Node)} {ex : StateKey → Option Nat}
    (h : ex st.key = none) :
    astarExpand board parent (st :: rest) fr ex
      = astarExpand board parent rest
          (fr ++ [(parent.path_cost + movedCost parent.state st
              + blocking_heuristic board st,
            ⟨st, parent.state :: parent.rpath,
              parent.path_cost + movedCost parent.state st⟩)])
          (Function.update ex st.key
            (some (parent.path_cost + movedCost parent.state st))) := by
  rw [astarExpand_cons, h]

theorem astarExpand_cons_lt {board : Board} {parent : Node} {st : State}
    {rest : List State} {fr : List (Nat × Node)} {ex : StateKey → Option Nat}
    {c : Nat} (h : ex st.key = some c)
    (hlt : parent.path_cost + movedCost parent.state st < c) :
    astarExpand board parent (st :: rest) fr ex
      = astarExpand board parent rest
          (fr ++ [(parent.path_cost + movedCost parent.state st
              + blocking_heuristic board st,
            ⟨st, parent.state :: parent.rpath,
              parent.path_cost + movedCost parent.state st⟩)])
          (Function.update ex st.key
            (some (parent.path_cost + movedCost parent.state st))) := by
  rw [astarExpand_cons, h]
  exact if_pos hlt

theorem astarExpand_cons_ge {board : Board} {parent : Node} {st : State}
    {rest : List State} {fr : List (Nat × Node)} {ex : StateKey → Option Nat}
    {c : Nat} (h : ex st.key = some c)
    (hge : ¬ parent.path_cost + movedCost parent.state st < c) :
    astarExpand board parent (st :: rest) fr ex
      = astarExpand board parent rest fr ex := by
  rw [astarExpand_cons, h]
  exact if_neg hge

/-- The A* expansion keeps every frontier node well formed, only
weakens the explored map, and never increases the termination
measure. -/
theorem astarExpand_term {board : Board} {s0 : State}
    (hw : board.width = 6) (hh : board.height = 6) :
    ∀ (succs : List State) (fr : List (Nat × Node)) (ex : StateKey → Option Nat)
      (parent : Node),
      (∀ st ∈ succs, st ∈ parent.state.get_successors board) →
      NodeOK board s0 ex parent →
      (∀ pn ∈ fr, NodeOK board s0 ex pn.2) →
      (∀ pn ∈ (astarExpand board parent succs fr ex).1,
        NodeOK board s0 (astarExpand board parent succs fr ex).2 pn.2) ∧
      ExDecr ex (astarExpand board parent succs fr ex).2 ∧
      (astarExpand board parent succs fr ex).1.length
          + exSum s0 (costBound s0) (astarExpand board parent succs fr ex).2
        ≤ fr.length + exSum s0 (costBound s0) ex := by
  intro succs
  induction succs with
  | nil =>
      intro fr ex parent _ _ hfr
      exact ⟨hfr, ExDecr.refl ex, le_rfl⟩
  | cons st rest ih =>
      intro fr ex parent hsub hpar hfr
      have hst := hsub st (List.mem_cons_self _ _)
      have hrest : ∀ u ∈ rest, u ∈ parent.state.get_successors board :=
        fun u hu => hsub u (List.mem_cons_of_mem _ hu)
      have hkU : st.key ∈ universeKeys s0 :=
        goodState_key_mem (goodState_succ hw hh hpar.1 hst)
      have hnc : parent.path_cost + movedCost parent.state st < costBound s0 := by
        have h6 := nodeOK_cost hpar
        have hmc := (movedCost_bounds hpar.1.1 hst).2
        unfold costBound
        omega
      have hpush : ∀ (hguard : ex st.key = none ∨ ∃ c, ex st.key = some c ∧
            parent.path_cost + movedCost parent.state st < c),
          (∀ pn ∈ (astarExpand board parent rest
              (fr ++ [(parent.path_cost + movedCost parent.state st
                  + blocking_heuristic board st,
                ⟨st, parent.state :: parent.rpath,
                  parent.path_cost + movedCost parent.state st⟩)])
              (Function.update ex st.key
                (some (parent.path_cost + movedCost parent.state st)))).1,
            NodeOK board s0 (astarExpand board parent rest
              (fr ++ [(parent.path_cost + movedCost parent.state st
                  + blocking_heuristic board st,
                ⟨st, parent.state :: parent.rpath,
                  parent.path_cost + movedCost parent.state st⟩)])
              (Function.update ex st.key
                (some (parent.path_cost + movedCost parent.state st)))).2 pn.2) ∧
          ExDecr ex (astarExpand board parent rest
              (fr ++ [(parent.path_cost + movedCost parent.state st
                  + blocking_heuristic board st,
                ⟨st, parent.state :: parent.rpath,
                  parent.path_cost + movedCost parent.state st⟩)])
              (Function.update ex st.key
                (some (parent.path_cost + movedCost parent.state st)))).2 ∧
          (astarExpand board parent rest
              (fr ++ [(parent.path_cost + movedCost parent.state st
                  + blocking_heuristic board st,
                ⟨st, parent.state :: parent.rpath,
                  parent.path_cost + movedCost parent.state st⟩)])
              (Function.update ex st.key
                (some (parent.path_cost + movedCost parent.state st)))).1.length
            + exSum s0 (costBound s0) (astarExpand board parent rest
              (fr ++ [(parent.path_cost + movedCost parent.state st
                  + blocking_heuristic board st,
                ⟨st, parent.state :: parent.rpath,
                  parent.path_cost + movedCost parent.state st⟩)])
              (Function.update ex st.key
                (some (parent.path_cost + movedCost parent.state st)))).2
            ≤ fr.length + exSum s0 (costBound s0) ex := by
        intro hguard
        obtain ⟨hnodeOK, hdecr⟩ := push_nodeOK hw hh hpar hst hguard
        have hpar' := nodeOK_mono hdecr hpar
        have hfr' : ∀ pn ∈ fr ++ [(parent.path_cost + movedCost parent.state st
              + blocking_heuristic board st,
            (⟨st, parent.state :: parent.rpath,
              parent.path_cost + movedCost parent.state st⟩ : Node))],
            NodeOK board s0 (Function.update ex st.key
              (some (parent.path_cost + movedCost parent.state st))) pn.2 := by
          intro pn hn
          rcases List.mem_append.mp hn with h | h
          · exact nodeOK_mono hdecr (hfr pn h)
          · rw [List.mem_singleton.mp h]
            exact hnodeOK
        obtain ⟨h1, h2, h3⟩ := ih _ _ parent hrest hpar' hfr'
        refine ⟨h1, hdecr.trans h2, ?_⟩
        have hupd := @exSum_update s0 (costBound s0) ex st.key hkU
          (parent.path_cost + movedCost parent.state st)
        have hval : exVal (costBound s0) (ex st.key) ≥
            parent.path_cost + movedCost parent.state st + 1 := by
          rcases hguard with hnone | ⟨c, hc, hlt⟩
          · rw [hnone]
            show _ + 1 ≤ costBound s0
            omega
          · rw [hc]
            show _ + 1 ≤ c
            omega
        rw [List.length_append, List.length_singleton] at h3
        omega
      cases hexk : ex st.key with
      | none =>
          rw [astarExpand_cons_none hexk]
          exact hpush (Or.inl hexk)
      | some c =>
          by_cases hlt : parent.path_cost + movedCost parent.state st < c
          · rw [astarExpand_cons_lt hexk hlt]
            exact hpush (Or.inr ⟨c, hexk, hlt⟩)
          · rw [astarExpand_cons_ge hexk hlt]
            exact ih _ _ parent hrest hpar hfr

/-- The A* loop reaches a definite result within the measure. -/
theorem astarLoop_term {board : Board} {s0 : State}
    (hw : board.width = 6) (hh : board.height = 6) :
    ∀ (fuel : Nat) (fr : List (Nat × Node)) (ex : StateKey → Option Nat),
      (∀ pn ∈ fr, NodeOK board s0 ex pn.2) →
      fr.length + exSum s0 (costBound s0) ex < fuel →
      astarLoop board fuel fr ex ≠ none := by
  intro fuel
  induction fuel with
  | zero => intro fr ex _ hlt; omega
  | succ f ih =>
      intro fr ex hfr hlt
      rw [astarLoop_succ]
      cases hpop : astarPopMin fr with
      | none => simp
      | some p =>
          rcases p with ⟨pn, fr₂⟩
          have hperm := astarPopMin_perm hpop
          have hn : NodeOK board s0 ex pn.2 :=
            hfr pn (hperm.mem_iff.mpr (List.mem_cons_self _ _))
          have hfr₂ : ∀ qm ∈ fr₂, NodeOK board s0 ex qm.2 :=
            fun qm hm => hfr qm (hperm.mem_iff.mpr (List.mem_cons_of_mem _ hm))
          have hlen : fr.length = fr₂.length + 1 := by
            rw [hperm.length_eq, List.length_cons]
          by_cases hgoal : pn.2.state.is_goal_state board = true
          · simp [hgoal]
          · simp only [hgoal, Bool.false_eq_true, if_false]
            apply ih
            · exact (astarExpand_term hw hh _ fr₂ ex pn.2 (fun st hst => hst) hn hfr₂).1
            · have := (astarExpand_term hw hh
                (pn.2.state.get_successors board) fr₂ ex pn.2
                (fun st hst => hst) hn hfr₂).2.2
              omega

/-- A* terminates with a definite result on sufficient fuel. -/
theorem astarSolve_term {board : Board} {s0 : State}
    (hinv : s0.Inv) (hw : board.width = 6) (hh : board.height = 6)
    {fuel : Nat} (hfuel : weightedBound s0 ≤ fuel) :
    astarSolve board s0 fuel ≠ none := by
  unfold astarSolve
  have hkU : s0.key ∈ universeKeys s0 :=
    key_mem_universeKeys rfl hinv.1.2.1 hinv.2.1
  refine @astarLoop_term board s0 hw hh fuel _ _ ?_ ?_
  · intro pn hn
    rw [List.mem_singleton.mp hn]
    refine ⟨⟨hinv, rfl⟩, ?_, trivial, rfl, ?_, ?_⟩
    · intro t ht
      cases ht
    · show ∃ c, Function.update (fun _ => none) s0.key (some 0) s0.key
        = some c ∧ c ≤ pathCostR s0 []
      refine ⟨0, ?_, le_rfl⟩
      rw [Function.update_same]
    · exact List.nodup_singleton _
  · have hsum : exSum s0 (costBound s0)
        (Function.update (fun _ => none) s0.key (some 0))
        ≤ costBound s0 * stateCount s0 := by
      unfold exSum
      calc (universeKeys s0).sum (fun k => exVal (costBound s0)
            (Function.update (fun _ => none) s0.key (some 0) k))
          ≤ (universeKeys s0).sum (fun _ => costBound s0) := by
            apply Finset.sum_le_sum
            intro k _
            by_cases hk : k = s0.key
            · subst hk
              rw [Function.update_same]
              show 0 ≤ costBound s0
              omega
            · rw [Function.update_noteq hk]
              exact le_rfl
      _ = stateCount s0 * costBound s0 := by
            rw [Finset.sum_const, smul_eq_mul]
            rfl
      _ = costBound s0 * stateCount s0 := Nat.mul_comm _ _
    rw [List.length_singleton]
    unfold weightedBound at hfuel
    omega

/-- DFS terminates with a definite result on sufficient fuel. -/
theorem dfsSolve_term {board : Board} {s0 : State}
    (hinv : s0.Inv) (hw : board.width = 6) (hh : board.height = 6)
    {fuel : Nat} (hfuel : uninformedBound s0 ≤ fuel) :
    dfsSolve board s0 fuel ≠ none := by
  unfold dfsSolve
  by_cases hg : s0.is_goal_state board = true
  · rw [if_pos hg]
    simp
  · rw [if_neg hg]
    have hmem : s0.key ∈ universeKeys s0 :=
      key_mem_universeKeys rfl hinv.1.2.1 hinv.2.1
    have hcard : 1 ≤ (universeKeys s0).card :=
      Finset.card_pos.mpr ⟨s0.key, hmem⟩
    refine @dfsLoop_term board s0 hw hh fuel _ _ ?_ ?_ ?_
    · intro n hn
      rw [List.mem_singleton.mp hn]
      exact ⟨hinv, rfl⟩
    · rw [Finset.singleton_subset_iff]
      exact hmem
    · rw [Finset.card_singleton, List.length_singleton]
      unfold uninformedBound stateCount at hfuel
      omega

/-- C9: on the fixed 6x6 board, each of the four solve methods reaches
a definite outcome — a path or the no-solution result — after finitely
many expansions: any fuel beyond the respective finite bound yields a
`some` answer, never the fuel-exhaustion marker. -/
theorem C9_solvers_terminate {board : Board} {s0 : State}
    (hinv : s0.Inv) (hw : board.width = 6) (hh : board.height = 6) :
    (∀ fuel : Nat, uninformedBound s0 ≤ fuel →
      ∃ r, bfsSolve board s0 fuel = some r) ∧
    (∀ fuel : Nat, uninformedBound s0 ≤ fuel →
      ∃ r, dfsSolve board s0 fuel = some r) ∧
    (∀ fuel : Nat, weightedBound s0 ≤ fuel →
      ∃ r, ucsSolve board s0 fuel = some r) ∧
    (∀ fuel : Nat, weightedBound s0 ≤ fuel →
      ∃ r, astarSolve board s0 fuel = some r) := by
  refine ⟨?_, ?_, ?_, ?_⟩ <;> intro fuel hfuel
  · exact Option.ne_none_iff_exists'.mp (bfsSolve_term hinv hw hh hfuel)
  · exact Option.ne_none_iff_exists'.mp (dfsSolve_term hinv hw hh hfuel)
  · exact Option.ne_none_iff_exists'.mp (ucsSolve_term hinv hw hh hfuel)
  · exact Option.ne_none_iff_exists'.mp (astarSolve_term hinv hw hh hfuel)

theorem chainR_iff_chain' {board : Board} :
    ∀ (s : State) (anc : List State), ChainR board s anc ↔
      List.Chain' (fun x y => x ∈ y.get_successors board) (s :: anc) := by
  intro s anc
  induction anc generalizing s with
  | nil => simp [ChainR]
  | cons a rest ih =>
      show (s ∈ a.get_successors board ∧ ChainR board a rest) ↔ _
      rw [List.chain'_cons, ih]

/-- The reversed chain of a node is a successor path. -/
theorem isPath_reconstruct {board : Board} {n : Node}
    (h : ChainR board n.state n.rpath) : IsPath board (reconstruct n) := by
  unfold IsPath reconstruct
  rw [List.chain'_reverse]
  rw [chainR_iff_chain'] at h
  exact List.Chain'.imp (fun a b hab => hab) h

theorem pathCost_append_last :
    ∀ (q : List State) (a x : State),
      pathCost ((q ++ [a]) ++ [x]) = pathCost (q ++ [a]) + movedCost a x := by
  intro q
  induction q with
  | nil =>
      intro a x
      show movedCost a x + 0 = 0 + movedCost a x
      omega
  | cons b t ih =>
      intro a x
      cases t with
      | nil =>
          show movedCost b a + (movedCost a x + 0)
            = movedCost b a + 0 + movedCost a x
          omega
      | cons c t' =>
          show movedCost b c + pathCost (((c :: t') ++ [a]) ++ [x])
            = movedCost b c + pathCost ((c :: t') ++ [a]) + movedCost a x
          rw [ih a x]
          omega

/-- The cost of the reversed chain equals the recursive chain cost. -/
theorem pathCost_reverse :
    ∀ (anc : List State) (s : State),
      pathCost ((s :: anc).reverse) = pathCostR s anc := by
  intro anc
  induction anc with
  | nil => intro s; rfl
  | cons a rest ih =>
      intro s
      rw [List.reverse_cons, List.reverse_cons, pathCost_append_last]
      have iha := ih a
      rw [List.reverse_cons] at iha
      have hdef : pathCostR s (a :: rest) = pathCostR a rest + movedCost a s := rfl
      omega

/-- Reversing a rooted goal chain yields a valid solution. -/
theorem reconstruct_valid {board : Board} {s0 : State} {n : Node}
    (hchain : ChainR board n.state n.rpath) (hroot : Rooted s0 n)
    (hgoal : n.state.is_goal_state board = true) :
    ValidSolution board s0 (reconstruct n) := by
  refine ⟨?_, isPath_reconstruct hchain, n.state, ?_, hgoal⟩
  · unfold reconstruct
    rw [List.head?_reverse]
    exact hroot
  · unfold reconstruct
    rw [List.getLast?_reverse]
    rfl

/-- The cost of a reconstructed path is the node's chain cost. -/
theorem pathCost_reconstruct (n : Node) :
    pathCost (reconstruct n) = pathCostR n.state n.rpath :=
  pathCost_reverse n.rpath n.state

/-! ## Key-equal states generate key-equal successors -/

theorem mem_vehicles_congr {s t : State} (hk : s.key = t.key)
    {p : Char × Vehicle} : p ∈ s.vehicles ↔ p ∈ t.vehicles := by
  rw [← List.mem_toFinset, ← List.mem_toFinset]
  unfold State.key at hk
  rw [hk]

theorem cellFree_congr {s t : State} (hk : s.key = t.key) (x y : Int) :
    s.CellFree x y ↔ t.CellFree x y := by
  unfold State.CellFree
  constructor <;> intro h p hp
  · exact h p ((mem_vehicles_congr hk).mpr hp)
  · exact h p ((mem_vehicles_congr hk).mp hp)

theorem freeRun_congr {s t : State} {board : Board} (hk : s.key = t.key)
    (v : Vehicle) :
    freeRunRight s board v = freeRunRight t board v ∧
    freeRunLeft s board v = freeRunLeft t board v ∧
    freeRunDown s board v = freeRunDown t board v ∧
    freeRunUp s board v = freeRunUp t board v := by
  refine ⟨?_, ?_, ?_, ?_⟩ <;>
    · first
        | unfold freeRunRight
        | unfold freeRunLeft
        | unfold freeRunDown
        | unfold freeRunUp
      apply countWhile_congr
      intro j _ _
      congr 1
      exact decide_eq_decide.mpr (cellFree_congr hk _ _)

theorem key_moveEntry_congr {s t : State} (hk : s.key = t.key)
    (vid : Char) (f : Vehicle → Vehicle) :
    State.key ⟨moveEntry s.vehicles vid f⟩ = State.key ⟨moveEntry t.vehicles vid f⟩ := by
  unfold State.key moveEntry
  ext q
  simp only [List.mem_toFinset, List.mem_map]
  constructor <;> rintro ⟨p, hp, rfl⟩
  · exact ⟨p, (mem_vehicles_congr hk).mp hp, rfl⟩
  · exact ⟨p, (mem_vehicles_congr hk).mpr hp, rfl⟩

/-- Membership characterization of the successor list (both
directions), in terms of the per-direction free runs. -/
theorem mem_successors_iff {s s' : State} {board : Board} (hinv : s.Inv) :
    s' ∈ s.get_successors board ↔ ∃ p ∈ s.vehicles,
      (p.2.orientation = .h ∧
        ((s' = ⟨moveEntry s.vehicles p.1 Vehicle.right⟩ ∧
            0 < freeRunRight s board p.2) ∨
         (s' = ⟨moveEntry s.vehicles p.1 Vehicle.left⟩ ∧
            0 < freeRunLeft s board p.2))) ∨
      (p.2.orientation = .v ∧
        ((s' = ⟨moveEntry s.vehicles p.1 Vehicle.down⟩ ∧
            0 < freeRunDown s board p.2) ∨
         (s' = ⟨moveEntry s.vehicles p.1 Vehicle.up⟩ ∧
            0 < freeRunUp s board p.2))) := by
  rw [successors_eq_runs hinv, List.mem_flatMap]
  constructor
  · rintro ⟨p, hp, hmem⟩
    refine ⟨p, hp, ?_⟩
    cases hor : p.2.orientation with
    | h =>
        rw [hor] at hmem
        rcases List.mem_append.mp hmem with h' | h' <;>
          obtain ⟨hne, rfl⟩ := List.mem_replicate.mp h'
        · exact Or.inl ⟨rfl, Or.inl ⟨rfl, Nat.pos_of_ne_zero hne⟩⟩
        · exact Or.inl ⟨rfl, Or.inr ⟨rfl, Nat.pos_of_ne_zero hne⟩⟩
    | v =>
        rw [hor] at hmem
        rcases List.mem_append.mp hmem with h' | h' <;>
          obtain ⟨hne, rfl⟩ := List.mem_replicate.mp h'
        · exact Or.inr ⟨rfl, Or.inl ⟨rfl, Nat.pos_of_ne_zero hne⟩⟩
        · exact Or.inr ⟨rfl, Or.inr ⟨rfl, Nat.pos_of_ne_zero hne⟩⟩
  · rintro ⟨p, hp, hcase⟩
    refine ⟨p, hp, ?_⟩
    rcases hcase with ⟨hor, ⟨rfl, hpos⟩ | ⟨rfl, hpos⟩⟩ | ⟨hor, ⟨rfl, hpos⟩ | ⟨rfl, hpos⟩⟩ <;>
      rw [hor] <;> rw [List.mem_append]
    · exact Or.inl (List.mem_replicate.mpr ⟨Nat.pos_iff_ne_zero.mp hpos, rfl⟩)
    · exact Or.inr (List.mem_replicate.mpr ⟨Nat.pos_iff_ne_zero.mp hpos, rfl⟩)
    · exact Or.inl (List.mem_replicate.mpr ⟨Nat.pos_iff_ne_zero.mp hpos, rfl⟩)
    · exact Or.inr (List.mem_replicate.mpr ⟨Nat.pos_iff_ne_zero.mp hpos, rfl⟩)

/-- The moved-vehicle scan on a constructed one-vehicle move. -/
theorem movedCost_moveEntry {s : State} {p : Char × Vehicle}
    (hinv : s.Inv) (hp : p ∈ s.vehicles) (f : Vehicle → Vehicle)
    (hne : f p.2 ≠ p.2) :
    movedCost s ⟨moveEntry s.vehicles p.1 f⟩ = (f p.2).length := by
  have hnd := hinv.1.1
  have hp' : (p.1, p.2) ∈ s.vehicles := by rw [Prod.mk.eta]; exact hp
  have hlook' : State.lookup ⟨moveEntry s.vehicles p.1 f⟩ p.1 = some (f p.2) :=
    lookup_moveEntry_self hnd hp' f
  obtain ⟨l1, l2, hsplit⟩ := List.append_of_mem hp'
  have hl1keys : ∀ q ∈ l1, q.1 ≠ p.1 := by
    intro q hq hqk
    have hmapped : (s.vehicles.map Prod.fst) =
        l1.map Prod.fst ++ p.1 :: l2.map Prod.fst := by
      rw [hsplit, List.map_append, List.map_cons]
    rw [hmapped] at hnd
    rw [List.nodup_middle] at hnd
    rcases List.nodup_cons.mp hnd with ⟨hnotmem, -⟩
    apply hnotmem
    rw [List.mem_append]
    exact Or.inl (by rw [← hqk]; exact List.mem_map_of_mem Prod.fst hq)
  have hfind' : (l1 ++ (p.1, p.2) :: l2).find?
      (fun q => !(State.lookup ⟨moveEntry s.vehicles p.1 f⟩ q.1 == some q.2))
      = some (p.1, p.2) := by
    apply find?_append_first
    · intro q hq
      have hq2 : q ∈ s.vehicles := by
        rw [hsplit, List.mem_append]
        exact Or.inl hq
      have hlq : s.lookup q.1 = some q.2 :=
        (lookup_eq_some_iff hinv.1.1).mpr (by rw [Prod.mk.eta]; exact hq2)
      have hlm : State.lookup ⟨moveEntry s.vehicles p.1 f⟩ q.1 = some q.2 := by
        rw [lookup_moveEntry_other (hl1keys q hq)]
        exact hlq
      show (!(State.lookup ⟨moveEntry s.vehicles p.1 f⟩ q.1 == some q.2)) = false
      rw [hlm]
      simp
    · show (!(State.lookup ⟨moveEntry s.vehicles p.1 f⟩ p.1 == some p.2)) = true
      rw [hlook']
      simp only [Bool.not_eq_true', beq_eq_false_iff_ne, ne_eq,
        Option.some_inj]
      intro hc
      exact hne hc
  have hfind : s.vehicles.find?
      (fun q => !(State.lookup ⟨moveEntry s.vehicles p.1 f⟩ q.1 == some q.2))
      = some (p.1, p.2) := by
    rw [← hsplit] at hfind'
    exact hfind'
  unfold movedCost
  rw [hfind]
  show (match State.lookup ⟨moveEntry s.vehicles p.1 f⟩ p.1 with
        | some v' => v'.length
        | none => 0) = (f p.2).length
  rw [hlook']

/-- Key-equal invariant states generate key-equal successors with the
same move costs and matching goal status. -/
theorem succ_key_congr {s t s' : State} {board : Board}
    (hs : s.Inv) (ht : t.Inv) (hk : s.key = t.key)
    (h : s' ∈ s.get_successors board) :
    ∃ t' ∈ t.get_successors board, t'.key = s'.key ∧
      movedCost t t' = movedCost s s' := by
  obtain ⟨p, hp, hcase⟩ := (mem_successors_iff hs).mp h
  have hpt : p ∈ t.vehicles := (mem_vehicles_congr hk).mp hp
  obtain ⟨hfr, hfl, hfd, hfu⟩ := @freeRun_congr s t board hk p.2
  rcases hcase with ⟨hor, ⟨rfl, hpos⟩ | ⟨rfl, hpos⟩⟩ | ⟨hor, ⟨rfl, hpos⟩ | ⟨rfl, hpos⟩⟩
  · refine ⟨⟨moveEntry t.vehicles p.1 Vehicle.right⟩, ?_, ?_, ?_⟩
    · exact (mem_successors_iff ht).mpr ⟨p, hpt,
        Or.inl ⟨hor, Or.inl ⟨rfl, by rw [← hfr]; exact hpos⟩⟩⟩
    · exact key_moveEntry_congr hk.symm p.1 Vehicle.right
    · rw [movedCost_moveEntry ht hpt Vehicle.right (move_ne p.2).1,
        movedCost_moveEntry hs hp Vehicle.right (move_ne p.2).1]
  · refine ⟨⟨moveEntry t.vehicles p.1 Vehicle.left⟩, ?_, ?_, ?_⟩
    · exact (mem_successors_iff ht).mpr ⟨p, hpt,
        Or.inl ⟨hor, Or.inr ⟨rfl, by rw [← hfl]; exact hpos⟩⟩⟩
    · exact key_moveEntry_congr hk.symm p.1 Vehicle.left
    · rw [movedCost_moveEntry ht hpt Vehicle.left (move_ne p.2).2.1,
        movedCost_moveEntry hs hp Vehicle.left (move_ne p.2).2.1]
  · refine ⟨⟨moveEntry t.vehicles p.1 Vehicle.down⟩, ?_, ?_, ?_⟩
    · exact (mem_successors_iff ht).mpr ⟨p, hpt,
        Or.inr ⟨hor, Or.inl ⟨rfl, by rw [← hfd]; exact hpos⟩⟩⟩
    · exact key_moveEntry_congr hk.symm p.1 Vehicle.down
    · rw [movedCost_moveEntry ht hpt Vehicle.down (move_ne p.2).2.2.1,
        movedCost_moveEntry hs hp Vehicle.down (move_ne p.2).2.2.1]
  · refine ⟨⟨moveEntry t.vehicles p.1 Vehicle.up⟩, ?_, ?_, ?_⟩
    · exact (mem_successors_iff ht).mpr ⟨p, hpt,
        Or.inr ⟨hor, Or.inr ⟨rfl, by rw [← hfu]; exact hpos⟩⟩⟩
    · exact key_moveEntry_congr hk.symm p.1 Vehicle.up
    · rw [movedCost_moveEntry ht hpt Vehicle.up (move_ne p.2).2.2.2,
        movedCost_moveEntry hs hp Vehicle.up (move_ne p.2).2.2.2]

/-- Witness for C9 at the concrete two-vehicle board, with the fuel
budgets instantiated at their bounds. -/
theorem C9_witness :
    (∃ r, bfsSolve bXA sXA (uninformedBound sXA) = some r) ∧
    (∃ r, dfsSolve bXA sXA (uninformedBound sXA) = some r) ∧
    (∃ r, ucsSolve bXA sXA (weightedBound sXA) = some r) ∧
    (∃ r, astarSolve bXA sXA (weightedBound sXA) = some r) :=
  ⟨(C9_solvers_terminate (by decide) (by decide) (by decide)).1 _ le_rfl,
   (C9_solvers_terminate (by decide) (by decide) (by decide)).2.1 _ le_rfl,
   (C9_solvers_terminate (by decide) (by decide) (by decide)).2.2.1 _ le_rfl,
   (C9_solvers_terminate (by decide) (by decide) (by decide)).2.2.2 _ le_rfl⟩

/-! ## C10: BFS returns a move-minimal solution -/

/-- Every state on a successor path starting at a good state is good. -/
theorem path_states_good {board : Board} {s0 : State}
    (hw : board.width = 6) (hh : board.height = 6) :
    ∀ (q : List State) (a : State), IsPath board (a :: q) → GoodState s0 a →
      ∀ st ∈ a :: q, GoodState s0 st := by
  intro q
  induction q with
  | nil =>
      intro a _ ha st hst
      rw [List.mem_singleton.mp hst]
      exact ha
  | cons b rest ih =>
      intro a hpath ha st hst
      have hchain : b ∈ a.get_successors board ∧
          List.Chain' (fun x y => y ∈ x.get_successors board) (b :: rest) :=
        List.chain'_cons.mp hpath
      have hb : GoodState s0 b := goodState_succ hw hh ha hchain.1
      rcases List.mem_cons.mp hst with rfl | hst'
      · exact ha
      · exact ih b hchain.2 hb st hst'

/-- Walking a goal path through fully-expanded explored keys must reach
a frontier node, because goal keys are never explored. -/
theorem bfs_walk {board : Board} {s0 : State}
    {fr : List Node} {ex : Finset StateKey} {D : StateKey → Nat}
    {closed : Finset StateKey}
    (hLink : ∀ k ∈ ex, k ∉ closed → ∃ m ∈ fr, m.state.key = k)
    (hClosed : ∀ k ∈ closed, ∃ s, GoodState s0 s ∧ s.key = k ∧
       ∀ s' ∈ s.get_successors board, s'.key ∈ ex ∧ D s'.key ≤ D k + 1)
    (hNoGoal : ∀ s, GoodState s0 s → s.key ∈ ex →
       s.is_goal_state board = false)
    {q : List State} (hpath : IsPath board q)
    (hgoodq : ∀ st ∈ q, GoodState s0 st)
    {glast : State} (hlast : q.getLast? = some glast)
    (hgoal : glast.is_goal_state board = true) :
    ∀ (fuel j : Nat) (st : State), q.length - j ≤ fuel →
      q[j]? = some st → st.key ∈ ex → D st.key ≤ j →
      ∃ m ∈ fr, ∃ i st', q[i]? = some st' ∧ st'.key = m.state.key ∧
        D m.state.key ≤ i := by
  intro fuel
  induction fuel with
  | zero =>
      intro j st hle hj _ _
      obtain ⟨hjlt, -⟩ := List.getElem?_eq_some.mp hj
      omega
  | succ f ih =>
      intro j st hle hj hmem hD
      by_cases hcl : st.key ∈ closed
      · obtain ⟨hjlt, hjget⟩ := List.getElem?_eq_some.mp hj
        have hstg : GoodState s0 st := hgoodq st (List.getElem?_mem hj)
        have hstng : st.is_goal_state board = false := hNoGoal st hstg hmem
        have hne : j ≠ q.length - 1 := by
          intro hj'
          rw [List.getLast?_eq_getElem?, ← hj', hj] at hlast
          rw [← Option.some_inj.mp hlast] at hgoal
          rw [hstng] at hgoal
          exact Bool.noConfusion hgoal
        have hjlt1 : j + 1 < q.length := by omega
        have hj1 : q[j + 1]? = some (q.get ⟨j + 1, hjlt1⟩) := by
          rw [List.get_eq_getElem]
          exact List.getElem?_eq_getElem hjlt1
        have hsucc : q.get ⟨j + 1, hjlt1⟩ ∈ st.get_successors board := by
          have hrel := (List.chain'_iff_get.mp hpath) j (by omega)
          have hget : q.get ⟨j, by omega⟩ = st := by
            rw [List.get_eq_getElem]
            exact hjget
          rw [hget] at hrel
          exact hrel
        obtain ⟨s, hsgood, hskey, hsall⟩ := hClosed st.key hcl
        obtain ⟨s'', hs''mem, hs''key, -⟩ :=
          succ_key_congr hstg.1 hsgood.1 hskey.symm hsucc
        obtain ⟨hs''ex, hs''D⟩ := hsall s'' hs''mem
        rw [hs''key] at hs''ex hs''D
        exact ih (j + 1) (q.get ⟨j + 1, hjlt1⟩) (by omega) hj1 hs''ex
          (by omega)
      · obtain ⟨m, hm, hkey⟩ := hLink st.key hmem hcl
        exact ⟨m, hm, j, st, hj, hkey.symm, by rw [hkey]; exact hD⟩

/-- One BFS expansion either returns the path to an unexplored goal
successor built on the parent's chain, or preserves every frontier
invariant, records all processed successors as explored with bounded
insertion depth, and keeps the prior frontier. -/
theorem bfsExpand_opt {board : Board} {s0 : State}
    (hw : board.width = 6) (hh : board.height = 6) (n : Node) :
    ∀ (succs : List State) (fr : List Node) (ex : Finset StateKey)
      (D : StateKey → Nat) (closed : Finset StateKey),
      (∀ st ∈ succs, st ∈ n.state.get_successors board) →
      BfsNodeOK board s0 ex D n →
      (∀ m ∈ fr, BfsNodeOK board s0 ex D m) →
      closed ⊆ ex → ex ⊆ universeKeys s0 →
      (∀ k ∈ ex, k ∉ closed →
         (∃ m ∈ fr, m.state.key = k) ∨ k = n.state.key) →
      (∀ k ∈ closed, ∃ s, GoodState s0 s ∧ s.key = k ∧
         ∀ s' ∈ s.get_successors board, s'.key ∈ ex ∧ D s'.key ≤ D k + 1) →
      (∀ s, GoodState s0 s → s.key ∈ ex → s.is_goal_state board = false) →
      List.Sorted (· ≤ ·) (fr.map (fun m => m.rpath.length)) →
      (∀ m ∈ fr, n.rpath.length ≤ m.rpath.length ∧
         m.rpath.length ≤ n.rpath.length + 1) →
      (∀ k ∈ ex, D k ≤ n.rpath.length + 1) →
      (∃ g cfg, g ∈ n.state.get_successors board ∧ GoodState s0 g ∧
         g.is_goal_state board = true ∧
         bfsExpand board n succs fr ex
           = (some (reconstruct ⟨g, n.state :: n.rpath, 0⟩), cfg)) ∨
      (∃ fr' ex' D',
         bfsExpand board n succs fr ex = (none, (fr', ex')) ∧
         (∀ m ∈ fr', BfsNodeOK board s0 ex' D' m) ∧
         closed ⊆ ex' ∧ ex' ⊆ universeKeys s0 ∧
         ex ⊆ ex' ∧ (∀ k ∈ ex, D' k = D k) ∧
         (∀ k ∈ ex', k ∉ closed →
            (∃ m ∈ fr', m.state.key = k) ∨ k = n.state.key) ∧
         (∀ k ∈ closed, ∃ s, GoodState s0 s ∧ s.key = k ∧
            ∀ s' ∈ s.get_successors board, s'.key ∈ ex' ∧
              D' s'.key ≤ D' k + 1) ∧
         (∀ s, GoodState s0 s → s.key ∈ ex' →
            s.is_goal_state board = false) ∧
         List.Sorted (· ≤ ·) (fr'.map (fun m => m.rpath.length)) ∧
         (∀ m ∈ fr', n.rpath.length ≤ m.rpath.length ∧
            m.rpath.length ≤ n.rpath.length + 1) ∧
         (∀ k ∈ ex', D' k ≤ n.rpath.length + 1) ∧
         (∀ st ∈ succs, st.key ∈ ex' ∧ D' st.key ≤ D n.state.key + 1) ∧
         (∀ m ∈ fr, m ∈ fr')) := by
  intro succs
  induction succs with
  | nil =>
      intro fr ex D closed _ hn hfr hce hexu hlink hclosed hnogoal hsort
        hbnd hDbnd
      exact Or.inr ⟨fr, ex, D, rfl, hfr, hce, hexu, Finset.Subset.refl ex,
        fun _ _ => rfl, hlink, hclosed, hnogoal, hsort, hbnd, hDbnd,
        fun u hu => absurd hu (List.not_mem_nil u),
        fun m hm => hm⟩
  | cons st rest ih =>
      intro fr ex D closed hsuccs hn hfr hce hexu hlink hclosed hnogoal
        hsort hbnd hDbnd
      have hstmem : st ∈ n.state.get_successors board :=
        hsuccs st (List.mem_cons_self _ _)
      have hrest : ∀ u ∈ rest, u ∈ n.state.get_successors board :=
        fun u hu => hsuccs u (List.mem_cons_of_mem _ hu)
      have hstg : GoodState s0 st := goodState_succ hw hh hn.1 hstmem
      have hnD : n.rpath.length ≤ D n.state.key := hn.2.2.2.2.2.2
      by_cases hmem : st.key ∈ ex
      · rw [bfsExpand_cons, if_pos hmem]
        rcases ih fr ex D closed hrest hn hfr hce hexu hlink hclosed
            hnogoal hsort hbnd hDbnd with hret |
          ⟨fr', ex', D', heq, h1, h2, h3, h4, h5, h6, h7, h8, h9, h10,
            h11, h12, h13⟩
        · exact Or.inl hret
        · refine Or.inr ⟨fr', ex', D', heq, h1, h2, h3, h4, h5, h6, h7,
            h8, h9, h10, h11, ?_, h13⟩
          intro u hu
          rcases List.mem_cons.mp hu with rfl | hu'
          · refine ⟨h4 hmem, ?_⟩
            rw [h5 u.key hmem]
            have := hDbnd u.key hmem
            omega
          · exact h12 u hu'
      · by_cases hgoal : st.is_goal_state board = true
        · rw [bfsExpand_cons, if_neg hmem, if_pos hgoal]
          exact Or.inl ⟨st, (fr, ex), hstmem, hstg, hgoal, rfl⟩
        · have hgoal' : st.is_goal_state board = false := by
            cases hsg : st.is_goal_state board
            · rfl
            · exact absurd hsg hgoal
          rw [bfsExpand_cons, if_neg hmem, if_neg hgoal]
          have hnne : n.state.key ≠ st.key := by
            intro hc
            exact hmem (hc ▸ hn.2.2.2.2.2.1)
          have hn' : BfsNodeOK board s0 (insert st.key ex)
              (Function.update D st.key (n.rpath.length + 1)) n := by
            refine ⟨hn.1, hn.2.1, hn.2.2.1, hn.2.2.2.1, hn.2.2.2.2.1,
              Finset.mem_insert_of_mem hn.2.2.2.2.2.1, ?_⟩
            rw [Function.update_noteq hnne]
            exact hnD
          have hfr2 : ∀ m ∈ fr ++ [(⟨st, n.state :: n.rpath, 0⟩ : Node)],
              BfsNodeOK board s0 (insert st.key ex)
                (Function.update D st.key (n.rpath.length + 1)) m := by
            intro m hm
            rcases List.mem_append.mp hm with hm' | hm'
            · obtain ⟨g1, g2, g3, g4, g5, g6, g7⟩ := hfr m hm'
              have hmne : m.state.key ≠ st.key := by
                intro hc
                exact hmem (hc ▸ g6)
              refine ⟨g1, g2, g3, g4, g5, Finset.mem_insert_of_mem g6, ?_⟩
              rw [Function.update_noteq hmne]
              exact g7
            · rw [List.mem_singleton.mp hm']
              refine ⟨hstg, ?_, ⟨hstmem, hn.2.2.1⟩, ?_, hgoal',
                Finset.mem_insert_self _ _, ?_⟩
              · intro t ht
                rcases List.mem_cons.mp ht with rfl | ht'
                · exact hn.1
                · exact hn.2.1 t ht'
              · show (st :: n.state :: n.rpath).getLast? = some s0
                rw [List.getLast?_cons_cons]
                exact hn.2.2.2.1
              · show (n.state :: n.rpath).length ≤ _
                rw [Function.update_same, List.length_cons]
          have hce' : closed ⊆ insert st.key ex :=
            hce.trans (Finset.subset_insert _ _)
          have hexu' : insert st.key ex ⊆ universeKeys s0 :=
            Finset.insert_subset_iff.mpr ⟨goodState_key_mem hstg, hexu⟩
          have hlink' : ∀ k ∈ insert st.key ex, k ∉ closed →
              (∃ m ∈ fr ++ [(⟨st, n.state :: n.rpath, 0⟩ : Node)],
                m.state.key = k) ∨ k = n.state.key := by
            intro k hk hkc
            rcases Finset.mem_insert.mp hk with rfl | hk'
            · exact Or.inl ⟨⟨st, n.state :: n.rpath, 0⟩,
                List.mem_append.mpr (Or.inr (List.mem_singleton_self _)),
                rfl⟩
            · rcases hlink k hk' hkc with ⟨m, hm, hkey⟩ | h
              · exact Or.inl ⟨m, List.mem_append.mpr (Or.inl hm), hkey⟩
              · exact Or.inr h
          have hclosed' : ∀ k ∈ closed, ∃ s, GoodState s0 s ∧ s.key = k ∧
              ∀ s' ∈ s.get_successors board, s'.key ∈ insert st.key ex ∧
                Function.update D st.key (n.rpath.length + 1) s'.key ≤
                  Function.update D st.key (n.rpath.length + 1) k + 1 := by
            intro k hkc
            obtain ⟨s, hs, hskey, hall⟩ := hclosed k hkc
            refine ⟨s, hs, hskey, fun s' hs' => ?_⟩
            obtain ⟨he, hd⟩ := hall s' hs'
            have hne1 : s'.key ≠ st.key := by
              intro hc
              exact hmem (hc ▸ he)
            have hne2 : k ≠ st.key := by
              intro hc
              exact hmem (hc ▸ hce hkc)
            rw [Function.update_noteq hne1, Function.update_noteq hne2]
            exact ⟨Finset.mem_insert_of_mem he, hd⟩
          have hnogoal' : ∀ s, GoodState s0 s → s.key ∈ insert st.key ex →
              s.is_goal_state board = false := by
            intro s hsg hsk
            rcases Finset.mem_insert.mp hsk with hk | hk'
            · rw [is_goal_congr hsg.1.1 hstg.1.1 hk]
              exact hgoal'
            · exact hnogoal s hsg hk'
          have hsort' : List.Sorted (· ≤ ·)
              ((fr ++ [(⟨st, n.state :: n.rpath, 0⟩ : Node)]).map
                (fun m => m.rpath.length)) := by
            rw [List.map_append]
            refine List.pairwise_append.mpr ⟨hsort,
              List.pairwise_singleton _ _, ?_⟩
            intro a ha b hb
            obtain ⟨m, hm, hma⟩ := List.mem_map.mp ha
            have hb' : b = n.rpath.length + 1 := by
              rcases List.mem_singleton.mp
                (by simpa using hb : b ∈
                  [((⟨st, n.state :: n.rpath, 0⟩ : Node)).rpath.length])
                with h
              rw [h]
              exact List.length_cons _ _
            rw [← hma, hb']
            exact (hbnd m hm).2
          have hbnd' : ∀ m ∈ fr ++ [(⟨st, n.state :: n.rpath, 0⟩ : Node)],
              n.rpath.length ≤ m.rpath.length ∧
                m.rpath.length ≤ n.rpath.length + 1 := by
            intro m hm
            rcases List.mem_append.mp hm with hm' | hm'
            · exact hbnd m hm'
            · rw [List.mem_singleton.mp hm']
              show n.rpath.length ≤ (n.state :: n.rpath).length ∧
                (n.state :: n.rpath).length ≤ n.rpath.length + 1
              rw [List.length_cons]
              omega
          have hDbnd' : ∀ k ∈ insert st.key ex,
              Function.update D st.key (n.rpath.length + 1) k ≤
                n.rpath.length + 1 := by
            intro k hk
            rcases Finset.mem_insert.mp hk with rfl | hk'
            · rw [Function.update_same]
            · have hne : k ≠ st.key := by
                intro hc
                exact hmem (hc ▸ hk')
              rw [Function.update_noteq hne]
              exact hDbnd k hk'
          rcases ih (fr ++ [⟨st, n.state :: n.rpath, 0⟩])
              (insert st.key ex)
              (Function.update D st.key (n.rpath.length + 1)) closed
              hrest hn' hfr2 hce' hexu' hlink' hclosed' hnogoal' hsort'
              hbnd' hDbnd' with hret |
            ⟨fr', ex', D', heq, h1, h2, h3, h4, h5, h6, h7, h8, h9, h10,
              h11, h12, h13⟩
          · exact Or.inl hret
          · refine Or.inr ⟨fr', ex', D', heq, h1, h2, h3,
              (Finset.subset_insert _ _).trans h4, ?_, h6, h7, h8, h9,
              h10, h11, ?_, ?_⟩
            · intro k hk
              have hne : k ≠ st.key := by
                intro hc
                exact hmem (hc ▸ hk)
              rw [h5 k (Finset.mem_insert_of_mem hk),
                Function.update_noteq hne]
            · intro u hu
              rcases List.mem_cons.mp hu with rfl | hu'
              · refine ⟨h4 (Finset.mem_insert_self _ _), ?_⟩
                rw [h5 u.key (Finset.mem_insert_self _ _),
                  Function.update_same]
                omega
              · have hu2 := h12 u hu'
                rw [Function.update_noteq hnne] at hu2
                exact hu2
            · exact fun m hm => h13 m (List.mem_append.mpr (Or.inl hm))

/-- All states of a valid solution are good. -/
theorem valid_states_good {board : Board} {s0 : State}
    (hw : board.width = 6) (hh : board.height = 6) (h0 : GoodState s0 s0)
    {q : List State} (hq : ValidSolution board s0 q) :
    ∀ st ∈ q, GoodState s0 st := by
  obtain ⟨hhead, hpath, -⟩ := hq
  cases q with
  | nil =>
      intro st hst
      exact absurd hst (List.not_mem_nil st)
  | cons a t =>
      have ha : a = s0 := by
        rw [List.head?_cons] at hhead
        exact Option.some_inj.mp hhead
      intro st hst
      refine path_states_good hw hh t a hpath ?_ st hst
      rw [ha]
      exact h0

/-- The BFS loop, run under the full frontier invariant on a
solvable instance with enough fuel, returns a valid solution no longer
than any valid solution. -/
theorem bfsLoop_opt {board : Board} {s0 : State}
    (hw : board.width = 6) (hh : board.height = 6) (h0 : GoodState s0 s0) :
    ∀ (fuel : Nat) (fr : List Node) (ex : Finset StateKey)
      (D : StateKey → Nat) (closed : Finset StateKey),
      (∀ m ∈ fr, BfsNodeOK board s0 ex D m) →
      closed ⊆ ex → ex ⊆ universeKeys s0 →
      (∀ k ∈ ex, k ∉ closed → ∃ m ∈ fr, m.state.key = k) →
      (∀ k ∈ closed, ∃ s, GoodState s0 s ∧ s.key = k ∧
         ∀ s' ∈ s.get_successors board, s'.key ∈ ex ∧ D s'.key ≤ D k + 1) →
      (∀ s, GoodState s0 s → s.key ∈ ex → s.is_goal_state board = false) →
      List.Sorted (· ≤ ·) (fr.map (fun m => m.rpath.length)) →
      (∀ hd ∈ fr.head?, (∀ m ∈ fr, m.rpath.length ≤ hd.rpath.length + 1) ∧
         ∀ k ∈ ex, D k ≤ hd.rpath.length + 1) →
      BfsCov board s0 fr D →
      (∃ q, ValidSolution board s0 q) →
      fr.length + ((universeKeys s0).card - ex.card) < fuel →
      ∃ p, bfsLoop board fuel fr ex = some (some p) ∧
        ValidSolution board s0 p ∧
        ∀ q, ValidSolution board s0 q → p.length ≤ q.length := by
  intro fuel
  induction fuel with
  | zero =>
      intro fr ex D closed _ _ _ _ _ _ _ _ _ _ hlt
      omega
  | succ f ih =>
      intro fr ex D closed hfr hce hexu hlink hclosed hnogoal hsort hhead
        hcov hsolv hlt
      cases fr with
      | nil =>
          obtain ⟨q0, hq0⟩ := hsolv
          obtain ⟨n, hn, -⟩ := hcov q0 hq0
          exact absurd hn (List.not_mem_nil n)
      | cons nh fr₂ =>
          have hnh := hfr nh (List.mem_cons_self _ _)
          have hfr₂ : ∀ m ∈ fr₂, BfsNodeOK board s0 ex D m :=
            fun m hm => hfr m (List.mem_cons_of_mem _ hm)
          have hsc := List.sorted_cons.mp hsort
          have hheadnh := hhead nh rfl
          have hlink₂ : ∀ k ∈ ex, k ∉ closed →
              (∃ m ∈ fr₂, m.state.key = k) ∨ k = nh.state.key := by
            intro k hk hkc
            obtain ⟨m, hm, hkey⟩ := hlink k hk hkc
            rcases List.mem_cons.mp hm with rfl | hm'
            · exact Or.inr hkey.symm
            · exact Or.inl ⟨m, hm', hkey⟩
          have hbnd₂ : ∀ m ∈ fr₂, nh.rpath.length ≤ m.rpath.length ∧
              m.rpath.length ≤ nh.rpath.length + 1 := by
            intro m hm
            refine ⟨hsc.1 _ (List.mem_map_of_mem _ hm), ?_⟩
            exact hheadnh.1 m (List.mem_cons_of_mem _ hm)
          have hred : bfsLoop board (f + 1) (nh :: fr₂) ex
              = match bfsExpand board nh (nh.state.get_successors board)
                  fr₂ ex with
                | (some path, _) => some (some path)
                | (none, (fr'', ex'')) => bfsLoop board f fr'' ex'' := rfl
          rcases bfsExpand_opt hw hh nh (nh.state.get_successors board)
              fr₂ ex D closed (fun st hst => hst) hnh hfr₂ hce hexu hlink₂
              hclosed hnogoal hsc.2 hbnd₂ hheadnh.2 with
            ⟨g, cfg, hgmem, hgg, hggoal, heq⟩ |
            ⟨fr', ex', D', heq, h1, h2, h3, h4, h5, h6, h7, h8, h9, h10,
              h11, h12, h13⟩
          · refine ⟨reconstruct ⟨g, nh.state :: nh.rpath, 0⟩, ?_, ?_, ?_⟩
            · rw [hred, heq]
            · refine reconstruct_valid ⟨hgmem, hnh.2.2.1⟩ ?_ hggoal
              show (g :: nh.state :: nh.rpath).getLast? = some s0
              rw [List.getLast?_cons_cons]
              exact hnh.2.2.2.1
            · intro q hq
              obtain ⟨nc, hnc, i, stq, hqi, hkeyq, hDq⟩ := hcov q hq
              have hplen : (reconstruct
                  (⟨g, nh.state :: nh.rpath, 0⟩ : Node)).length
                  = nh.rpath.length + 2 := by
                unfold reconstruct
                rw [List.length_reverse]
                rfl
              have hilt : i < q.length := (List.getElem?_eq_some.mp hqi).1
              have hig : GoodState s0 stq :=
                valid_states_good hw hh h0 hq stq (List.getElem?_mem hqi)
              have hine : i ≠ q.length - 1 := by
                intro hieq
                obtain ⟨-, -, glast, hlastq, hgoalq⟩ := hq
                rw [List.getLast?_eq_getElem?, ← hieq, hqi] at hlastq
                have hstq : stq = glast := Option.some_inj.mp hlastq
                have hncn : nc.state.is_goal_state board = false :=
                  (hfr nc hnc).2.2.2.2.1
                have hstqg : stq.is_goal_state board = true := by
                  rw [hstq]
                  exact hgoalq
                rw [is_goal_congr hig.1.1 (hfr nc hnc).1.1.1 hkeyq] at hstqg
                rw [hncn] at hstqg
                exact Bool.noConfusion hstqg
              have hnclen : nh.rpath.length ≤ nc.rpath.length := by
                rcases List.mem_cons.mp hnc with rfl | hnc'
                · exact le_refl _
                · exact hsc.1 _ (List.mem_map_of_mem _ hnc')
              have hncD : nc.rpath.length ≤ D nc.state.key :=
                (hfr nc hnc).2.2.2.2.2.2
              rw [hplen]
              omega
          · have hexsucc : ∀ st ∈ nh.state.get_successors board,
                GoodState s0 st :=
              fun st hst => goodState_succ hw hh hnh.1 hst
            have hfr₂g : ∀ m ∈ fr₂, GoodState s0 m.state :=
              fun m hm => (hfr₂ m hm).1
            rcases bfsExpand_term nh (nh.state.get_successors board) fr₂ ex
                hexsucc hfr₂g hexu with
              ⟨pth, cfg2, heq2⟩ | ⟨fr'', ex'', heq2, hmeas, -, -⟩
            · rw [heq] at heq2
              simp at heq2
            · rw [heq] at heq2
              injection heq2 with ha hb
              injection hb with hb1 hb2
              rw [← hb1, ← hb2] at hmeas
              have hnhkey : nh.state.key ∈ ex := hnh.2.2.2.2.2.1
              have hce'' : insert nh.state.key closed ⊆ ex' :=
                Finset.insert_subset_iff.mpr ⟨h4 hnhkey, h2⟩
              have hlink'' : ∀ k ∈ ex', k ∉ insert nh.state.key closed →
                  ∃ m ∈ fr', m.state.key = k := by
                intro k hk hkc
                have hkne : k ≠ nh.state.key :=
                  fun hc => hkc (hc ▸ Finset.mem_insert_self _ _)
                have hkcl : k ∉ closed :=
                  fun hc => hkc (Finset.mem_insert_of_mem hc)
                rcases h6 k hk hkcl with hwit | hkeq
                · exact hwit
                · exact absurd hkeq hkne
              have hclosed'' : ∀ k ∈ insert nh.state.key closed,
                  ∃ s, GoodState s0 s ∧ s.key = k ∧
                    ∀ s' ∈ s.get_successors board, s'.key ∈ ex' ∧
                      D' s'.key ≤ D' k + 1 := by
                intro k hk
                rcases Finset.mem_insert.mp hk with rfl | hk'
                · refine ⟨nh.state, hnh.1, rfl, fun s' hs' => ?_⟩
                  obtain ⟨he, hd⟩ := h12 s' hs'
                  refine ⟨he, ?_⟩
                  rw [h5 nh.state.key hnhkey]
                  exact hd
                · exact h7 k hk'
              have hhead'' : ∀ hd ∈ fr'.head?,
                  (∀ m ∈ fr', m.rpath.length ≤ hd.rpath.length + 1) ∧
                    ∀ k ∈ ex', D' k ≤ hd.rpath.length + 1 := by
                intro hd hhd
                have hdm : hd ∈ fr' := List.mem_of_mem_head? hhd
                have hdlen := (h10 hd hdm).1
                constructor
                · intro m hm
                  have := (h10 m hm).2
                  omega
                · intro k hk
                  have := h11 k hk
                  omega
              have hcov'' : BfsCov board s0 fr' D' := by
                intro q hq
                obtain ⟨nc, hnc, i, stq, hqi, hkeyq, hDq⟩ := hcov q hq
                rcases List.mem_cons.mp hnc with rfl | hnc'
                · have hqgood := valid_states_good hw hh h0 hq
                  obtain ⟨hqhead, hqpath, glast, hqlast, hqgoal⟩ := hq
                  refine bfs_walk hlink'' hclosed'' h8 hqpath hqgood
                    hqlast hqgoal q.length i stq ?_ hqi ?_ ?_
                  · omega
                  · rw [hkeyq]
                    exact h4 hnhkey
                  · rw [hkeyq, h5 nc.state.key hnhkey]
                    exact hDq
                · refine ⟨nc, h13 nc hnc', i, stq, hqi, hkeyq, ?_⟩
                  rw [h5 nc.state.key (hfr₂ nc hnc').2.2.2.2.2.1]
                  exact hDq
              have hmeas' : fr'.length +
                  ((universeKeys s0).card - ex'.card) < f := by
                rw [hmeas]
                rw [List.length_cons] at hlt
                omega
              rw [hred, heq]
              show ∃ p, bfsLoop board f fr' ex' = some (some p) ∧
                ValidSolution board s0 p ∧
                ∀ q, ValidSolution board s0 q → p.length ≤ q.length
              exact ih fr' ex' D' (insert nh.state.key closed) h1 hce'' h3
                hlink'' hclosed'' h8 h9 hhead'' hcov'' hsolv hmeas'

/-- C10: For every solvable board and initial state (well-formed, on
the 6x6 board), `BfsSolver.solve` returns a path with the minimum
number of moves (path length minus one) among all successor paths from
the initial state to any goal state, given any iteration budget beyond
the finite state-universe bound. -/
theorem C10_bfs_shortest {board : Board} {s0 : State}
    (hinv : s0.Inv) (hw : board.width = 6) (hh : board.height = 6)
    {fuel : Nat} (hfuel : uninformedBound s0 ≤ fuel)
    (hsolv : ∃ q, ValidSolution board s0 q) :
    ∃ p, bfsSolve board s0 fuel = some (some p) ∧
      ValidSolution board s0 p ∧
      ∀ q, ValidSolution board s0 q → p.length ≤ q.length := by
  unfold bfsSolve
  by_cases hg : s0.is_goal_state board = true
  · rw [if_pos hg]
    refine ⟨reconstruct ⟨s0, [], 0⟩, rfl, ?_, ?_⟩
    · exact reconstruct_valid trivial rfl hg
    · intro q hq
      obtain ⟨hqh, -, -⟩ := hq
      cases q with
      | nil => exact absurd hqh (by simp)
      | cons a t =>
          show (1 : Nat) ≤ t.length + 1
          omega
  · rw [if_neg hg]
    have hg' : s0.is_goal_state board = false := by
      cases hsg : s0.is_goal_state board
      · rfl
      · exact absurd hsg hg
    have hmem : s0.key ∈ universeKeys s0 :=
      key_mem_universeKeys rfl hinv.1.2.1 hinv.2.1
    have hcard : 1 ≤ (universeKeys s0).card :=
      Finset.card_pos.mpr ⟨s0.key, hmem⟩
    refine bfsLoop_opt hw hh ⟨hinv, rfl⟩ fuel
      [⟨s0, [], 0⟩] {s0.key} (fun _ => 0) ∅ ?_ (Finset.empty_subset _)
      ?_ ?_ ?_ ?_ ?_ ?_ ?_ hsolv ?_
    · intro m hm
      rw [List.mem_singleton.mp hm]
      exact ⟨⟨hinv, rfl⟩, fun t ht => absurd ht (List.not_mem_nil t),
        trivial, rfl, hg', Finset.mem_singleton_self _, le_refl 0⟩
    · rw [Finset.singleton_subset_iff]
      exact hmem
    · intro k hk _
      exact ⟨⟨s0, [], 0⟩, List.mem_singleton_self _,
        (Finset.mem_singleton.mp hk).symm⟩
    · intro k hk
      exact absurd hk (Finset.not_mem_empty k)
    · intro s hsg hsk
      rw [is_goal_congr hsg.1.1 hinv.1 (Finset.mem_singleton.mp hsk)]
      exact hg'
    · exact List.sorted_singleton _
    · intro hd hhd
      have hd0 : hd = (⟨s0, [], 0⟩ : Node) :=
        (Option.some_inj.mp hhd).symm
      constructor
      · intro m hm
        rw [List.mem_singleton.mp hm, hd0]
        omega
      · intro k _
        exact Nat.zero_le _
    · intro q hq
      refine ⟨⟨s0, [], 0⟩, List.mem_singleton_self _, 0, s0, ?_, rfl,
        le_refl 0⟩
      rw [← List.head?_eq_getElem?]
      exact hq.1
    · rw [List.length_singleton, Finset.card_singleton]
      unfold uninformedBound stateCount at hfuel
      omega

/-- Witness for C10 on the two-vehicle fixture: BFS returns a shortest
solution when given the universe fuel bound. -/
theorem solPathXA_chain :
    List.Chain' (fun a b => b ∈ a.get_successors bXA) solPathXA :=
  List.chain'_cons.mpr ⟨by decide, List.chain'_cons.mpr ⟨by decide,
    List.chain'_cons.mpr ⟨by decide, List.chain'_cons.mpr ⟨by decide,
      List.chain'_cons.mpr ⟨by decide, List.chain'_singleton _⟩⟩⟩⟩⟩

/-- Witness for C10 on the two-vehicle fixture: BFS returns a shortest
solution when given the universe fuel bound. -/
theorem C10_witness :
    ∃ p, bfsSolve bXA sXA (uninformedBound sXA) = some (some p) ∧
      ValidSolution bXA sXA p ∧
      ∀ q, ValidSolution bXA sXA q → p.length ≤ q.length :=
  C10_bfs_shortest (by decide) (by decide) (by decide) le_rfl
    ⟨solPathXA,
      rfl,
      solPathXA_chain,
      ⟨[('X', ⟨'X', .h, 4, 2, 2⟩), ('A', ⟨'A', .v, 4, 0, 2⟩)]⟩,
      by decide, by decide⟩

/-! ## C3: UCS returns a cost-minimal solution -/

/-- The popped node has minimal `path_cost` in the heap. -/
theorem popMin_min : ∀ {fr : List Node} {n : Node} {fr' : List Node},
    popMin fr = some (n, fr') → ∀ m ∈ fr, n.path_cost ≤ m.path_cost := by
  intro fr
  induction fr with
  | nil => intro n fr' h; cases h
  | cons a t ih =>
      intro n fr' h m hm
      unfold popMin at h
      cases hrec : popMin t with
      | none =>
          rw [hrec] at h
          cases t with
          | nil =>
              cases h
              rw [List.mem_singleton.mp hm]
          | cons b t' =>
              exact absurd hrec (popMin_ne_none (by simp))
      | some p =>
          rw [hrec] at h
          rcases p with ⟨m', rest'⟩
          have h2 : (if a.path_cost ≤ m'.path_cost then some (a, t)
              else some (m', a :: rest')) = some (n, fr') := h
          have hmin' := ih hrec
          have hm'mem : m' ∈ t := (popMin_perm hrec).mem_iff.mpr
            (List.mem_cons_self _ _)
          by_cases hle : a.path_cost ≤ m'.path_cost
          · rw [if_pos hle] at h2
            cases h2
            rcases List.mem_cons.mp hm with rfl | hm'
            · exact le_refl _
            · exact hle.trans (hmin' m hm')
          · rw [if_neg hle] at h2
            cases h2
            rcases List.mem_cons.mp hm with rfl | hm'
            · omega
            · exact hmin' m hm'

/-- Prefixes never cost more than the full path. -/
theorem pathCost_take_le : ∀ (q : List State) (j : Nat),
    pathCost (q.take j) ≤ pathCost q := by
  intro q
  induction q with
  | nil =>
      intro j
      rw [List.take_nil]
  | cons a t ih =>
      intro j
      cases j with
      | zero => exact Nat.zero_le _
      | succ j' =>
          rw [List.take_succ_cons]
          cases t with
          | nil =>
              rw [List.take_nil]
          | cons b t' =>
              cases j' with
              | zero =>
                  exact Nat.zero_le _
              | succ j'' =>
                  have hih := ih (j'' + 1)
                  rw [List.take_succ_cons] at hih
                  show movedCost a b + pathCost (b :: t'.take j'')
                    ≤ movedCost a b + pathCost (b :: t')
                  omega

/-- The prefix-cost recurrence along consecutive path entries. -/
theorem pathCost_take_succ : ∀ (j : Nat) (q : List State) (a b : State),
    q[j]? = some a → q[j + 1]? = some b →
    pathCost (q.take (j + 2)) = pathCost (q.take (j + 1)) + movedCost a b := by
  intro j
  induction j with
  | zero =>
      intro q a b ha hb
      cases q with
      | nil => cases ha
      | cons x t =>
          have hx : x = a := by
            rw [List.getElem?_cons_zero] at ha
            exact Option.some_inj.mp ha
          cases t with
          | nil => cases hb
          | cons y t' =>
              have hy : y = b := by
                rw [List.getElem?_cons_succ, List.getElem?_cons_zero] at hb
                exact Option.some_inj.mp hb
              rw [hx, hy]
              show movedCost a b + 0 = 0 + movedCost a b
              omega
  | succ j' ih =>
      intro q a b ha hb
      cases q with
      | nil => cases ha
      | cons x t =>
          rw [List.getElem?_cons_succ] at ha hb
          cases t with
          | nil => cases ha
          | cons y t' =>
              have hstep := ih (y :: t') a b ha hb
              have hstep' : pathCost (y :: t'.take (j' + 1))
                  = pathCost (y :: t'.take j') + movedCost a b := hstep
              show movedCost x y + pathCost (y :: t'.take (j' + 1))
                = movedCost x y + pathCost (y :: t'.take j') + movedCost a b
              omega

theorem UcsRight.mono {board : Board} {s0 : State}
    {ex ex' : StateKey → Option Nat} {k : StateKey} {e : Nat}
    (hd : ExDecr ex ex') (h : UcsRight board s0 ex k e) :
    UcsRight board s0 ex' k e := by
  obtain ⟨s, hg, hk, hng, hall⟩ := h
  refine ⟨s, hg, hk, hng, fun s' hs' => ?_⟩
  obtain ⟨c', hc', hle⟩ := hall s' hs'
  obtain ⟨c'', hc'', hle'⟩ := hd s'.key c' hc'
  exact ⟨c'', hc'', hle'.trans hle⟩

/-- Walking a goal path through the link invariant yields a frontier
node at most as costly as the path. -/
theorem ucs_walk {board : Board} {s0 : State}
    {fr : List Node} {ex : StateKey → Option Nat}
    (hL : UcsLink board s0 fr ex)
    {q : List State} (hpath : IsPath board q)
    (hgoodq : ∀ st ∈ q, GoodState s0 st)
    {glast : State} (hlast : q.getLast? = some glast)
    (hgoal : glast.is_goal_state board = true) :
    ∀ (fuel j : Nat) (st : State) (c : Nat), q.length - j ≤ fuel →
      q[j]? = some st → ex st.key = some c →
      c ≤ pathCost (q.take (j + 1)) →
      ∃ n ∈ fr, n.path_cost ≤ pathCost q := by
  intro fuel
  induction fuel with
  | zero =>
      intro j st c hle hj _ _
      obtain ⟨hjlt, -⟩ := List.getElem?_eq_some.mp hj
      omega
  | succ f ih =>
      intro j st c hle hj hc hcle
      rcases hL st.key c hc with ⟨n, hn, -, hne⟩ | hright
      · refine ⟨n, hn, ?_⟩
        rw [hne]
        exact hcle.trans (pathCost_take_le q (j + 1))
      · obtain ⟨hjlt, hjget⟩ := List.getElem?_eq_some.mp hj
        have hstg : GoodState s0 st := hgoodq st (List.getElem?_mem hj)
        obtain ⟨s, hsg, hskey, hsng, hsall⟩ := hright
        have hne : j ≠ q.length - 1 := by
          intro hj'
          rw [List.getLast?_eq_getElem?, ← hj', hj] at hlast
          have hstq : st = glast := Option.some_inj.mp hlast
          have hstg' : st.is_goal_state board = true := by
            rw [hstq]
            exact hgoal
          rw [is_goal_congr hstg.1.1 hsg.1.1 hskey.symm] at hstg'
          rw [hsng] at hstg'
          exact Bool.noConfusion hstg'
        have hjlt1 : j + 1 < q.length := by omega
        have hj1 : q[j + 1]? = some (q.get ⟨j + 1, hjlt1⟩) := by
          rw [List.get_eq_getElem]
          exact List.getElem?_eq_getElem hjlt1
        have hsucc : q.get ⟨j + 1, hjlt1⟩ ∈ st.get_successors board := by
          have hrel := (List.chain'_iff_get.mp hpath) j (by omega)
          have hget : q.get ⟨j, by omega⟩ = st := by
            rw [List.get_eq_getElem]
            exact hjget
          rw [hget] at hrel
          exact hrel
        obtain ⟨s'', hs''mem, hs''key, hs''mc⟩ :=
          succ_key_congr hstg.1 hsg.1 hskey.symm hsucc
        obtain ⟨c', hc', hcle'⟩ := hsall s'' hs''mem
        rw [hs''key] at hc'
        have hrec := pathCost_take_succ j q st (q.get ⟨j + 1, hjlt1⟩)
          hj hj1
        refine ih (j + 1) (q.get ⟨j + 1, hjlt1⟩) c' (by omega) hj1 hc' ?_
        rw [hrec]
        rw [hs''mc] at hcle'
        omega

/-- The UCS expansion keeps nodes well formed and rooted, weakens the
explored map, preserves the link invariant (with the popped parent as
a pending middle case), and records every successor within one move of
the parent's cost. -/
theorem ucsExpand_opt {board : Board} {s0 : State}
    (hw : board.width = 6) (hh : board.height = 6) :
    ∀ (succs : List State) (fr : List Node) (ex : StateKey → Option Nat)
      (parent : Node),
      (∀ st ∈ succs, st ∈ parent.state.get_successors board) →
      NodeOK board s0 ex parent → Rooted s0 parent →
      (∀ n ∈ fr, NodeOK board s0 ex n ∧ Rooted s0 n) →
      (∀ k e, ex k = some e →
        (∃ n ∈ fr, n.state.key = k ∧ n.path_cost = e) ∨
        (k = parent.state.key ∧ e = parent.path_cost) ∨
        UcsRight board s0 ex k e) →
      (∀ n ∈ (ucsExpand board parent succs fr ex).1,
         NodeOK board s0 (ucsExpand board parent succs fr ex).2 n ∧
           Rooted s0 n) ∧
      ExDecr ex (ucsExpand board parent succs fr ex).2 ∧
      (∀ k e, (ucsExpand board parent succs fr ex).2 k = some e →
        (∃ n ∈ (ucsExpand board parent succs fr ex).1,
           n.state.key = k ∧ n.path_cost = e) ∨
        (k = parent.state.key ∧ e = parent.path_cost) ∨
        UcsRight board s0 (ucsExpand board parent succs fr ex).2 k e) ∧
      (∀ st ∈ succs, ∃ c', (ucsExpand board parent succs fr ex).2 st.key
         = some c' ∧ c' ≤ parent.path_cost + movedCost parent.state st) := by
  intro succs
  induction succs with
  | nil =>
      intro fr ex parent _ _ _ hfr hlink
      exact ⟨hfr, ExDecr.refl ex, hlink,
        fun u hu => absurd hu (List.not_mem_nil u)⟩
  | cons st rest ih =>
      intro fr ex parent hsub hpar hparR hfr hlink
      have hst := hsub st (List.mem_cons_self _ _)
      have hrest : ∀ u ∈ rest, u ∈ parent.state.get_successors board :=
        fun u hu => hsub u (List.mem_cons_of_mem _ hu)
      have hpush : ∀ (hguard : ex st.key = none ∨ ∃ c, ex st.key = some c ∧
            parent.path_cost + movedCost parent.state st < c),
          (∀ n ∈ (ucsExpand board parent rest
              (fr ++ [⟨st, parent.state :: parent.rpath,
                parent.path_cost + movedCost parent.state st⟩])
              (Function.update ex st.key
                (some (parent.path_cost + movedCost parent.state st)))).1,
            NodeOK board s0 (ucsExpand board parent rest
              (fr ++ [⟨st, parent.state :: parent.rpath,
                parent.path_cost + movedCost parent.state st⟩])
              (Function.update ex st.key
                (some (parent.path_cost + movedCost parent.state st)))).2 n ∧
              Rooted s0 n) ∧
          ExDecr ex (ucsExpand board parent rest
              (fr ++ [⟨st, parent.state :: parent.rpath,
                parent.path_cost + movedCost parent.state st⟩])
              (Function.update ex st.key
                (some (parent.path_cost + movedCost parent.state st)))).2 ∧
          (∀ k e, (ucsExpand board parent rest
              (fr ++ [⟨st, parent.state :: parent.rpath,
                parent.path_cost + movedCost parent.state st⟩])
              (Function.update ex st.key
                (some (parent.path_cost + movedCost parent.state st)))).2 k
                = some e →
            (∃ n ∈ (ucsExpand board parent rest
              (fr ++ [⟨st, parent.state :: parent.rpath,
                parent.path_cost + movedCost parent.state st⟩])
              (Function.update ex st.key
                (some (parent.path_cost + movedCost parent.state st)))).1,
              n.state.key = k ∧ n.path_cost = e) ∨
            (k = parent.state.key ∧ e = parent.path_cost) ∨
            UcsRight board s0 (ucsExpand board parent rest
              (fr ++ [⟨st, parent.state :: parent.rpath,
                parent.path_cost + movedCost parent.state st⟩])
              (Function.update ex st.key
                (some (parent.path_cost + movedCost parent.state st)))).2
              k e) ∧
          (∀ u ∈ st :: rest, ∃ c', (ucsExpand board parent rest
              (fr ++ [⟨st, parent.state :: parent.rpath,
                parent.path_cost + movedCost parent.state st⟩])
              (Function.update ex st.key
                (some (parent.path_cost + movedCost parent.state st)))).2
                u.key = some c' ∧
              c' ≤ parent.path_cost + movedCost parent.state u) := by
        intro hguard
        obtain ⟨hnodeOK, hdecr⟩ := push_nodeOK hw hh hpar hst hguard
        have hpar2 := nodeOK_mono hdecr hpar
        have hfr2 : ∀ n ∈ fr ++ [(⟨st, parent.state :: parent.rpath,
            parent.path_cost + movedCost parent.state st⟩ : Node)],
            NodeOK board s0 (Function.update ex st.key
              (some (parent.path_cost + movedCost parent.state st))) n ∧
              Rooted s0 n := by
          intro n hn
          rcases List.mem_append.mp hn with h | h
          · exact ⟨nodeOK_mono hdecr (hfr n h).1, (hfr n h).2⟩
          · rw [List.mem_singleton.mp h]
            refine ⟨hnodeOK, ?_⟩
            show (st :: parent.state :: parent.rpath).getLast? = some s0
            rw [List.getLast?_cons_cons]
            exact hparR
        have hlink2 : ∀ k e, Function.update ex st.key
            (some (parent.path_cost + movedCost parent.state st)) k
              = some e →
            (∃ n ∈ fr ++ [(⟨st, parent.state :: parent.rpath,
                parent.path_cost + movedCost parent.state st⟩ : Node)],
              n.state.key = k ∧ n.path_cost = e) ∨
            (k = parent.state.key ∧ e = parent.path_cost) ∨
            UcsRight board s0 (Function.update ex st.key
              (some (parent.path_cost + movedCost parent.state st)))
              k e := by
          intro k e hke
          by_cases hk : k = st.key
          · subst hk
            rw [Function.update_same] at hke
            refine Or.inl ⟨⟨st, parent.state :: parent.rpath,
              parent.path_cost + movedCost parent.state st⟩,
              List.mem_append.mpr (Or.inr (List.mem_singleton_self _)),
              rfl, ?_⟩
            exact Option.some_inj.mp hke
          · rw [Function.update_noteq hk] at hke
            rcases hlink k e hke with ⟨n, hn, hk1, hk2⟩ | hmid | hright
            · exact Or.inl ⟨n, List.mem_append.mpr (Or.inl hn), hk1, hk2⟩
            · exact Or.inr (Or.inl hmid)
            · exact Or.inr (Or.inr (hright.mono hdecr))
        obtain ⟨H1, H2, H3, H4⟩ := ih _ _ parent hrest hpar2 hparR hfr2
          hlink2
        refine ⟨H1, hdecr.trans H2, H3, ?_⟩
        intro u hu
        rcases List.mem_cons.mp hu with rfl | hu'
        · obtain ⟨c', hc', hle⟩ := H2 u.key
            (parent.path_cost + movedCost parent.state u)
            (by rw [Function.update_same])
          exact ⟨c', hc', hle⟩
        · exact H4 u hu'
      cases hexk : ex st.key with
      | none =>
          rw [ucsExpand_cons_none hexk]
          exact hpush (Or.inl hexk)
      | some c =>
          by_cases hlt : parent.path_cost + movedCost parent.state st < c
          · rw [ucsExpand_cons_lt hexk hlt]
            exact hpush (Or.inr ⟨c, hexk, hlt⟩)
          · rw [ucsExpand_cons_ge hexk hlt]
            obtain ⟨H1, H2, H3, H4⟩ := ih fr ex parent hrest hpar hparR
              hfr hlink
            refine ⟨H1, H2, H3, ?_⟩
            intro u hu
            rcases List.mem_cons.mp hu with rfl | hu'
            · obtain ⟨c', hc', hle⟩ := H2 u.key c hexk
              exact ⟨c', hc', by omega⟩
            · exact H4 u hu'

/-- The UCS loop, run under the link invariant on a solvable instance
with enough fuel, returns a valid solution no costlier than any valid
solution. -/
theorem ucsLoop_opt {board : Board} {s0 : State}
    (hw : board.width = 6) (hh : board.height = 6) (h0 : GoodState s0 s0) :
    ∀ (fuel : Nat) (fr : List Node) (ex : StateKey → Option Nat),
      (∀ n ∈ fr, NodeOK board s0 ex n ∧ Rooted s0 n) →
      UcsLink board s0 fr ex →
      ex s0.key = some 0 →
      (∃ q, ValidSolution board s0 q) →
      fr.length + exSum s0 (costBound s0) ex < fuel →
      ∃ p, ucsLoop board fuel fr ex = some (some p) ∧
        ValidSolution board s0 p ∧
        ∀ q, ValidSolution board s0 q → pathCost p ≤ pathCost q := by
  intro fuel
  induction fuel with
  | zero =>
      intro fr ex _ _ _ _ hlt
      omega
  | succ f ih =>
      intro fr ex hfr hL hroot hsolv hlt
      rw [ucsLoop_succ]
      cases hpop : popMin fr with
      | none =>
          exfalso
          cases fr with
          | cons a t => exact absurd hpop (popMin_ne_none (by simp))
          | nil =>
              obtain ⟨q, hq⟩ := hsolv
              have hqgood := valid_states_good hw hh h0 hq
              obtain ⟨hqhead, hqpath, glast, hqlast, hqgoal⟩ := hq
              have hq0 : q[0]? = some s0 := by
                rw [← List.head?_eq_getElem?]
                exact hqhead
              obtain ⟨m, hm, -⟩ := ucs_walk hL hqpath hqgood hqlast
                hqgoal q.length 0 s0 0 (Nat.sub_le _ _) hq0 hroot
                (Nat.zero_le _)
              exact absurd hm (List.not_mem_nil m)
      | some p =>
          rcases p with ⟨n, fr₂⟩
          have hperm := popMin_perm hpop
          have hn := (hfr n (hperm.mem_iff.mpr (List.mem_cons_self _ _))).1
          have hnR := (hfr n (hperm.mem_iff.mpr (List.mem_cons_self _ _))).2
          have hfr₂ : ∀ m ∈ fr₂, NodeOK board s0 ex m ∧ Rooted s0 m :=
            fun m hm => hfr m (hperm.mem_iff.mpr
              (List.mem_cons_of_mem _ hm))
          have hlen : fr.length = fr₂.length + 1 := by
            rw [hperm.length_eq, List.length_cons]
          by_cases hgoal : n.state.is_goal_state board = true
          · simp only [hgoal, if_true]
            refine ⟨reconstruct n, rfl, ?_, ?_⟩
            · exact reconstruct_valid hn.2.2.1 hnR hgoal
            · intro q hq
              have hqgood := valid_states_good hw hh h0 hq
              obtain ⟨hqhead, hqpath, glast, hqlast, hqgoal⟩ := hq
              have hq0 : q[0]? = some s0 := by
                rw [← List.head?_eq_getElem?]
                exact hqhead
              obtain ⟨m, hm, hmle⟩ := ucs_walk hL hqpath hqgood hqlast
                hqgoal q.length 0 s0 0 (Nat.sub_le _ _) hq0 hroot
                (Nat.zero_le _)
              have hnm := popMin_min hpop m hm
              rw [pathCost_reconstruct, ← hn.2.2.2.1]
              omega
          · simp only [hgoal, Bool.false_eq_true, if_false]
            have hgoal' : n.state.is_goal_state board = false := by
              cases hsg : n.state.is_goal_state board
              · rfl
              · exact absurd hsg hgoal
            have hlink₂ : ∀ k e, ex k = some e →
                (∃ m ∈ fr₂, m.state.key = k ∧ m.path_cost = e) ∨
                (k = n.state.key ∧ e = n.path_cost) ∨
                UcsRight board s0 ex k e := by
              intro k e hke
              rcases hL k e hke with ⟨m, hm, hk1, hk2⟩ | hright
              · rcases List.mem_cons.mp (hperm.mem_iff.mp hm) with rfl | hm'
                · exact Or.inr (Or.inl ⟨hk1.symm, hk2.symm⟩)
                · exact Or.inl ⟨m, hm', hk1, hk2⟩
              · exact Or.inr (Or.inr hright)
            obtain ⟨H1, H2, H3, H4⟩ := ucsExpand_opt hw hh
              (n.state.get_successors board) fr₂ ex n (fun st hst => hst)
              hn hnR hfr₂ hlink₂
            have hL' : UcsLink board s0
                (ucsExpand board n (n.state.get_successors board) fr₂ ex).1
                (ucsExpand board n (n.state.get_successors board) fr₂ ex).2
                := by
              intro k e hke
              rcases H3 k e hke with hleft | ⟨hkey, hcost⟩ | hright
              · exact Or.inl hleft
              · refine Or.inr ⟨n.state, hn.1, hkey.symm, hgoal', ?_⟩
                intro s' hs'
                obtain ⟨c', hc', hle⟩ := H4 s' hs'
                refine ⟨c', hc', ?_⟩
                rw [hcost]
                exact hle
              · exact Or.inr hright
            have hroot' : (ucsExpand board n
                (n.state.get_successors board) fr₂ ex).2 s0.key
                = some 0 := by
              obtain ⟨c', hc', hle⟩ := H2 s0.key 0 hroot
              have hc0 : c' = 0 := by omega
              rw [hc0] at hc'
              exact hc'
            have hmeas := (ucsExpand_term hw hh
              (n.state.get_successors board) fr₂ ex n (fun st hst => hst)
              hn (fun m hm => (hfr₂ m hm).1)).2.2
            exact ih _ _ H1 hL' hroot' hsolv (by omega)

/-- C3: For every solvable instance (well-formed initial state on the
6x6 board), `UcsSolver.solve` returns a path whose cumulative cost -
the sum over consecutive path states of the length of the vehicle that
moved - is minimal among all goal-reaching successor paths, given any
iteration budget beyond the finite weighted bound. -/
theorem C3_ucs_optimal {board : Board} {s0 : State}
    (hinv : s0.Inv) (hw : board.width = 6) (hh : board.height = 6)
    {fuel : Nat} (hfuel : weightedBound s0 ≤ fuel)
    (hsolv : ∃ q, ValidSolution board s0 q) :
    ∃ p, ucsSolve board s0 fuel = some (some p) ∧
      ValidSolution board s0 p ∧
      ∀ q, ValidSolution board s0 q → pathCost p ≤ pathCost q := by
  unfold ucsSolve
  refine ucsLoop_opt hw hh ⟨hinv, rfl⟩ fuel _ _ ?_ ?_ ?_ hsolv ?_
  · intro n hn
    rw [List.mem_singleton.mp hn]
    refine ⟨⟨⟨hinv, rfl⟩, ?_, trivial, rfl, ?_, ?_⟩, rfl⟩
    · intro t ht
      cases ht
    · show ∃ c, Function.update (fun _ => none) s0.key (some 0) s0.key
        = some c ∧ c ≤ pathCostR s0 []
      refine ⟨0, ?_, le_rfl⟩
      rw [Function.update_same]
    · exact List.nodup_singleton _
  · intro k e hke
    by_cases hk : k = s0.key
    · subst hk
      rw [Function.update_same] at hke
      exact Or.inl ⟨⟨s0, [], 0⟩, List.mem_singleton_self _, rfl,
        Option.some_inj.mp hke⟩
    · rw [Function.update_noteq hk] at hke
      cases hke
  · rw [Function.update_same]
  · have hsum : exSum s0 (costBound s0)
        (Function.update (fun _ => none) s0.key (some 0))
        ≤ costBound s0 * stateCount s0 := by
      unfold exSum
      calc (universeKeys s0).sum (fun k => exVal (costBound s0)
            (Function.update (fun _ => none) s0.key (some 0) k))
          ≤ (universeKeys s0).sum (fun _ => costBound s0) := by
            apply Finset.sum_le_sum
            intro k _
            by_cases hk : k = s0.key
            · subst hk
              rw [Function.update_same]
              show 0 ≤ costBound s0
              omega
            · rw [Function.update_noteq hk]
              exact le_rfl
      _ = stateCount s0 * costBound s0 := by
            rw [Finset.sum_const, smul_eq_mul]
            rfl
      _ = costBound s0 * stateCount s0 := Nat.mul_comm _ _
    rw [List.length_singleton]
    unfold weightedBound at hfuel
    omega

/-- Witness for C3 on the two-vehicle fixture: UCS returns a
cost-minimal solution when given the weighted fuel bound. -/
theorem C3_witness :
    ∃ p, ucsSolve bXA sXA (weightedBound sXA) = some (some p) ∧
      ValidSolution bXA sXA p ∧
      ∀ q, ValidSolution bXA sXA q → pathCost p ≤ pathCost q :=
  C3_ucs_optimal (by decide) (by decide) (by decide) le_rfl
    ⟨solPathXA,
      rfl,
      solPathXA_chain,
      ⟨[('X', ⟨'X', .h, 4, 2, 2⟩), ('A', ⟨'A', .v, 4, 0, 2⟩)]⟩,
      by decide, by decide⟩

end RushHour
